import Mathlib

/-
  Verification of the Codediff diff engine.

  The definitions below are a shallow embedding of the engine's JavaScript
  source.  JavaScript numbers are modelled as exact integers (every quantity
  that arises stays far inside the exact range of both IEEE doubles and the
  Int32Array used for the furthest-reach vector at any feasible input size),
  arrays as lists or as update functions, and out-of-range array reads - all
  of which are dead guarded branches in the source - by total functions with
  a default.
-/

namespace Codediff

/-- Dropping a while-matched run never lengthens a list (termination helper). -/
theorem lengthDropWhileLe {α : Type} (p : α → Bool) :
    ∀ l : List α, (l.dropWhile p).length ≤ l.length := by
  intro l
  induction l with
  | nil => simp
  | cons c cs ih =>
    rw [List.dropWhile]
    cases p c
    · simp
    · simpa using Nat.le_trans ih (Nat.le_succ _)

/- ───────────────────────── character classes (regex \w and \s) ───────── -/

/-- Characters matched by the JavaScript regex class \s (plus BOM, as in V8). -/
def jsSpaceChars : List Char :=
  ['\t', '\n', '\x0B', '\x0C', '\r', ' ', ' ', ' ',
   ' ', ' ', ' ', ' ', ' ', ' ', ' ',
   ' ', ' ', ' ', ' ', ' ', ' ', ' ',
   ' ', '　', '﻿']

/-- Characters matched by the JavaScript regex class \w : ASCII letters, digits, underscore. -/
def isWordChar (c : Char) : Bool :=
  decide (('a' ≤ c ∧ c ≤ 'z') ∨ ('A' ≤ c ∧ c ≤ 'Z') ∨ ('0' ≤ c ∧ c ≤ '9') ∨ c = '_')

/-- Membership in the JavaScript \s class. -/
def isJsSpace (c : Char) : Bool :=
  decide (c ∈ jsSpaceChars)

/- ───────────────────────── escape (lines 24-29 of the source) ─────────── -/

/-- The apostrophe character, written by code point. -/
def aposChar : Char := Char.ofNat 39

/-- Per-character HTML escaping map ESC of the source. -/
def escChar (c : Char) : String :=
  if c = '&' then "&amp;"
  else if c = '<' then "&lt;"
  else if c = '>' then "&gt;"
  else if c = '"' then "&quot;"
  else if c = aposChar then "&#39;"
  else String.mk [c]

/-- escape: str.replace(/[&<>"']/g, c => ESC[c]).  The global single-character
class regex replaces each occurring character independently, i.e. it maps
escChar over the characters. -/
def escape (s : String) : String :=
  String.join (s.data.map escChar)

/- ───────────────────────── splitLines (lines 34-36) ───────────────────── -/

/-- Scanner for text.split(/\r?\n/): a CRLF pair or a lone LF ends a line;
a lone CR does not. -/
def splitLinesGo (cur : List Char) : List Char → List String
  | [] => [String.mk cur]
  | '\r' :: '\n' :: rest => String.mk cur :: splitLinesGo [] rest
  | '\n' :: rest => String.mk cur :: splitLinesGo [] rest
  | c :: rest => splitLinesGo (cur ++ [c]) rest

/-- splitLines(text) = text.split(/\r?\n/). -/
def splitLines (text : String) : List String :=
  splitLinesGo [] text.data

/- ───────────────────────── normalizeForCompare (lines 41-44) ──────────── -/

/-- line.replace(/\s+/g, ' '): each maximal whitespace run becomes one space.
The fuel argument is the length of the remaining input, the exact variant of
the scan. -/
def collapseWsGo : ℕ → List Char → List Char
  | _, [] => []
  | 0, _ :: _ => []
  | fuel + 1, c :: cs =>
    if isJsSpace c then ' ' :: collapseWsGo fuel (cs.dropWhile isJsSpace)
    else c :: collapseWsGo fuel cs

/-- line.replace(/\s+/g, ' '). -/
def collapseWs (cs : List Char) : List Char :=
  collapseWsGo cs.length cs

/-- JavaScript String.prototype.trim over our \s class. -/
def jsTrim (cs : List Char) : List Char :=
  ((cs.dropWhile isJsSpace).reverse.dropWhile isJsSpace).reverse

/-- normalizeForCompare(line, ignoreWhitespace). -/
def normalizeForCompare (line : String) (ignoreWhitespace : Bool) : String :=
  if ignoreWhitespace then String.mk (jsTrim (collapseWs line.data)) else line

/- ───────────────────────── tokenizeWords (lines 205-208) ──────────────── -/

/-- Scanner equivalent of line.match(/\w+|\s+|[^\w\s]/g): at every position the
alternation matches (maximal word run, else maximal whitespace run, else the
single symbol), so the token list is a left-to-right partition of the line. -/
def tokenizeGo : ℕ → List Char → List String
  | _, [] => []
  | 0, _ :: _ => []
  | fuel + 1, c :: cs =>
    if isWordChar c then
      String.mk (c :: cs.takeWhile isWordChar) :: tokenizeGo fuel (cs.dropWhile isWordChar)
    else if isJsSpace c then
      String.mk (c :: cs.takeWhile isJsSpace) :: tokenizeGo fuel (cs.dropWhile isJsSpace)
    else
      String.mk [c] :: tokenizeGo fuel cs

/-- tokenizeWords(line); the fuel is the length of the line, the exact scan
variant. -/
def tokenizeWords (line : String) : List String :=
  tokenizeGo line.data.length line.data

/- ───────────────────────── computeLCS (lines 210-230) ─────────────────── -/

/-- Value of the LCS dynamic-programming table dp[i][j] of computeLCS: the
table is filled row by row with exactly this recurrence, values start at 0. -/
def dpF (a b : List String) : ℕ → ℕ → ℕ
  | 0, _ => 0
  | _ + 1, 0 => 0
  | i + 1, j + 1 =>
    if a.getD i "" = b.getD j "" then dpF a b i j + 1
    else max (dpF a b i (j + 1)) (dpF a b (i + 1) j)
termination_by i j => i + j

/-- The backtracking walk of computeLCS (result.unshift builds the list front
to back while i, j walk down to a border). -/
def lcsWalk (a b : List String) : ℕ → ℕ → List String → List String
  | i + 1, j + 1, acc =>
    if a.getD i "" = b.getD j "" then
      lcsWalk a b i j (a.getD i "" :: acc)
    else if dpF a b i (j + 1) > dpF a b (i + 1) j then
      lcsWalk a b i (j + 1) acc
    else
      lcsWalk a b (i + 1) j acc
  | 0, _, acc => acc
  | _ + 1, 0, acc => acc
termination_by i j _ => i + j

/-- computeLCS(a, b), including the n * m > 100000 performance cap. -/
def computeLCS (a b : List String) : List String :=
  if a.length = 0 ∨ b.length = 0 then []
  else if a.length * b.length > 100000 then []
  else lcsWalk a b a.length b.length []

/- ───────────────────────── wordDiff (lines 175-203) ───────────────────── -/

/-- Marker wrapping for an added token. -/
def spanAdded (s : String) : String :=
  "<span class=\"word-added\">" ++ s ++ "</span>"

/-- Marker wrapping for a removed token. -/
def spanRemoved (s : String) : String :=
  "<span class=\"word-removed\">" ++ s ++ "</span>"

/-- Result record of wordDiff. -/
structure WordDiffResult where
  leftHtml : String
  rightHtml : String
deriving DecidableEq, Repr

/-- Model of tokA.slice(ai).includes(lcs[li]): when li is past the end of lcs
the JavaScript value is undefined and includes finds nothing. -/
def lcsMemFrom (tokA : List String) (ai : ℕ) (lcs : List String) (li : ℕ) : Bool :=
  match lcs.get? li with
  | some t => (tokA.drop ai).contains t
  | none => false

/-- The lock-step walk of wordDiff.  Each iteration advances ai or bi, which
is the termination measure. -/
def wordDiffGo (tokA tokB lcs : List String) (ai bi li : ℕ) (accL accR : String) :
    WordDiffResult :=
  if ai < tokA.length ∨ bi < tokB.length then
    if ai < tokA.length ∧ bi < tokB.length ∧ li < lcs.length ∧
        tokA.getD ai "" = lcs.getD li "" ∧ tokB.getD bi "" = lcs.getD li "" then
      wordDiffGo tokA tokB lcs (ai + 1) (bi + 1) (li + 1)
        (accL ++ escape (tokA.getD ai "")) (accR ++ escape (tokB.getD bi ""))
    else if bi < tokB.length ∧ (tokA.length ≤ ai ∨ lcsMemFrom tokA ai lcs li = false) then
      wordDiffGo tokA tokB lcs ai (bi + 1) li
        accL (accR ++ spanAdded (escape (tokB.getD bi "")))
    else
      wordDiffGo tokA tokB lcs (ai + 1) bi li
        (accL ++ spanRemoved (escape (tokA.getD ai ""))) accR
  else ⟨accL, accR⟩
termination_by (tokA.length - ai) + (tokB.length - bi)
decreasing_by
  · omega
  · omega
  · rename_i hw hdead hc2
    clear hdead
    have hai : ai < tokA.length := by
      by_contra hn
      exact hc2 ⟨hw.resolve_left hn, Or.inl (Nat.le_of_not_lt hn)⟩
    omega

/-- wordDiff(lineA, lineB). -/
def wordDiff (lineA lineB : String) : WordDiffResult :=
  let tokA := tokenizeWords lineA
  let tokB := tokenizeWords lineB
  let lcs := computeLCS tokA tokB
  wordDiffGo tokA tokB lcs 0 0 0 "" ""

/-- Fuel-indexed variant of the wordDiff walk, used to state that the walk
terminates within tokA.length + tokB.length iterations. -/
def wordDiffGoFuel (tokA tokB lcs : List String) :
    ℕ → ℕ → ℕ → ℕ → String → String → Option WordDiffResult
  | fuel, ai, bi, li, accL, accR =>
    if ai < tokA.length ∨ bi < tokB.length then
      match fuel with
      | 0 => none
      | fuel + 1 =>
        if ai < tokA.length ∧ bi < tokB.length ∧ li < lcs.length ∧
            tokA.getD ai "" = lcs.getD li "" ∧ tokB.getD bi "" = lcs.getD li "" then
          wordDiffGoFuel tokA tokB lcs fuel (ai + 1) (bi + 1) (li + 1)
            (accL ++ escape (tokA.getD ai "")) (accR ++ escape (tokB.getD bi ""))
        else if bi < tokB.length ∧ (tokA.length ≤ ai ∨ lcsMemFrom tokA ai lcs li = false) then
          wordDiffGoFuel tokA tokB lcs fuel ai (bi + 1) li
            accL (accR ++ spanAdded (escape (tokB.getD bi "")))
        else
          wordDiffGoFuel tokA tokB lcs fuel (ai + 1) bi li
            (accL ++ spanRemoved (escape (tokA.getD ai ""))) accR
    else some ⟨accL, accR⟩

/- ───────────────────────── edits and hunks ────────────────────────────── -/

/-- The tag of a raw edit produced by the line-level aligner. -/
inductive EditType
  | equal
  | delete
  | insert
deriving DecidableEq, Repr

/-- A raw edit record: type plus the touched indices (the source stores -1 on
the side an edit does not touch). -/
structure Edit where
  type : EditType
  li : ℤ
  ri : ℤ
deriving DecidableEq, Repr

/-- The classification of a consolidated hunk. -/
inductive HunkType
  | equal
  | changed
  | removed
  | added
deriving DecidableEq, Repr

/-- A consolidated hunk exactly as built by the source: one-element lLines and
rLines arrays (the placeholder empty string on an absent side) and the start
indices (-1 on an absent side). -/
structure Hunk where
  type : HunkType
  lLines : List String
  rLines : List String
  lStart : ℤ
  rStart : ℤ
deriving DecidableEq, Repr

/- ───────────────────────── myersDiff forward pass (lines 58-89) ───────── -/

/-- JavaScript indexing a[i]: undefined outside the bounds. -/
def jsIndex (l : List String) (i : ℤ) : Option String :=
  if 0 ≤ i ∧ i < l.length then some (l.getD i.toNat "") else none

/-- The snake loop body with explicit fuel (the exact variant a.length - x). -/
def snakeGo (a b : List String) (k : ℤ) : ℕ → ℤ → ℤ
  | 0, x => x
  | fuel + 1, x =>
    if x < (a.length : ℤ) ∧ x - k < (b.length : ℤ) ∧ jsIndex a x = jsIndex b (x - k) then
      snakeGo a b k fuel (x + 1)
    else x

/-- The snake loop: while (x < n and y < m and a[x] === b[y]) x++, y++ along
diagonal k (y = x - k). -/
def snakeEnd (a b : List String) (k : ℤ) (x : ℤ) : ℤ :=
  snakeGo a b k ((a.length : ℤ) - x).toNat x

/-- The defining fixed-point equation of the snake loop. -/
theorem snakeEnd_eq (a b : List String) (k x : ℤ) :
    snakeEnd a b k x =
      if x < (a.length : ℤ) ∧ x - k < (b.length : ℤ) ∧ jsIndex a x = jsIndex b (x - k) then
        snakeEnd a b k (x + 1)
      else x := by
  rw [snakeEnd, snakeEnd]
  rcases hf : ((a.length : ℤ) - x).toNat with _ | fuel
  · have hc : ¬(x < (a.length : ℤ) ∧ x - k < (b.length : ℤ) ∧
        jsIndex a x = jsIndex b (x - k)) := by
      intro hc
      have := hc.1
      omega
    rw [snakeGo, if_neg hc]
  · rw [snakeGo]
    by_cases hc : x < (a.length : ℤ) ∧ x - k < (b.length : ℤ) ∧ jsIndex a x = jsIndex b (x - k)
    · rw [if_pos hc, if_pos hc]
      have h1 := hc.1
      have : ((a.length : ℤ) - (x + 1)).toNat = fuel := by omega
      rw [this]
    · rw [if_neg hc, if_neg hc]

/-- State of the inner k-loop of the forward pass: the furthest-reach vector V
(as an update function over positions, position = k + max) and the break flag
raised when the end of both sequences is reached. -/
structure FwdState where
  V : ℤ → ℤ
  done : Bool

/-- One iteration of the inner k-loop of the forward pass.  After the break
the remaining diagonals of the step are skipped. -/
def stepK (a b : List String) (d : ℤ) (st : FwdState) (k : ℤ) : FwdState :=
  if st.done then st
  else
    let n : ℤ := a.length
    let m : ℤ := b.length
    let idx : ℤ := k + (n + m)
    let x0 : ℤ :=
      if k = -d ∨ (k ≠ d ∧ st.V (idx - 1) < st.V (idx + 1)) then st.V (idx + 1)
      else st.V (idx - 1) + 1
    let x : ℤ := snakeEnd a b k x0
    { V := fun p => if p = idx then x else st.V p
      done := decide (n ≤ x ∧ m ≤ x - k) }

/-- The diagonals visited at step d: k = -d, -d+2, ..., d. -/
def ks (d : ℕ) : List ℤ :=
  (List.range (d + 1)).map fun i : ℕ => -(d : ℤ) + 2 * (i : ℤ)

/-- The outer d-loop of the forward pass (for d = 0 to mx), with the
remaining number of allowed iterations mx + 1 - d as structural fuel.  It
pushes a snapshot of V before each step and stops (outer break) as soon as a
step reaches the end point; the vector state after the break is discarded,
only the trace is used. -/
def fwdLoop (a b : List String) : ℕ → ℕ → (ℤ → ℤ) → List (ℤ → ℤ) → List (ℤ → ℤ)
  | 0, _, _, trace => trace
  | fuel + 1, d, V, trace =>
    let trace' := trace ++ [V]
    let st := (ks d).foldl (stepK a b (d : ℤ)) ⟨V, false⟩
    if st.done then trace'
    else fwdLoop a b fuel (d + 1) st.V trace'

/- ───────────────────────── myersDiff backtracking (lines 91-116) ──────── -/

/-- The body of the inner while of the backtracking pass, with the exact
variant x - prevX as fuel. -/
def eqWalkGo (prevX prevY : ℤ) : ℕ → ℤ → ℤ → List Edit × ℤ × ℤ
  | 0, x, y => ([], x, y)
  | fuel + 1, x, y =>
    if prevX < x ∧ prevY < y then
      let rest := eqWalkGo prevX prevY fuel (x - 1) (y - 1)
      (⟨.equal, x - 1, y - 1⟩ :: rest.1, rest.2)
    else ([], x, y)

/-- The inner while of the backtracking pass: while (x > prevX and y > prevY)
push an equal edit at (x-1, y-1) and decrement both.  Returns the pushed
edits in push order together with the final point. -/
def eqWalk (x y prevX prevY : ℤ) : List Edit × ℤ × ℤ :=
  eqWalkGo prevX prevY (x - prevX).toNat x y

/-- The defining fixed-point equation of the backtracking equal-walk. -/
theorem eqWalk_eq (x y prevX prevY : ℤ) :
    eqWalk x y prevX prevY =
      if prevX < x ∧ prevY < y then
        (⟨.equal, x - 1, y - 1⟩ :: (eqWalk (x - 1) (y - 1) prevX prevY).1,
          (eqWalk (x - 1) (y - 1) prevX prevY).2)
      else ([], x, y) := by
  rw [eqWalk, eqWalk]
  rcases hf : (x - prevX).toNat with _ | fuel
  · rw [eqWalkGo, if_neg]
    intro hc
    omega
  · rw [eqWalkGo]
    by_cases hc : prevX < x ∧ prevY < y
    · rw [if_pos hc, if_pos hc]
      have : (x - 1 - prevX).toNat = fuel := by omega
      rw [this]
    · rw [if_neg hc, if_neg hc]

/-- The backtracking d-loop, from d = trace.length - 1 down to 0, stopping
early once (x, y) has reached the origin.  acc accumulates pushed edits in
push order (reverse document order). -/
def btLoop (trace : List (ℤ → ℤ)) (mx : ℤ) : ℕ → ℤ → ℤ → List Edit → List Edit
  | d, x, y, acc =>
    if x ≤ 0 ∧ y ≤ 0 then acc
    else
      let vPrev := trace.getD d fun _ => 0
      let k := x - y
      let idx := k + mx
      let prevK : ℤ :=
        if k = -(d : ℤ) ∨ (k ≠ (d : ℤ) ∧ vPrev (idx - 1) < vPrev (idx + 1)) then k + 1
        else k - 1
      let prevX := vPrev (prevK + mx)
      let prevY := prevX - prevK
      let w := eqWalk x y prevX prevY
      let next : List Edit × ℤ × ℤ :=
        if 0 < (d : ℤ) then
          if prevX < w.2.1 then (acc ++ w.1 ++ [⟨.delete, w.2.1 - 1, -1⟩], w.2.1 - 1, w.2.2)
          else if prevY < w.2.2 then (acc ++ w.1 ++ [⟨.insert, -1, w.2.2 - 1⟩], w.2.1, w.2.2 - 1)
          else (acc ++ w.1, w.2.1, w.2.2)
        else (acc ++ w.1, w.2.1, w.2.2)
      match d with
      | 0 => next.1
      | d + 1 => btLoop trace mx d next.2.1 next.2.2 next.1

/-- The edit list of myersDiff (forward pass, backtracking, final reverse),
computed on the already-normalized sequences a and b. -/
def myersEditsCore (a b : List String) : List Edit :=
  if a.length + b.length = 0 then []
  else
    let trace := fwdLoop a b (a.length + b.length + 1) 0 (fun _ => 0) []
    (btLoop trace ((a.length : ℤ) + b.length) (trace.length - 1)
      (a.length : ℤ) (b.length : ℤ) []).reverse

/- ───────────────────────── hunk consolidation (lines 118-168) ─────────── -/

/-- JavaScript array read left[i] as stored into a hunk; always in bounds in
every reachable use. -/
def jsGet (l : List String) (i : ℤ) : String :=
  l.getD i.toNat ""

/-- Test for a delete edit. -/
def isDeleteE (e : Edit) : Bool := e.type == .delete

/-- Test for an insert edit. -/
def isInsertE (e : Edit) : Bool := e.type == .insert

/-- The consolidation while-loop: equal edits become single equal hunks; a
delete run with its immediately following insert run becomes a changed block
(positional pairing up to the shorter run length, surplus becoming removed or
added); a bare insert run becomes added hunks.  The fuel is the number of
edits left, the exact variant of the loop. -/
def consolidateGo (left right : List String) : ℕ → List Edit → List Hunk
  | _, [] => []
  | 0, _ :: _ => []
  | fuel + 1, e :: rest =>
    match e.type with
    | .equal =>
      ⟨.equal, [jsGet left e.li], [jsGet right e.ri], e.li, e.ri⟩ ::
        consolidateGo left right fuel rest
    | .delete =>
      let dels := e :: rest.takeWhile isDeleteE
      let rest1 := rest.dropWhile isDeleteE
      let ins := rest1.takeWhile isInsertE
      let rest2 := rest1.dropWhile isInsertE
      (if 0 < dels.length ∧ 0 < ins.length then
        List.zipWith
            (fun de ie =>
              (⟨.changed, [jsGet left de.li], [jsGet right ie.ri], de.li, ie.ri⟩ : Hunk))
            dels ins
          ++ (dels.drop (min dels.length ins.length)).map
              (fun de => ⟨.removed, [jsGet left de.li], [""], de.li, -1⟩)
          ++ (ins.drop (min dels.length ins.length)).map
              (fun ie => ⟨.added, [""], [jsGet right ie.ri], -1, ie.ri⟩)
      else
        dels.map (fun de => (⟨.removed, [jsGet left de.li], [""], de.li, -1⟩ : Hunk))
          ++ ins.map (fun ie => ⟨.added, [""], [jsGet right ie.ri], -1, ie.ri⟩))
        ++ consolidateGo left right fuel rest2
    | .insert =>
      let ins := e :: rest.takeWhile isInsertE
      let rest2 := rest.dropWhile isInsertE
      ins.map (fun ie => (⟨.added, [""], [jsGet right ie.ri], -1, ie.ri⟩ : Hunk))
        ++ consolidateGo left right fuel rest2

/-- consolidate(edits): the loop with its exact fuel. -/
def consolidate (left right : List String) (es : List Edit) : List Hunk :=
  consolidateGo left right es.length es

/-- myersDiff(left, right, ignoreWhitespace): normalize for comparison, run
the shortest-edit-script search (empty result when both sequences are empty),
consolidate into hunks. -/
def myersDiff (left right : List String) (ignoreWhitespace : Bool) : List Hunk :=
  let a := left.map fun l => normalizeForCompare l ignoreWhitespace
  let b := right.map fun l => normalizeForCompare l ignoreWhitespace
  if a.length + b.length = 0 then []
  else consolidate left right (myersEditsCore a b)

/- ───────────────────────── renderers (lines 235-456) ──────────────────── -/

/-- Row class map typeToRowClass (lines 415-418). -/
def typeToRowClass : HunkType → String
  | .equal => "line-equal"
  | .removed => "line-removed"
  | .added => "line-added"
  | .changed => "line-changed"

/-- Placeholder rendered when no hunk differs. -/
def noDifferencesHtml : String :=
  "<div style=\"padding:20px;text-align:center;color:var(--diff-unchanged-text);font-family:var(--font-mono);font-size:0.85rem\">✓ No differences found — files are identical</div>"

/-- Default hunk for the (always in-bounds) indexed reads of the renderers. -/
def defaultHunk : Hunk := ⟨.equal, [], [], -1, -1⟩

/-- The visibility flags: a non-equal hunk makes the window of 4 hunks on each
side of it visible. -/
def visibleFlags (hunks : List Hunk) : List Bool :=
  (List.range hunks.length).map fun j =>
    (List.range hunks.length).any fun i =>
      decide ((hunks.getD i defaultHunk).type ≠ .equal ∧ i - 4 ≤ j ∧ j ≤ i + 4)

/-- Pre-calculated per-side line numbers of renderSideBySide (lines 253-260). -/
def lineNumsGo : List Hunk → ℕ → ℕ → List (Option ℕ × Option ℕ)
  | [], _, _ => []
  | h :: hs, ln, rn =>
    ((if 0 ≤ h.lStart then some ln else none), (if 0 ≤ h.rStart then some rn else none)) ::
      lineNumsGo hs (if 0 ≤ h.lStart then ln + 1 else ln) (if 0 ≤ h.rStart then rn + 1 else rn)

/-- Separator row of the side-by-side renderer (colspan 6). -/
def sepRow6 (skipped : ℕ) : String :=
  "<tr class=\"diff-separator\"><td colspan=\"6\">⋯ " ++ toString skipped ++
    " unchanged line" ++ (if skipped ≠ 1 then "s" else "") ++ " ⋯</td></tr>"

/-- Separator row of the inline renderer (colspan 3). -/
def sepRow3 (skipped : ℕ) : String :=
  "<tr class=\"diff-separator\"><td colspan=\"3\">⋯ " ++ toString skipped ++
    " unchanged line" ++ (if skipped ≠ 1 then "s" else "") ++ " ⋯</td></tr>"

/-- One table row of the side-by-side renderer (lines 290-312). -/
def sbsRow (h : Hunk) (nums : Option ℕ × Option ℕ) : String :=
  let lNum := match nums.1 with | some v => toString v | none => ""
  let rNum := match nums.2 with | some v => toString v | none => ""
  let pair :=
    if h.type = .changed then
      let w := wordDiff (h.lLines.getD 0 "") (h.rLines.getD 0 "")
      (w.leftHtml, w.rightHtml)
    else (escape (h.lLines.getD 0 ""), escape (h.rLines.getD 0 ""))
  let lCode := if h.lLines.getD 0 "" ≠ "" then pair.1 else ""
  let rCode := if h.rLines.getD 0 "" ≠ "" then pair.2 else ""
  "\n<tr class=\"diff-row " ++ typeToRowClass h.type ++ "\" role=\"row\">\n  <td class=\"gutter-cell\" role=\"cell\">" ++
    lNum ++ "</td>\n  <td class=\"diff-cell\" role=\"cell\">" ++ lCode ++
    "</td>\n  <td class=\"diff-divider\" role=\"presentation\"></td>\n  <td class=\"gutter-cell\" role=\"cell\">" ++
    rNum ++ "</td>\n  <td class=\"diff-cell\" role=\"cell\">" ++ rCode ++ "</td>\n</tr>"

/-- The row loop of renderSideBySide, with skipped-run collapsing. -/
def sbsRowsGo (hunks : List Hunk) (vis : List Bool) (nums : List (Option ℕ × Option ℕ)) :
    ℕ → Option ℕ → String → String
  | i, skippedStart, html =>
    if _hi : i < hunks.length then
      if vis.getD i false = false then
        sbsRowsGo hunks vis nums (i + 1)
          (match skippedStart with | none => some i | some s => some s) html
      else
        let html1 :=
          match skippedStart with
          | some s => html ++ sepRow6 (i - s)
          | none => html
        sbsRowsGo hunks vis nums (i + 1) none
          (html1 ++ sbsRow (hunks.getD i defaultHunk) (nums.getD i (none, none)))
    else
      match skippedStart with
      | some s => html ++ sepRow6 (hunks.length - s)
      | none => html
termination_by i _ _ => hunks.length - i
decreasing_by
  · omega
  · omega

/-- renderSideBySide(hunks). -/
def renderSideBySide (hunks : List Hunk) : String :=
  if hunks.all fun h => h.type == .equal then noDifferencesHtml
  else
    "<table class=\"diff-table\" role=\"table\"><colgroup><col/><col/><col/><col/><col/><col/></colgroup><tbody>" ++
      sbsRowsGo hunks (visibleFlags hunks) (lineNumsGo hunks 1 1) 0 none "" ++
      "</tbody></table>"

/-- One equal row of the inline renderer. -/
def inlEqualRow (ln : ℕ) (h : Hunk) : String :=
  "<tr class=\"inline-equal\">\n  <td class=\"inline-gutter\">" ++ toString ln ++
    "</td>\n  <td class=\"inline-gutter\">  </td>\n  <td class=\"inline-code\">" ++
    escape (h.lLines.getD 0 "") ++ "</td>\n</tr>"

/-- One removed row of the inline renderer. -/
def inlRemovedRow (ln : ℕ) (h : Hunk) : String :=
  "<tr class=\"inline-removed\">\n  <td class=\"inline-gutter\">" ++ toString ln ++
    "</td>\n  <td class=\"inline-gutter\">−</td>\n  <td class=\"inline-code\">" ++
    escape (h.lLines.getD 0 "") ++ "</td>\n</tr>"

/-- One added row of the inline renderer. -/
def inlAddedRow (rn : ℕ) (h : Hunk) : String :=
  "<tr class=\"inline-added\">\n  <td class=\"inline-gutter\">  </td>\n  <td class=\"inline-gutter\">" ++
    toString rn ++ "</td>\n  <td class=\"inline-code\">" ++
    escape (h.rLines.getD 0 "") ++ "</td>\n</tr>"

/-- The two consecutive rows of a changed hunk in the inline renderer. -/
def inlChangedRows (ln rn : ℕ) (h : Hunk) : String :=
  let w := wordDiff (h.lLines.getD 0 "") (h.rLines.getD 0 "")
  "<tr class=\"inline-removed\">\n  <td class=\"inline-gutter\">" ++ toString ln ++
    "</td>\n  <td class=\"inline-gutter\">−</td>\n  <td class=\"inline-code\">" ++ w.leftHtml ++
    "</td>\n</tr>\n<tr class=\"inline-added\">\n  <td class=\"inline-gutter\">  </td>\n  <td class=\"inline-gutter\">" ++
    toString rn ++ "</td>\n  <td class=\"inline-code\">" ++ w.rightHtml ++ "</td>\n</tr>"

/-- The row loop of renderInline; line counters also advance across skipped
hunks. -/
def inlRowsGo (hunks : List Hunk) (vis : List Bool) :
    ℕ → ℕ → ℕ → Option ℕ → String → String
  | i, lNum, rNum, skippedStart, html =>
    if _hi : i < hunks.length then
      let h := hunks.getD i defaultHunk
      if vis.getD i false = false then
        inlRowsGo hunks vis (i + 1)
          (if 0 ≤ h.lStart then lNum + 1 else lNum)
          (if 0 ≤ h.rStart then rNum + 1 else rNum)
          (match skippedStart with | none => some i | some s => some s) html
      else
        let html1 :=
          match skippedStart with
          | some s => html ++ sepRow3 (i - s)
          | none => html
        match h.type with
        | .equal => inlRowsGo hunks vis (i + 1) (lNum + 1) (rNum + 1) none (html1 ++ inlEqualRow lNum h)
        | .removed => inlRowsGo hunks vis (i + 1) (lNum + 1) rNum none (html1 ++ inlRemovedRow lNum h)
        | .added => inlRowsGo hunks vis (i + 1) lNum (rNum + 1) none (html1 ++ inlAddedRow rNum h)
        | .changed => inlRowsGo hunks vis (i + 1) (lNum + 1) (rNum + 1) none (html1 ++ inlChangedRows lNum rNum h)
    else
      match skippedStart with
      | some s => html ++ sepRow3 (hunks.length - s)
      | none => html
termination_by i _ _ _ _ => hunks.length - i
decreasing_by
  · omega
  · omega
  · omega
  · omega
  · omega

/-- renderInline(hunks). -/
def renderInline (hunks : List Hunk) : String :=
  if hunks.all fun h => h.type == .equal then noDifferencesHtml
  else
    "<table class=\"inline-table\" role=\"table\"><colgroup><col/><col/><col/></colgroup><tbody>" ++
      inlRowsGo hunks (visibleFlags hunks) 0 1 1 none "" ++
      "</tbody></table>"

/- ───────────────────────── stats and plain text (lines 423-456) ───────── -/

/-- Aggregate hunk counts. -/
structure Stats where
  added : ℕ
  removed : ℕ
  changed : ℕ
deriving DecidableEq, Repr

/-- computeStats(hunks). -/
def computeStats (hunks : List Hunk) : Stats :=
  ⟨hunks.countP (fun h => h.type == .added),
   hunks.countP (fun h => h.type == .removed),
   hunks.countP (fun h => h.type == .changed)⟩

/-- One hunk's contribution to renderPlainText. -/
def plainLine (h : Hunk) : String :=
  match h.type with
  | .equal => "  " ++ h.lLines.getD 0 "" ++ "\n"
  | .removed => "- " ++ h.lLines.getD 0 "" ++ "\n"
  | .added => "+ " ++ h.rLines.getD 0 "" ++ "\n"
  | .changed => "- " ++ h.lLines.getD 0 "" ++ "\n" ++ "+ " ++ h.rLines.getD 0 "" ++ "\n"

/-- renderPlainText(hunks). -/
def renderPlainText (hunks : List Hunk) : String :=
  String.join (hunks.map plainLine)

/- ───────────────────────── public run entry point (lines 472-500) ─────── -/

/-- The options record of the public API. -/
structure Options where
  ignoreWhitespace : Bool
  jsonMode : Bool
  viewMode : String
deriving DecidableEq, Repr

/-- The two result shapes of run: the error value of a failed JSON
normalization, or the success record. -/
inductive RunResult
  | error (msg : String)
  | ok (html : String) (stats : Stats) (plainText : String) (hunks : List Hunk)
deriving DecidableEq, Repr

/-- The hunks of a result (empty for the error shape). -/
def RunResult.hunksOf : RunResult → List Hunk
  | .error _ => []
  | .ok _ _ _ hs => hs

/-- The part of run after JSON normalization. -/
def runCore (leftText rightText : String) (options : Options) : RunResult :=
  let leftLines := splitLines leftText
  let rightLines := splitLines rightText
  let hunks := myersDiff leftLines rightLines options.ignoreWhitespace
  let stats := computeStats hunks
  let html := if options.viewMode = "sidebyside" then renderSideBySide hunks else renderInline hunks
  .ok html stats (renderPlainText hunks) hunks

/-- DiffEngine.run.  The host JSON.parse/JSON.stringify pair behind
normalizeJSON (lines 49-52) is not part of the repository, so run is
parameterized by that normalization function; an error value carries the
parser message caught by run. -/
def runWith (normalizeJSON : String → Except String String)
    (leftText rightText : String) (options : Options) : RunResult :=
  if options.jsonMode then
    match normalizeJSON leftText with
    | .error msg => .error ("Left pane: Invalid JSON — " ++ msg)
    | .ok l =>
      match normalizeJSON rightText with
      | .error msg => .error ("Right pane: Invalid JSON — " ++ msg)
      | .ok r => runCore l r options
  else runCore leftText rightText options

/- ═══════════════════════ proof layer ═══════════════════════════════════ -/

/- ───────────────────────── String.join helpers ────────────────────────── -/

theorem stringFoldlAppend (L : List String) : ∀ acc : String,
    L.foldl (fun r t => r ++ t) acc = acc ++ L.foldl (fun r t => r ++ t) "" := by
  induction L with
  | nil => intro acc; simp [String.append_empty]
  | cons s L ih =>
    intro acc
    simp only [List.foldl_cons]
    rw [ih (acc ++ s), ih ("" ++ s), String.empty_append, String.append_assoc]

theorem stringJoinCons (s : String) (L : List String) :
    String.join (s :: L) = s ++ String.join L := by
  show List.foldl (fun r t => r ++ t) ("" ++ s) L = _
  rw [stringFoldlAppend L ("" ++ s), String.empty_append]
  rfl

theorem stringJoinNil : String.join ([] : List String) = "" := rfl

theorem stringJoinData (L : List String) :
    (String.join L).data = (L.map String.data).flatten := by
  induction L with
  | nil => rfl
  | cons s L ih => rw [stringJoinCons, String.data_append, ih]; rfl

/- ───────────────────────── C7: token reconstruction ───────────────────── -/

theorem mkAppend (a b : List Char) : String.mk a ++ String.mk b = String.mk (a ++ b) := rfl

theorem tokenizeGoJoinAux : ∀ (fuel : ℕ) (cs : List Char), cs.length ≤ fuel →
    String.join (tokenizeGo fuel cs) = String.mk cs := by
  intro fuel
  induction fuel with
  | zero =>
    intro cs hcs
    match cs with
    | [] => rfl
  | succ fuel ih =>
    intro cs hcs
    match cs with
    | [] => rfl
    | c :: cs =>
      rw [tokenizeGo]
      by_cases hw : isWordChar c
      · rw [if_pos hw, stringJoinCons, ih (cs.dropWhile isWordChar) (by
            have := lengthDropWhileLe isWordChar cs
            simp at hcs
            omega)]
        rw [mkAppend]
        simp [List.takeWhile_append_dropWhile]
      · rw [if_neg hw]
        by_cases hs : isJsSpace c
        · rw [if_pos hs, stringJoinCons, ih (cs.dropWhile isJsSpace) (by
              have := lengthDropWhileLe isJsSpace cs
              simp at hcs
              omega)]
          rw [mkAppend]
          simp [List.takeWhile_append_dropWhile]
        · rw [if_neg hs, stringJoinCons, ih cs (by simp at hcs; omega), mkAppend]
          rfl

/-- C7.  For every string, including the empty string and pure-whitespace
strings, concatenating the tokens produced by tokenizeWords in order yields
the original string exactly: tokenization loses no characters. -/
theorem C7_token_reconstruction (line : String) :
    String.join (tokenizeWords line) = line := by
  rw [tokenizeWords, tokenizeGoJoinAux line.data.length line.data le_rfl]

/- ───────────────────────── C6: escaping safety ────────────────────────── -/

/-- The tails (after the ampersand) of the five emitted entities. -/
def entTails : List (List Char) :=
  [('a' :: 'm' :: 'p' :: [';']), ('l' :: 't' :: [';']), ('g' :: 't' :: [';']),
   ('q' :: 'u' :: 'o' :: 't' :: [';']), ('#' :: '3' :: '9' :: [';'])]

/-- A character list in which every ampersand occurs only as the head of one
of the five emitted entities: the list is partitioned into non-ampersand
characters and whole entities. -/
inductive AmpOk : List Char → Prop
  | nil : AmpOk []
  | cons {c : Char} {cs : List Char} : c ≠ '&' → AmpOk cs → AmpOk (c :: cs)
  | ent {tl cs : List Char} : tl ∈ entTails → AmpOk cs → AmpOk ('&' :: (tl ++ cs))

theorem AmpOk.append {xs ys : List Char} (hx : AmpOk xs) (hy : AmpOk ys) :
    AmpOk (xs ++ ys) := by
  induction hx with
  | nil => simpa using hy
  | cons hne _ ih => exact AmpOk.cons hne ih
  | ent hmem _ ih =>
    rw [List.cons_append, List.append_assoc]
    exact AmpOk.ent hmem ih

theorem escCharForbidden (c : Char) :
    ∀ d ∈ (escChar c).data, d ≠ '<' ∧ d ≠ '>' ∧ d ≠ '"' ∧ d ≠ aposChar := by
  intro d hd
  rw [escChar] at hd
  by_cases h1 : c = '&'
  · simp only [h1, if_true] at hd
    fin_cases hd <;> simp [aposChar]
  · rw [if_neg h1] at hd
    by_cases h2 : c = '<'
    · simp only [h2, if_true] at hd
      fin_cases hd <;> simp [aposChar]
    · rw [if_neg h2] at hd
      by_cases h3 : c = '>'
      · simp only [h3, if_true] at hd
        fin_cases hd <;> simp [aposChar]
      · rw [if_neg h3] at hd
        by_cases h4 : c = '"'
        · simp only [h4, if_true] at hd
          fin_cases hd <;> simp [aposChar]
        · rw [if_neg h4] at hd
          by_cases h5 : c = aposChar
          · simp only [h5, if_true] at hd
            fin_cases hd <;> simp [aposChar]
          · rw [if_neg h5] at hd
            simp only [String.mk] at hd
            have : d = c := by simpa using hd
            subst this
            exact ⟨h2, h3, h4, h5⟩

theorem escCharAmpOk (c : Char) : AmpOk (escChar c).data := by
  rw [escChar]
  by_cases h1 : c = '&'
  · simp only [h1, if_true]
    simpa using @AmpOk.ent ('a' :: 'm' :: 'p' :: [';']) [] (by simp [entTails]) AmpOk.nil
  · rw [if_neg h1]
    by_cases h2 : c = '<'
    · simp only [h2, if_true]
      simpa using @AmpOk.ent ('l' :: 't' :: [';']) [] (by simp [entTails]) AmpOk.nil
    · rw [if_neg h2]
      by_cases h3 : c = '>'
      · simp only [h3, if_true]
        simpa using @AmpOk.ent ('g' :: 't' :: [';']) [] (by simp [entTails]) AmpOk.nil
      · rw [if_neg h3]
        by_cases h4 : c = '"'
        · simp only [h4, if_true]
          simpa using @AmpOk.ent ('q' :: 'u' :: 'o' :: 't' :: [';']) [] (by simp [entTails]) AmpOk.nil
        · rw [if_neg h4]
          by_cases h5 : c = aposChar
          · simp only [h5, if_true]
            simpa using @AmpOk.ent ('#' :: '3' :: '9' :: [';']) [] (by simp [entTails]) AmpOk.nil
          · rw [if_neg h5]
            exact AmpOk.cons h1 AmpOk.nil

theorem escapeForbidden (s : String) :
    ∀ d ∈ (escape s).data, d ≠ '<' ∧ d ≠ '>' ∧ d ≠ '"' ∧ d ≠ aposChar := by
  intro d hd
  rw [escape, stringJoinData] at hd
  simp only [List.map_map, List.mem_flatten, List.mem_map] at hd
  obtain ⟨l, ⟨c, _, hcl⟩, hdl⟩ := hd
  exact escCharForbidden c d (by simpa [← hcl] using hdl)

theorem escapeAmpOk (s : String) : AmpOk (escape s).data := by
  rw [escape, stringJoinData]
  induction s.data with
  | nil => exact AmpOk.nil
  | cons c cs ih =>
    simp only [List.map_cons, List.flatten_cons]
    exact AmpOk.append (escCharAmpOk c) ih

/- ───────────────────────── C6: wordDiff marker structure ──────────────── -/

/-- Rendering of one left-side event of the wordDiff walk: a kept token is
emitted escaped, a removed token escaped inside the removed marker. -/
def wdBlockL (p : Bool × String) : String :=
  if p.1 then escape p.2 else spanRemoved (escape p.2)

/-- Rendering of one right-side event of the wordDiff walk. -/
def wdBlockR (p : Bool × String) : String :=
  if p.1 then escape p.2 else spanAdded (escape p.2)

theorem wordDiffGoBlocksAux (tokA tokB lcs : List String) :
    ∀ (meas : ℕ) (ai bi li : ℕ) (accL accR : String),
      (tokA.length - ai) + (tokB.length - bi) ≤ meas →
      ∃ evsL evsR : List (Bool × String),
        wordDiffGo tokA tokB lcs ai bi li accL accR =
          ⟨accL ++ String.join (evsL.map wdBlockL),
           accR ++ String.join (evsR.map wdBlockR)⟩ ∧
        (∀ p ∈ evsL, p.2 ∈ tokA) ∧ (∀ p ∈ evsR, p.2 ∈ tokB) := by
  intro meas
  induction meas with
  | zero =>
    intro ai bi li accL accR hm
    refine ⟨[], [], ?_, by simp, by simp⟩
    rw [wordDiffGo, if_neg (by omega)]
    simp [stringJoinNil, String.append_empty]
  | succ meas ih =>
    intro ai bi li accL accR hm
    by_cases hw : ai < tokA.length ∨ bi < tokB.length
    · rw [wordDiffGo, if_pos hw]
      by_cases h1 : ai < tokA.length ∧ bi < tokB.length ∧ li < lcs.length ∧
          tokA.getD ai "" = lcs.getD li "" ∧ tokB.getD bi "" = lcs.getD li ""
      · rw [if_pos h1]
        obtain ⟨evsL, evsR, heq, hL, hR⟩ :=
          ih (ai + 1) (bi + 1) (li + 1) (accL ++ escape (tokA.getD ai ""))
            (accR ++ escape (tokB.getD bi "")) (by omega)
        refine ⟨(true, tokA.getD ai "") :: evsL, (true, tokB.getD bi "") :: evsR, ?_, ?_, ?_⟩
        · rw [heq]
          simp only [List.map_cons, stringJoinCons, wdBlockL, wdBlockR, if_pos]
          rw [String.append_assoc, String.append_assoc]
        · intro p hp
          rcases List.mem_cons.mp hp with h | h
          · subst h
            rw [List.getD_eq_getElem tokA "" h1.1]
            exact List.getElem_mem _
          · exact hL p h
        · intro p hp
          rcases List.mem_cons.mp hp with h | h
          · subst h
            rw [List.getD_eq_getElem tokB "" h1.2.1]
            exact List.getElem_mem _
          · exact hR p h
      · rw [if_neg h1]
        by_cases h2 : bi < tokB.length ∧ (tokA.length ≤ ai ∨ lcsMemFrom tokA ai lcs li = false)
        · rw [if_pos h2]
          obtain ⟨evsL, evsR, heq, hL, hR⟩ :=
            ih ai (bi + 1) li accL (accR ++ spanAdded (escape (tokB.getD bi ""))) (by omega)
          refine ⟨evsL, (false, tokB.getD bi "") :: evsR, ?_, hL, ?_⟩
          · rw [heq]
            simp only [List.map_cons, stringJoinCons, wdBlockR, if_neg]
            rw [String.append_assoc]
            simp
          · intro p hp
            rcases List.mem_cons.mp hp with h | h
            · subst h
              rw [List.getD_eq_getElem tokB "" h2.1]
              exact List.getElem_mem _
            · exact hR p h
        · rw [if_neg h2]
          have hai : ai < tokA.length := by
            by_contra hn
            exact h2 ⟨hw.resolve_left hn, Or.inl (Nat.le_of_not_lt hn)⟩
          obtain ⟨evsL, evsR, heq, hL, hR⟩ :=
            ih (ai + 1) bi li (accL ++ spanRemoved (escape (tokA.getD ai ""))) accR (by omega)
          refine ⟨(false, tokA.getD ai "") :: evsL, evsR, ?_, ?_, hR⟩
          · rw [heq]
            simp only [List.map_cons, stringJoinCons, wdBlockL, if_neg]
            rw [String.append_assoc]
            simp
          · intro p hp
            rcases List.mem_cons.mp hp with h | h
            · subst h
              rw [List.getD_eq_getElem tokA "" hai]
              exact List.getElem_mem _
            · exact hL p h
    · refine ⟨[], [], ?_, by simp, by simp⟩
      rw [wordDiffGo, if_neg hw]
      simp [stringJoinNil, String.append_empty]

/- ───────────────────────── C5: LCS size cap fallback ──────────────────── -/

theorem computeLCSCap (a b : List String) (h : a.length * b.length > 100000) :
    computeLCS a b = [] := by
  rw [computeLCS]
  have h0 : ¬(a.length = 0 ∨ b.length = 0) := by
    rintro (h' | h') <;> simp [h'] at h
  rw [if_neg h0, if_pos h]

theorem lcsMemFromNil (tokA : List String) (ai li : ℕ) :
    lcsMemFrom tokA ai [] li = false := by
  rw [lcsMemFrom]
  simp

theorem wordDiffGoNilLcsAux (tokA tokB : List String) :
    ∀ (meas : ℕ) (ai bi li : ℕ) (accL accR : String),
      (tokA.length - ai) + (tokB.length - bi) ≤ meas →
      wordDiffGo tokA tokB [] ai bi li accL accR =
        ⟨accL ++ String.join (((tokA.drop ai).map fun t => spanRemoved (escape t))),
         accR ++ String.join (((tokB.drop bi).map fun t => spanAdded (escape t)))⟩ := by
  intro meas
  induction meas with
  | zero =>
    intro ai bi li accL accR hm
    rw [wordDiffGo, if_neg (by omega)]
    rw [List.drop_eq_nil_of_le (by omega), List.drop_eq_nil_of_le (by omega)]
    simp [stringJoinNil, String.append_empty]
  | succ meas ih =>
    intro ai bi li accL accR hm
    by_cases hw : ai < tokA.length ∨ bi < tokB.length
    · rw [wordDiffGo, if_pos hw]
      rw [if_neg (by simp)]
      by_cases h2 : bi < tokB.length
      · rw [if_pos ⟨h2, Or.inr (lcsMemFromNil tokA ai _)⟩]
        rw [ih ai (bi + 1) li _ _ (by omega)]
        have hdrop : tokB.drop bi = tokB.getD bi "" :: tokB.drop (bi + 1) := by
          rw [List.getD_eq_getElem tokB "" h2]
          exact List.drop_eq_getElem_cons h2
        rw [hdrop]
        simp only [List.map_cons, stringJoinCons]
        rw [String.append_assoc]
      · rw [if_neg (by
          intro hc
          exact h2 hc.1)]
        have hai : ai < tokA.length := hw.resolve_right h2
        rw [ih (ai + 1) bi li _ _ (by omega)]
        have hdrop : tokA.drop ai = tokA.getD ai "" :: tokA.drop (ai + 1) := by
          rw [List.getD_eq_getElem tokA "" hai]
          exact List.drop_eq_getElem_cons hai
        rw [hdrop]
        simp only [List.map_cons, stringJoinCons]
        rw [String.append_assoc]
    · rw [wordDiffGo, if_neg hw]
      rw [List.drop_eq_nil_of_le (by omega), List.drop_eq_nil_of_le (by omega)]
      simp [stringJoinNil, String.append_empty]

/- ───────────────── ground truth: the edit graph and edit scripts ──────── -/

/-- A step of an edit script: keep one common line, delete a left line, or
insert a right line. -/
inductive Step
  | keep
  | del
  | ins
deriving DecidableEq, Repr

/-- The cost of an edit script: its number of insertions and deletions. -/
def scriptCost (es : List Step) : ℕ :=
  es.countP fun s => s != Step.keep

/-- Aligns xs ys es: the edit script es transforms the line sequence xs into
ys, reading all three front to back.  This is the ground-truth notion of an
edit script made of line insertions and deletions. -/
inductive Aligns : List String → List String → List Step → Prop
  | nil : Aligns [] [] []
  | keep {v : String} {xs ys : List String} {es : List Step} :
      Aligns xs ys es → Aligns (v :: xs) (v :: ys) (Step.keep :: es)
  | del {v : String} {xs ys : List String} {es : List Step} :
      Aligns xs ys es → Aligns (v :: xs) ys (Step.del :: es)
  | ins {v : String} {xs ys : List String} {es : List Step} :
      Aligns xs ys es → Aligns xs (v :: ys) (Step.ins :: es)

/-- ReachP a b x y d: the point (x, y) of the edit graph of a and b is
reachable from the origin by a path with exactly d non-diagonal moves
(right = delete a line of a, down = insert a line of b, diagonal = keep a
common line). -/
inductive ReachP (a b : List String) : ℕ → ℕ → ℕ → Prop
  | init : ReachP a b 0 0 0
  | diag {x y d} : ReachP a b x y d → x < a.length → y < b.length →
      a.getD x "" = b.getD y "" → ReachP a b (x + 1) (y + 1) d
  | del {x y d} : ReachP a b x y d → x < a.length → ReachP a b (x + 1) y (d + 1)
  | ins {x y d} : ReachP a b x y d → y < b.length → ReachP a b x (y + 1) (d + 1)

/-- ReachG a b x y d: reachability in the relaxed edit graph in which the
forward pass of the source actually walks: horizontal and vertical moves are
unrestricted (the furthest-reach vector may leave the grid), diagonal moves
require a real in-grid match.  Every value the forward pass stores is
realizable here. -/
inductive ReachG (a b : List String) : ℤ → ℤ → ℕ → Prop
  | init : ReachG a b 0 0 0
  | diag {x y : ℤ} {d} : ReachG a b x y d → 0 ≤ x → x < (a.length : ℤ) →
      0 ≤ y → y < (b.length : ℤ) → a.getD x.toNat "" = b.getD y.toNat "" →
      ReachG a b (x + 1) (y + 1) d
  | del {x y : ℤ} {d} : ReachG a b x y d → ReachG a b (x + 1) y (d + 1)
  | ins {x y : ℤ} {d} : ReachG a b x y d → ReachG a b x (y + 1) (d + 1)

/- ───────────────── the furthest-reach recurrence Fk ───────────────────── -/

/-- Validity of a diagonal index at step d: within the band and of the right
parity.  These are exactly the diagonals the step-d inner loop visits. -/
def ValidK (d : ℕ) (k : ℤ) : Prop :=
  k.natAbs ≤ d ∧ (k + d) % 2 = 0

instance (d : ℕ) (k : ℤ) : Decidable (ValidK d k) := by
  unfold ValidK
  infer_instance

/-- The mathematical furthest-reach value: Fk a b d k is the value the
forward pass stores for diagonal k at step d (0 outside the visited band,
mirroring the untouched zero entries of the Int32Array). -/
def Fk (a b : List String) : ℕ → ℤ → ℤ
  | 0, k => if k = 0 then snakeEnd a b 0 0 else 0
  | d + 1, k =>
    if ValidK (d + 1) k then
      if k = -(d + 1 : ℤ) ∨ (k ≠ ((d : ℤ) + 1) ∧ Fk a b d (k - 1) < Fk a b d (k + 1)) then
        snakeEnd a b k (Fk a b d (k + 1))
      else snakeEnd a b k (Fk a b d (k - 1) + 1)
    else 0

/-- The pre-snake x value of step d on diagonal k (the value the source
assigns to x before the snake loop). -/
def startX (a b : List String) : ℕ → ℤ → ℤ
  | 0, _ => 0
  | d + 1, k =>
    if k = -(d + 1 : ℤ) ∨ (k ≠ ((d : ℤ) + 1) ∧ Fk a b d (k - 1) < Fk a b d (k + 1)) then
      Fk a b d (k + 1)
    else Fk a b d (k - 1) + 1

/-- The snapshot pushed on the trace at the start of step j, as a function of
the Int32Array position: diagonals written at step j - 1 hold their step
j - 1 value, diagonals written at step j - 2 and not since hold their step
j - 2 value, everything else is still zero. -/
def snap (a b : List String) (j : ℕ) : ℤ → ℤ := fun pos =>
  let k := pos - ((a.length : ℤ) + b.length)
  if 1 ≤ j ∧ ValidK (j - 1) k then Fk a b (j - 1) k
  else if 2 ≤ j ∧ ValidK (j - 2) k then Fk a b (j - 2) k
  else 0

/-- The break condition of the forward pass at step d: some diagonal of the
step reaches the end corner (possibly beyond the grid). -/
def DoneAt (a b : List String) (d : ℕ) : Prop :=
  ∃ k ∈ ks d, (a.length : ℤ) ≤ Fk a b d k ∧ (b.length : ℤ) ≤ Fk a b d k - k

instance (a b : List String) (d : ℕ) : Decidable (DoneAt a b d) := by
  unfold DoneAt
  exact List.decidableBEx _ _

/- ───────────────── snake loop lemmas ──────────────────────────────────── -/

theorem snakeGo_ge (a b : List String) (k : ℤ) :
    ∀ (fuel : ℕ) (x : ℤ), x ≤ snakeGo a b k fuel x := by
  intro fuel
  induction fuel with
  | zero => intro x; exact le_refl x
  | succ fuel ih =>
    intro x
    rw [snakeGo]
    split
    · exact le_trans (by omega) (ih (x + 1))
    · exact le_refl x

theorem snakeEnd_ge (a b : List String) (k x : ℤ) : x ≤ snakeEnd a b k x :=
  snakeGo_ge a b k _ x

theorem snakeGo_closed (a b : List String) (k : ℤ) :
    ∀ (fuel : ℕ) (x : ℤ), (((a.length : ℤ) - x).toNat ≤ fuel) →
    ¬(snakeGo a b k fuel x < (a.length : ℤ) ∧
      snakeGo a b k fuel x - k < (b.length : ℤ) ∧
      jsIndex a (snakeGo a b k fuel x) = jsIndex b (snakeGo a b k fuel x - k)) := by
  intro fuel
  induction fuel with
  | zero =>
    intro x hf hc
    rw [snakeGo] at hc
    have := hc.1
    omega
  | succ fuel ih =>
    intro x hf
    rw [snakeGo]
    by_cases hc : x < (a.length : ℤ) ∧ x - k < (b.length : ℤ) ∧ jsIndex a x = jsIndex b (x - k)
    · rw [if_pos hc]
      have := hc.1
      exact ih (x + 1) (by omega)
    · rw [if_neg hc]
      exact hc

theorem snakeEnd_closed (a b : List String) (k x : ℤ) :
    ¬(snakeEnd a b k x < (a.length : ℤ) ∧
      snakeEnd a b k x - k < (b.length : ℤ) ∧
      jsIndex a (snakeEnd a b k x) = jsIndex b (snakeEnd a b k x - k)) :=
  snakeGo_closed a b k _ x le_rfl

theorem snakeGo_cells (a b : List String) (k : ℤ) :
    ∀ (fuel : ℕ) (x x' : ℤ), x ≤ x' → x' < snakeGo a b k fuel x →
    x' < (a.length : ℤ) ∧ x' - k < (b.length : ℤ) ∧ jsIndex a x' = jsIndex b (x' - k) := by
  intro fuel
  induction fuel with
  | zero =>
    intro x x' hle hlt
    rw [snakeGo] at hlt
    omega
  | succ fuel ih =>
    intro x x' hle hlt
    rw [snakeGo] at hlt
    by_cases hc : x < (a.length : ℤ) ∧ x - k < (b.length : ℤ) ∧ jsIndex a x = jsIndex b (x - k)
    · rw [if_pos hc] at hlt
      rcases eq_or_lt_of_le hle with heq | hlt2
      · subst heq
        exact hc
      · exact ih (x + 1) x' (by omega) hlt
    · rw [if_neg hc] at hlt
      omega

theorem snakeEnd_cells (a b : List String) (k x x' : ℤ) (hle : x ≤ x')
    (hlt : x' < snakeEnd a b k x) :
    x' < (a.length : ℤ) ∧ x' - k < (b.length : ℤ) ∧ jsIndex a x' = jsIndex b (x' - k) :=
  snakeGo_cells a b k _ x x' hle hlt

theorem reachG_nonneg {a b : List String} {x y : ℤ} {d : ℕ} (h : ReachG a b x y d) :
    0 ≤ x ∧ 0 ≤ y := by
  induction h with
  | init => exact ⟨le_refl 0, le_refl 0⟩
  | diag _ _ _ _ _ _ ih => omega
  | del _ ih => omega
  | ins _ ih => omega

theorem snakeGo_reachG (a b : List String) (k : ℤ) :
    ∀ (fuel : ℕ) (x : ℤ) (d : ℕ), 0 ≤ x → 0 ≤ x - k → ReachG a b x (x - k) d →
    ReachG a b (snakeGo a b k fuel x) (snakeGo a b k fuel x - k) d := by
  intro fuel
  induction fuel with
  | zero =>
    intro x d _ _ h
    rw [snakeGo]
    exact h
  | succ fuel ih =>
    intro x d hx hy h
    rw [snakeGo]
    by_cases hc : x < (a.length : ℤ) ∧ x - k < (b.length : ℤ) ∧ jsIndex a x = jsIndex b (x - k)
    · rw [if_pos hc]
      have heq : a.getD x.toNat "" = b.getD (x - k).toNat "" := by
        have h1 := hc.2.2
        rw [jsIndex, jsIndex, if_pos ⟨hx, hc.1⟩, if_pos ⟨hy, hc.2.1⟩] at h1
        exact Option.some.inj h1
      have hstep : ReachG a b (x + 1) (x + 1 - k) d := by
        have := ReachG.diag h hx hc.1 hy hc.2.1 heq
        have harith : x - k + 1 = x + 1 - k := by omega
        rw [harith] at this
        exact this
      exact ih (x + 1) d (by omega) (by omega) hstep
    · rw [if_neg hc]
      exact h

theorem snakeEnd_reachG (a b : List String) (k x : ℤ) (d : ℕ) (hx : 0 ≤ x)
    (hy : 0 ≤ x - k) (h : ReachG a b x (x - k) d) :
    ReachG a b (snakeEnd a b k x) (snakeEnd a b k x - k) d :=
  snakeGo_reachG a b k _ x d hx hy h

/- ───────────────── Fk lemmas ──────────────────────────────────────────── -/

theorem Fk_eq_snake (a b : List String) :
    ∀ (d : ℕ) (k : ℤ), ValidK d k → Fk a b d k = snakeEnd a b k (startX a b d k) := by
  intro d k hv
  match d with
  | 0 =>
    have hk : k = 0 := by
      have := hv.1
      omega
    subst hk
    rw [Fk, if_pos rfl, startX]
  | d + 1 =>
    rw [Fk, if_pos hv, startX]
    split
    · rfl
    · rfl

theorem startX_eq_boundary_low (a b : List String) (d : ℕ) (k : ℤ)
    (h : k = -(d + 1 : ℤ)) : startX a b (d + 1) k = Fk a b d (k + 1) := by
  rw [startX, if_pos (Or.inl h)]

theorem startX_ge_right (a b : List String) (d : ℕ) (k : ℤ)
    (hne : k ≠ -(d + 1 : ℤ)) : Fk a b d (k - 1) + 1 ≤ startX a b (d + 1) k := by
  rw [startX]
  split
  · rename_i hcond
    rcases hcond with h | h
    · exact absurd h hne
    · omega
  · exact le_refl _

theorem startX_ge_down (a b : List String) (d : ℕ) (k : ℤ)
    (hne : k ≠ ((d : ℤ) + 1)) : Fk a b d (k + 1) ≤ startX a b (d + 1) k := by
  rw [startX]
  split
  · exact le_refl _
  · rename_i hcond
    push_neg at hcond
    have := hcond.2 hne
    omega

theorem Fk_ge_startX (a b : List String) (d : ℕ) (k : ℤ) (hv : ValidK d k) :
    startX a b d k ≤ Fk a b d k := by
  rw [Fk_eq_snake a b d k hv]
  exact snakeEnd_ge a b k _

theorem Fk_sound (a b : List String) :
    ∀ (d : ℕ) (k : ℤ), ValidK d k → ReachG a b (Fk a b d k) (Fk a b d k - k) d := by
  intro d
  induction d with
  | zero =>
    intro k hv
    have hk : k = 0 := by
      have := hv.1
      omega
    subst hk
    rw [Fk, if_pos rfl]
    have h0 : (0 : ℤ) - 0 = 0 - 0 := rfl
    exact snakeEnd_reachG a b 0 0 0 (le_refl 0) (by omega) (by simpa using ReachG.init)
  | succ d ih =>
    intro k hv
    rw [Fk_eq_snake a b (d + 1) k hv]
    by_cases hlow : k = -(d + 1 : ℤ)
    · rw [startX_eq_boundary_low a b d k hlow]
      have hv' : ValidK d (k + 1) := by
        constructor
        · omega
        · have := hv.2
          push_cast at this ⊢
          omega
      have hr := ih (k + 1) hv'
      have hnn := reachG_nonneg hr
      have hstep : ReachG a b (Fk a b d (k + 1)) (Fk a b d (k + 1) - k) (d + 1) := by
        have := ReachG.ins hr
        have harith : Fk a b d (k + 1) - (k + 1) + 1 = Fk a b d (k + 1) - k := by omega
        rw [harith] at this
        exact this
      refine snakeEnd_reachG a b k _ (d + 1) ?_ ?_ hstep <;> omega
    · rw [startX]
      by_cases hcond : k = -(d + 1 : ℤ) ∨ (k ≠ ((d : ℤ) + 1) ∧ Fk a b d (k - 1) < Fk a b d (k + 1))
      · rw [if_pos hcond]
        have hhigh : k ≠ ((d : ℤ) + 1) := (hcond.resolve_left hlow).1
        have hv' : ValidK d (k + 1) := by
          have h1 := hv.1
          have h2 := hv.2
          push_cast at h2
          exact ⟨by omega, by omega⟩
        have hr := ih (k + 1) hv'
        have hnn := reachG_nonneg hr
        have hstep : ReachG a b (Fk a b d (k + 1)) (Fk a b d (k + 1) - k) (d + 1) := by
          have := ReachG.ins hr
          have harith : Fk a b d (k + 1) - (k + 1) + 1 = Fk a b d (k + 1) - k := by omega
          rw [harith] at this
          exact this
        refine snakeEnd_reachG a b k _ (d + 1) ?_ ?_ hstep <;> omega
      · rw [if_neg hcond]
        have hv' : ValidK d (k - 1) := by
          have h1 := hv.1
          have h2 := hv.2
          push_cast at h2
          exact ⟨by omega, by omega⟩
        have hr := ih (k - 1) hv'
        have hnn := reachG_nonneg hr
        have hstep : ReachG a b (Fk a b d (k - 1) + 1) (Fk a b d (k - 1) + 1 - k) (d + 1) := by
          have := ReachG.del hr
          have harith : Fk a b d (k - 1) - (k - 1) = Fk a b d (k - 1) + 1 - k := by omega
          rw [harith] at this
          exact this
        refine snakeEnd_reachG a b k _ (d + 1) ?_ ?_ hstep <;> omega

theorem Fk_nonneg (a b : List String) (d : ℕ) (k : ℤ) (hv : ValidK d k) :
    0 ≤ Fk a b d k ∧ k ≤ Fk a b d k := by
  have h := reachG_nonneg (Fk_sound a b d k hv)
  omega

theorem Fk_closed (a b : List String) (d : ℕ) (k : ℤ) (hv : ValidK d k) :
    ¬(Fk a b d k < (a.length : ℤ) ∧ Fk a b d k - k < (b.length : ℤ) ∧
      jsIndex a (Fk a b d k) = jsIndex b (Fk a b d k - k)) := by
  rw [Fk_eq_snake a b d k hv]
  exact snakeEnd_closed a b k _

theorem reachP_le {a b : List String} {x y d : ℕ} (h : ReachP a b x y d) :
    x ≤ a.length ∧ y ≤ b.length := by
  induction h with
  | init => omega
  | diag _ h1 h2 _ ih => omega
  | del _ h1 ih => omega
  | ins _ h1 ih => omega

theorem reachP_valid {a b : List String} {x y d : ℕ} (h : ReachP a b x y d) :
    ((x : ℤ) - y).natAbs ≤ d ∧ (((x : ℤ) - y) + d) % 2 = 0 := by
  induction h with
  | init => simp
  | diag _ _ _ _ ih => push_cast at ih ⊢; omega
  | del _ _ ih => push_cast at ih ⊢; omega
  | ins _ _ ih => push_cast at ih ⊢; omega

theorem Fk_complete (a b : List String) {x y d : ℕ} (h : ReachP a b x y d) :
    (x : ℤ) ≤ Fk a b d ((x : ℤ) - y) := by
  induction h with
  | init =>
    simp only [Nat.cast_zero, sub_zero]
    rw [Fk, if_pos rfl]
    exact snakeEnd_ge a b 0 0
  | diag hrec h1 h2 heq ih =>
    rename_i x y d
    have hk : ((x : ℤ) + 1) - ((y : ℤ) + 1) = (x : ℤ) - y := by omega
    push_cast
    rw [hk]
    rcases lt_or_eq_of_le ih with hlt | heqx
    · omega
    · exfalso
      apply Fk_closed a b d ((x : ℤ) - y) (reachP_valid hrec)
      rw [← heqx]
      refine ⟨by exact_mod_cast h1, by omega, ?_⟩
      have hy : (x : ℤ) - ((x : ℤ) - y) = y := by omega
      rw [hy, jsIndex, jsIndex, if_pos ⟨by omega, by exact_mod_cast h1⟩,
        if_pos ⟨by omega, by exact_mod_cast h2⟩]
      simpa using heq
  | del hrec h1 ih =>
    rename_i x y d
    have hv := reachP_valid hrec
    have hk : ((x : ℤ) + 1) - (y : ℤ) = ((x : ℤ) - y) + 1 := by omega
    push_cast
    rw [hk]
    have hvnext : ValidK (d + 1) (((x : ℤ) - y) + 1) := by
      constructor
      · omega
      · push_cast
        omega
    calc (x : ℤ) + 1 ≤ Fk a b d ((x : ℤ) - y) + 1 := by omega
      _ ≤ startX a b (d + 1) (((x : ℤ) - y) + 1) := by
          have := startX_ge_right a b d (((x : ℤ) - y) + 1) (by omega)
          have harith : ((x : ℤ) - y) + 1 - 1 = (x : ℤ) - y := by omega
          rw [harith] at this
          exact this
      _ ≤ snakeEnd a b (((x : ℤ) - y) + 1) (startX a b (d + 1) (((x : ℤ) - y) + 1)) :=
          snakeEnd_ge a b _ _
      _ = Fk a b (d + 1) (((x : ℤ) - y) + 1) := (Fk_eq_snake a b (d + 1) _ hvnext).symm
  | ins hrec h1 ih =>
    rename_i x y d
    have hv := reachP_valid hrec
    have hk : (x : ℤ) - ((y : ℤ) + 1) = ((x : ℤ) - y) - 1 := by omega
    push_cast
    rw [hk]
    have hvnext : ValidK (d + 1) (((x : ℤ) - y) - 1) := by
      constructor
      · omega
      · push_cast
        omega
    calc (x : ℤ) ≤ Fk a b d ((x : ℤ) - y) := ih
      _ ≤ startX a b (d + 1) (((x : ℤ) - y) - 1) := by
          have := startX_ge_down a b d (((x : ℤ) - y) - 1) (by omega)
          have harith : ((x : ℤ) - y) - 1 + 1 = (x : ℤ) - y := by omega
          rw [harith] at this
          exact this
      _ ≤ snakeEnd a b (((x : ℤ) - y) - 1) (startX a b (d + 1) (((x : ℤ) - y) - 1)) :=
          snakeEnd_ge a b _ _
      _ = Fk a b (d + 1) (((x : ℤ) - y) - 1) := (Fk_eq_snake a b (d + 1) _ hvnext).symm

theorem reachG_clamp (a b : List String) {x y : ℤ} {d : ℕ} (h : ReachG a b x y d) :
    ∃ d' ≤ d, ReachP a b (min x (a.length : ℤ)).toNat (min y (b.length : ℤ)).toNat d' := by
  induction h with
  | init =>
    refine ⟨0, le_refl 0, ?_⟩
    have h1 : (min (0 : ℤ) (a.length : ℤ)).toNat = 0 := by omega
    have h2 : (min (0 : ℤ) (b.length : ℤ)).toNat = 0 := by omega
    rw [h1, h2]
    exact ReachP.init
  | diag hrec h0 h1 h2 h3 heq ih =>
    rename_i x y d
    obtain ⟨d', hle, hp⟩ := ih
    have e1 : (min x (a.length : ℤ)).toNat = x.toNat := by omega
    have e2 : (min y (b.length : ℤ)).toNat = y.toNat := by omega
    rw [e1, e2] at hp
    have hstep := ReachP.diag hp (by omega) (by omega) heq
    refine ⟨d', hle, ?_⟩
    have e3 : (min (x + 1) (a.length : ℤ)).toNat = x.toNat + 1 := by omega
    have e4 : (min (y + 1) (b.length : ℤ)).toNat = y.toNat + 1 := by omega
    rw [e3, e4]
    exact hstep
  | del hrec ih =>
    rename_i x y d
    obtain ⟨d', hle, hp⟩ := ih
    have hnn := reachG_nonneg hrec
    by_cases hx : x < (a.length : ℤ)
    · have e1 : (min x (a.length : ℤ)).toNat = x.toNat := by omega
      rw [e1] at hp
      have hstep := ReachP.del hp (by omega)
      refine ⟨d' + 1, by omega, ?_⟩
      have e3 : (min (x + 1) (a.length : ℤ)).toNat = x.toNat + 1 := by omega
      rw [e3]
      exact hstep
    · refine ⟨d', by omega, ?_⟩
      have e3 : (min (x + 1) (a.length : ℤ)).toNat = (min x (a.length : ℤ)).toNat := by omega
      rw [e3]
      exact hp
  | ins hrec ih =>
    rename_i x y d
    obtain ⟨d', hle, hp⟩ := ih
    have hnn := reachG_nonneg hrec
    by_cases hy : y < (b.length : ℤ)
    · have e1 : (min y (b.length : ℤ)).toNat = y.toNat := by omega
      rw [e1] at hp
      have hstep := ReachP.ins hp (by omega)
      refine ⟨d' + 1, by omega, ?_⟩
      have e3 : (min (y + 1) (b.length : ℤ)).toNat = y.toNat + 1 := by omega
      rw [e3]
      exact hstep
    · refine ⟨d', by omega, ?_⟩
      have e3 : (min (y + 1) (b.length : ℤ)).toNat = (min y (b.length : ℤ)).toNat := by omega
      rw [e3]
      exact hp

theorem reachP_corner (a b : List String) :
    ReachP a b a.length b.length (a.length + b.length) := by
  have hdel : ∀ j, j ≤ a.length → ReachP a b j 0 j := by
    intro j
    induction j with
    | zero => intro _; exact ReachP.init
    | succ j ih => intro hj; exact ReachP.del (ih (by omega)) (by omega)
  have hins : ∀ j, j ≤ b.length → ReachP a b a.length j (a.length + j) := by
    intro j
    induction j with
    | zero => intro _; exact hdel a.length le_rfl
    | succ j ih => intro hj; exact ReachP.ins (ih (by omega)) (by omega)
  exact hins b.length le_rfl

theorem mem_ks {d : ℕ} {k : ℤ} : k ∈ ks d ↔ k.natAbs ≤ d ∧ (k + d) % 2 = 0 := by
  unfold ks
  rw [List.mem_map]
  constructor
  · rintro ⟨i, hi, heq⟩
    rw [List.mem_range] at hi
    subst heq
    exact ⟨by omega, by omega⟩
  · rintro ⟨h1, h2⟩
    refine ⟨((k + d) / 2).toNat, ?_, ?_⟩
    · rw [List.mem_range]
      omega
    · omega

theorem doneAt_of_reach (a b : List String) {d : ℕ}
    (h : ReachP a b a.length b.length d) : DoneAt a b d := by
  have hv := reachP_valid h
  have hc := Fk_complete a b h
  refine ⟨(a.length : ℤ) - b.length, mem_ks.mpr ⟨hv.1, hv.2⟩, hc, by omega⟩

theorem reach_of_doneAt (a b : List String) {d : ℕ} (h : DoneAt a b d) :
    ∃ d' ≤ d, ReachP a b a.length b.length d' := by
  obtain ⟨k, hk, h1, h2⟩ := h
  have hv : ValidK d k := mem_ks.mp hk
  have hr := Fk_sound a b d k hv
  obtain ⟨d', hle, hp⟩ := reachG_clamp a b hr
  have e1 : (min (Fk a b d k) (a.length : ℤ)).toNat = a.length := by omega
  have e2 : (min (Fk a b d k - k) (b.length : ℤ)).toNat = b.length := by omega
  rw [e1, e2] at hp
  exact ⟨d', hle, hp⟩

theorem doneAt_corner (a b : List String) : DoneAt a b (a.length + b.length) :=
  doneAt_of_reach a b (reachP_corner a b)

/- ───────────────── forward pass characterization ──────────────────────── -/

theorem Fk_junk (a b : List String) : ∀ (d : ℕ) (k : ℤ), ¬ValidK d k → Fk a b d k = 0 := by
  intro d k hv
  match d with
  | 0 =>
    rw [Fk, if_neg]
    intro hk
    subst hk
    exact hv ⟨by simp, by simp⟩
  | d + 1 => rw [Fk, if_neg hv]

/-- The partially updated reach vector during step d: diagonals in pre are
already rewritten with their step-d value, everything else still holds the
step-d snapshot. -/
def Wmid (a b : List String) (d : ℕ) (pre : List ℤ) : ℤ → ℤ := fun pos =>
  if pos - ((a.length : ℤ) + b.length) ∈ pre then Fk a b d (pos - ((a.length : ℤ) + b.length))
  else snap a b d pos

theorem Wmid_nil (a b : List String) (d : ℕ) : Wmid a b d [] = snap a b d := by
  funext pos
  rw [Wmid]
  simp

theorem Wmid_full (a b : List String) (d : ℕ) : Wmid a b d (ks d) = snap a b (d + 1) := by
  funext pos
  rw [Wmid]
  simp only [snap]
  have e1 : d + 1 - 1 = d := by omega
  have e2 : d + 1 - 2 = d - 1 := by omega
  rw [e1, e2]
  by_cases h1 : ValidK d (pos - ((a.length : ℤ) + b.length))
  · rw [if_pos (mem_ks.mpr h1),
      if_pos (show 1 ≤ d + 1 ∧ ValidK d (pos - ((a.length : ℤ) + b.length)) from
        ⟨by omega, h1⟩)]
  · rw [if_neg (fun hmem => h1 (mem_ks.mp hmem)),
      if_neg (show ¬(1 ≤ d + 1 ∧ ValidK d (pos - ((a.length : ℤ) + b.length))) from
        fun hc => h1 hc.2)]
    by_cases h2 : 1 ≤ d ∧ ValidK (d - 1) (pos - ((a.length : ℤ) + b.length))
    · rw [if_pos h2,
        if_pos (show 2 ≤ d + 1 ∧ ValidK (d - 1) (pos - ((a.length : ℤ) + b.length)) from
          ⟨by omega, h2.2⟩)]
    · rw [if_neg h2,
        if_neg (show ¬(2 ≤ d + 1 ∧ ValidK (d - 1) (pos - ((a.length : ℤ) + b.length))) from
          fun hc => h2 ⟨by omega, hc.2⟩)]
      by_cases h3 : 2 ≤ d ∧ ValidK (d - 2) (pos - ((a.length : ℤ) + b.length))
      · exfalso
        apply h1
        obtain ⟨hd2, hna, hpa⟩ := h3
        exact ⟨by omega, by omega⟩
      · rw [if_neg h3]

theorem Wmid_read (a b : List String) (d : ℕ) (pre : List ℤ)
    (hpre : ∀ j ∈ pre, j ∈ ks d) (j : ℤ) (hpar : (j + d) % 2 = 1) :
    Wmid a b d pre (j + ((a.length : ℤ) + b.length)) = Fk a b (d - 1) j := by
  rw [Wmid]
  have harith : j + ((a.length : ℤ) + b.length) - ((a.length : ℤ) + b.length) = j := by ring
  rw [harith]
  rw [if_neg (fun hmem => by
    have := (mem_ks.mp (hpre j hmem)).2
    omega)]
  simp only [snap]
  rw [harith]
  by_cases h1 : 1 ≤ d ∧ ValidK (d - 1) j
  · rw [if_pos h1]
  · rw [if_neg h1]
    match d with
    | 0 =>
      rw [if_neg (by omega)]
      refine (Fk_junk a b 0 j ?_).symm
      intro hv
      have h2 := hv.2
      omega
    | d + 1 =>
      rw [if_neg (fun hc => by
        have := hc.2.2
        omega)]
      refine (Fk_junk a b (d + 1 - 1) j ?_).symm
      intro hv
      exact h1 ⟨by omega, by simpa using hv⟩

theorem stepK_val (a b : List String) (d : ℕ) (pre : List ℤ)
    (hpre : ∀ j ∈ pre, j ∈ ks d) (k : ℤ) (hk : k ∈ ks d) :
    stepK a b (d : ℤ) ⟨Wmid a b d pre, false⟩ k =
      ⟨fun p => if p = k + ((a.length : ℤ) + b.length) then Fk a b d k
        else Wmid a b d pre p,
       decide ((a.length : ℤ) ≤ Fk a b d k ∧ (b.length : ℤ) ≤ Fk a b d k - k)⟩ := by
  have hv : ValidK d k := mem_ks.mp hk
  have hpar := hv.2
  simp only [stepK, Bool.false_eq_true, if_false]
  have hr1 : Wmid a b d pre (k + ((a.length : ℤ) + b.length) - 1) = Fk a b (d - 1) (k - 1) := by
    have harith : k + ((a.length : ℤ) + b.length) - 1 = (k - 1) + ((a.length : ℤ) + b.length) := by
      ring
    rw [harith, Wmid_read a b d pre hpre (k - 1) (by omega)]
  have hr2 : Wmid a b d pre (k + ((a.length : ℤ) + b.length) + 1) = Fk a b (d - 1) (k + 1) := by
    have harith : k + ((a.length : ℤ) + b.length) + 1 = (k + 1) + ((a.length : ℤ) + b.length) := by
      ring
    rw [harith, Wmid_read a b d pre hpre (k + 1) (by omega)]
  simp only [hr1, hr2]
  match d with
  | 0 =>
    have hk0 : k = 0 := by
      have := hv.1
      omega
    subst hk0
    rw [if_pos (Or.inl (by norm_num))]
    have hjunk : Fk a b (0 - 1) (0 + 1) = 0 := by
      refine Fk_junk a b 0 1 ?_
      intro hva
      have := hva.1
      omega
    rw [hjunk]
    have hF : Fk a b 0 0 = snakeEnd a b 0 0 := by
      rw [Fk, if_pos rfl]
    rw [hF]
  | d + 1 =>
    have hcast : ((d + 1 : ℕ) : ℤ) = (d : ℤ) + 1 := by push_cast; ring
    have hsub : (d + 1 : ℕ) - 1 = d := by omega
    rw [hsub]
    have hFk : Fk a b (d + 1) k =
        if k = -(d + 1 : ℤ) ∨ (k ≠ ((d : ℤ) + 1) ∧ Fk a b d (k - 1) < Fk a b d (k + 1)) then
          snakeEnd a b k (Fk a b d (k + 1))
        else snakeEnd a b k (Fk a b d (k - 1) + 1) := by
      rw [Fk, if_pos hv]
    by_cases hc : k = -(d + 1 : ℤ) ∨ (k ≠ ((d : ℤ) + 1) ∧ Fk a b d (k - 1) < Fk a b d (k + 1))
    · rw [hFk, if_pos hc, if_pos (by
        rcases hc with h | h
        · exact Or.inl (by omega)
        · exact Or.inr ⟨by have := h.1; omega, h.2⟩)]
    · rw [hFk, if_neg hc, if_neg (by
        intro hc2
        apply hc
        rcases hc2 with h | h
        · exact Or.inl (by omega)
        · exact Or.inr ⟨by have := h.1; omega, h.2⟩)]

theorem foldl_stepK_done (a b : List String) (d : ℤ) :
    ∀ (KS : List ℤ) (st : FwdState), st.done = true →
    KS.foldl (stepK a b d) st = st := by
  intro KS
  induction KS with
  | nil => intro st _; rfl
  | cons k KS ih =>
    intro st h
    rw [List.foldl_cons]
    have hstep : stepK a b d st k = st := by
      rw [stepK, if_pos h]
    rw [hstep]
    exact ih st h

theorem foldl_stepK_spec (a b : List String) (d : ℕ) :
    ∀ (post pre : List ℤ), pre ++ post = ks d →
    (∀ j ∈ pre, ¬((a.length : ℤ) ≤ Fk a b d j ∧ (b.length : ℤ) ≤ Fk a b d j - j)) →
    ((post.foldl (stepK a b (d : ℤ)) ⟨Wmid a b d pre, false⟩).done = true ↔
        ∃ j ∈ post, (a.length : ℤ) ≤ Fk a b d j ∧ (b.length : ℤ) ≤ Fk a b d j - j) ∧
    ((post.foldl (stepK a b (d : ℤ)) ⟨Wmid a b d pre, false⟩).done = false →
      (post.foldl (stepK a b (d : ℤ)) ⟨Wmid a b d pre, false⟩).V = snap a b (d + 1)) := by
  intro post
  induction post with
  | nil =>
    intro pre hsplit hpre
    simp only [List.foldl_nil]
    constructor
    · simp
    · intro _
      have hp : pre = ks d := by simpa using hsplit
      rw [hp, Wmid_full]
  | cons k post ih =>
    intro pre hsplit hpre
    have hk : k ∈ ks d := by
      rw [← hsplit]
      exact List.mem_append_right pre (List.mem_cons_self k post)
    have hpre' : ∀ j ∈ pre, j ∈ ks d := by
      intro j hj
      rw [← hsplit]
      exact List.mem_append_left _ hj
    rw [List.foldl_cons, stepK_val a b d pre hpre' k hk]
    by_cases hdone : (a.length : ℤ) ≤ Fk a b d k ∧ (b.length : ℤ) ≤ Fk a b d k - k
    · rw [decide_eq_true hdone]
      rw [foldl_stepK_done a b (d : ℤ) post _ rfl]
      constructor
      · simp only [true_iff]
        exact ⟨k, List.mem_cons_self k post, hdone⟩
      · intro hfalse
        cases hfalse
    · rw [decide_eq_false hdone]
      have hW : (fun p => if p = k + ((a.length : ℤ) + b.length) then Fk a b d k
          else Wmid a b d pre p) = Wmid a b d (pre ++ [k]) := by
        funext p
        rw [Wmid, Wmid]
        by_cases hp : p = k + ((a.length : ℤ) + b.length)
        · rw [if_pos hp]
          have hkk : p - ((a.length : ℤ) + b.length) = k := by omega
          rw [hkk, if_pos (List.mem_append_right pre (List.mem_cons_self k []))]
        · rw [if_neg hp]
          have hkk : p - ((a.length : ℤ) + b.length) ≠ k := by omega
          by_cases hmem : p - ((a.length : ℤ) + b.length) ∈ pre
          · rw [if_pos hmem, if_pos (List.mem_append_left _ hmem)]
          · rw [if_neg hmem, if_neg (by
              intro hc
              rcases List.mem_append.mp hc with h | h
              · exact hmem h
              · exact hkk (by simpa using h))]
      rw [hW]
      have hsplit' : (pre ++ [k]) ++ post = ks d := by
        rw [List.append_assoc]
        simpa using hsplit
      have hpre2 : ∀ j ∈ pre ++ [k],
          ¬((a.length : ℤ) ≤ Fk a b d j ∧ (b.length : ℤ) ≤ Fk a b d j - j) := by
        intro j hj
        rcases List.mem_append.mp hj with h | h
        · exact hpre j h
        · have : j = k := by simpa using h
          rw [this]
          exact hdone
      have hih := ih (pre ++ [k]) hsplit' hpre2
      constructor
      · rw [hih.1]
        constructor
        · rintro ⟨j, hj, hjd⟩
          exact ⟨j, List.mem_cons_of_mem k hj, hjd⟩
        · rintro ⟨j, hj, hjd⟩
          rcases List.mem_cons.mp hj with h | h
          · exact absurd (h ▸ hjd) hdone
          · exact ⟨j, h, hjd⟩
      · exact hih.2

theorem fwdLoop_spec (a b : List String) (D : ℕ) (hD : DoneAt a b D)
    (hmin : ∀ d' < D, ¬DoneAt a b d') :
    ∀ (fuel d : ℕ) (trace : List (ℤ → ℤ)), d ≤ D → D < d + fuel →
    fwdLoop a b fuel d (snap a b d) trace =
      trace ++ (List.range' d (D + 1 - d)).map (snap a b) := by
  intro fuel
  induction fuel with
  | zero =>
    intro d trace h1 h2
    omega
  | succ fuel ih =>
    intro d trace h1 h2
    have hfold := foldl_stepK_spec a b d (ks d) [] (by simp) (by simp)
    rw [Wmid_nil] at hfold
    simp only [fwdLoop]
    by_cases hd : d = D
    · subst hd
      have hdone : ((ks d).foldl (stepK a b (d : ℤ)) ⟨snap a b d, false⟩).done = true :=
        hfold.1.mpr hD
      rw [if_pos hdone]
      have hr : d + 1 - d = 1 := by omega
      rw [hr]
      rfl
    · have hlt : d < D := lt_of_le_of_ne h1 hd
      have hnd : ¬DoneAt a b d := hmin d hlt
      have hdone : ((ks d).foldl (stepK a b (d : ℤ)) ⟨snap a b d, false⟩).done = false := by
        rcases Bool.eq_false_or_eq_true ((ks d).foldl (stepK a b (d : ℤ)) ⟨snap a b d, false⟩).done
          with h | h
        · exact absurd (hfold.1.mp h) hnd
        · exact h
      rw [if_neg (by rw [hdone]; exact Bool.false_ne_true)]
      rw [hfold.2 hdone]
      rw [ih (d + 1) (trace ++ [snap a b d]) (by omega) (by omega)]
      rw [List.append_assoc]
      congr 1
      have hlen : D + 1 - d = (D - d) + 1 := by omega
      rw [hlen, List.range'_succ, List.map_cons]
      have hlen2 : D + 1 - (d + 1) = D - d := by omega
      rw [hlen2]
      rfl

/- ───────────────── backtracking characterization ──────────────────────── -/

/-- The left indices touched by an edit list, in order (equal and delete
edits touch the left side). -/
def editLefts (es : List Edit) : List ℤ :=
  es.filterMap fun e =>
    match e.type with
    | .insert => none
    | _ => some e.li

/-- The right indices touched by an edit list, in order (equal and insert
edits touch the right side). -/
def editRights (es : List Edit) : List ℤ :=
  es.filterMap fun e =>
    match e.type with
    | .delete => none
    | _ => some e.ri

/-- The number of non-equal edits of an edit list. -/
def nonEqualCount (es : List Edit) : ℕ :=
  es.countP fun e => e.type != EditType.equal

/-- The run of equal edits the backtracking equal-walk pushes from (x, y):
t cells at descending indices. -/
def eqEdits : ℕ → ℤ → ℤ → List Edit
  | 0, _, _ => []
  | t + 1, x, y => ⟨.equal, x - 1, y - 1⟩ :: eqEdits t (x - 1) (y - 1)

theorem eqWalk_spec : ∀ (t : ℕ) (x y px py : ℤ), (min (x - px) (y - py)).toNat = t →
    eqWalk x y px py = (eqEdits t x y, x - t, y - t) := by
  intro t
  induction t with
  | zero =>
    intro x y px py ht
    rw [eqWalk_eq, if_neg (by omega)]
    simp [eqEdits]
  | succ t ih =>
    intro x y px py ht
    rw [eqWalk_eq, if_pos (by omega)]
    rw [ih (x - 1) (y - 1) px py (by omega)]
    simp only [eqEdits]
    refine congrArg₂ Prod.mk rfl ?_
    have e1 : x - 1 - (t : ℤ) = x - ((t : ℕ) + 1 : ℕ) := by push_cast; ring
    have e2 : y - 1 - (t : ℤ) = y - ((t : ℕ) + 1 : ℕ) := by push_cast; ring
    rw [e1, e2]

/-- The descending index list x-1, x-2, ..., 0 (empty when x ≤ 0). -/
def descSeq (x : ℤ) : List ℤ :=
  (List.range x.toNat).map fun i : ℕ => x - 1 - (i : ℤ)

theorem descSeq_nonpos (x : ℤ) (h : x ≤ 0) : descSeq x = [] := by
  rw [descSeq]
  have : x.toNat = 0 := by omega
  rw [this]
  rfl

theorem descSeq_cons (x : ℤ) (h : 1 ≤ x) : descSeq x = (x - 1) :: descSeq (x - 1) := by
  rw [descSeq, descSeq]
  have h1 : x.toNat = (x - 1).toNat + 1 := by omega
  rw [h1, List.range_succ_eq_map, List.map_cons, List.map_map]
  refine congrArg₂ List.cons (by norm_num) ?_
  refine List.map_congr_left ?_
  intro i _
  simp only [Function.comp_apply]
  push_cast
  ring

theorem eqEdits_lefts : ∀ (t : ℕ) (x y : ℤ), 0 ≤ x - t →
    editLefts (eqEdits t x y) ++ descSeq (x - t) = descSeq x := by
  intro t
  induction t with
  | zero =>
    intro x y _
    simp only [eqEdits, editLefts, List.filterMap_nil, List.nil_append, Nat.cast_zero, sub_zero]
  | succ t ih =>
    intro x y hx
    simp only [eqEdits, editLefts, List.filterMap_cons]
    have hrw : editLefts (eqEdits t (x - 1) (y - 1)) ++ descSeq (x - 1 - t) = descSeq (x - 1) := by
      refine ih (x - 1) (y - 1) (by push_cast at hx ⊢; omega)
    rw [descSeq_cons x (by push_cast at hx; omega)]
    simp only [editLefts] at hrw
    have e1 : x - ((t : ℕ) + 1 : ℕ) = x - 1 - (t : ℤ) := by push_cast; ring
    rw [e1]
    simpa using hrw

theorem eqEdits_rights : ∀ (t : ℕ) (x y : ℤ), 0 ≤ y - t →
    editRights (eqEdits t x y) ++ descSeq (y - t) = descSeq y := by
  intro t
  induction t with
  | zero =>
    intro x y _
    simp only [eqEdits, editRights, List.filterMap_nil, List.nil_append, Nat.cast_zero, sub_zero]
  | succ t ih =>
    intro x y hy
    simp only [eqEdits, editRights, List.filterMap_cons]
    have hrw : editRights (eqEdits t (x - 1) (y - 1)) ++ descSeq (y - 1 - t) = descSeq (y - 1) := by
      refine ih (x - 1) (y - 1) (by push_cast at hy ⊢; omega)
    rw [descSeq_cons y (by push_cast at hy; omega)]
    simp only [editRights] at hrw
    have e1 : y - ((t : ℕ) + 1 : ℕ) = y - 1 - (t : ℤ) := by push_cast; ring
    rw [e1]
    simpa using hrw

theorem eqEdits_count : ∀ (t : ℕ) (x y : ℤ), nonEqualCount (eqEdits t x y) = 0 := by
  intro t
  induction t with
  | zero => intro x y; rfl
  | succ t ih =>
    intro x y
    simp only [eqEdits, nonEqualCount, List.countP_cons]
    have := ih (x - 1) (y - 1)
    simp only [nonEqualCount] at this
    rw [this]
    rfl

/-- One backtracking iteration at step d from (x, y): the pushed edits and
the predecessor point, exactly as btLoop computes them. -/
def btNext (trace : List (ℤ → ℤ)) (mx : ℤ) (d : ℕ) (x y : ℤ) (acc : List Edit) :
    List Edit × ℤ × ℤ :=
  let vPrev := trace.getD d fun _ => 0
  let k := x - y
  let idx := k + mx
  let prevK : ℤ :=
    if k = -(d : ℤ) ∨ (k ≠ (d : ℤ) ∧ vPrev (idx - 1) < vPrev (idx + 1)) then k + 1
    else k - 1
  let prevX := vPrev (prevK + mx)
  let prevY := prevX - prevK
  let w := eqWalk x y prevX prevY
  if 0 < (d : ℤ) then
    if prevX < w.2.1 then (acc ++ w.1 ++ [⟨.delete, w.2.1 - 1, -1⟩], w.2.1 - 1, w.2.2)
    else if prevY < w.2.2 then (acc ++ w.1 ++ [⟨.insert, -1, w.2.2 - 1⟩], w.2.1, w.2.2 - 1)
    else (acc ++ w.1, w.2.1, w.2.2)
  else (acc ++ w.1, w.2.1, w.2.2)

theorem btLoop_zero_eq (trace : List (ℤ → ℤ)) (mx : ℤ) (x y : ℤ) (acc : List Edit) :
    btLoop trace mx 0 x y acc =
      if x ≤ 0 ∧ y ≤ 0 then acc else (btNext trace mx 0 x y acc).1 := rfl

theorem btLoop_succ_eq (trace : List (ℤ → ℤ)) (mx : ℤ) (d : ℕ) (x y : ℤ) (acc : List Edit) :
    btLoop trace mx (d + 1) x y acc =
      if x ≤ 0 ∧ y ≤ 0 then acc
      else btLoop trace mx d (btNext trace mx (d + 1) x y acc).2.1
        (btNext trace mx (d + 1) x y acc).2.2 (btNext trace mx (d + 1) x y acc).1 := rfl

theorem trace_getD (a b : List String) (D d : ℕ) (h : d ≤ D) :
    ((List.range (D + 1)).map (snap a b)).getD d (fun _ => 0) = snap a b d := by
  have hlt : d < ((List.range (D + 1)).map (snap a b)).length := by
    simp
    omega
  rw [List.getD_eq_getElem _ _ hlt]
  simp

theorem snap_zero (a b : List String) (pos : ℤ) : snap a b 0 pos = 0 := by
  rw [snap]
  rw [if_neg (by rintro ⟨h1, _⟩; omega)]
  rw [if_neg (by rintro ⟨h1, _⟩; omega)]

theorem snap_zero_fun (a b : List String) : (fun _ : ℤ => (0 : ℤ)) = snap a b 0 := by
  funext pos
  rw [snap_zero]

theorem snap_read (a b : List String) (d : ℕ) (j : ℤ)
    (hpar : (j + (d : ℤ)) % 2 = 0) :
    snap a b (d + 1) (j + ((a.length : ℤ) + b.length)) = Fk a b d j := by
  rw [snap]
  have e0 : j + ((a.length : ℤ) + b.length) - ((a.length : ℤ) + b.length) = j := by ring
  rw [e0]
  have e1 : d + 1 - 1 = d := by omega
  rw [e1]
  by_cases hv : ValidK d j
  · rw [if_pos ⟨by omega, hv⟩]
  · rw [if_neg (fun hc => hv hc.2)]
    rw [if_neg (by
      rintro ⟨h2, hvk⟩
      have hcast : ((d + 1 - 2 : ℕ) : ℤ) = (d : ℤ) - 1 := by omega
      have hp := hvk.2
      rw [hcast] at hp
      omega)]
    exact (Fk_junk a b d j hv).symm

theorem startX_pos (a b : List String) (d : ℕ) (hv : ValidK (d + 1) 0) :
    1 ≤ startX a b (d + 1) 0 := by
  have hpar := hv.2
  have hd1 : 1 ≤ d := by omega
  have hv1 : ValidK d (-1) := by
    constructor
    · simpa using hd1
    · omega
  have h0 := (Fk_nonneg a b d (-1) hv1).1
  rw [startX]
  split
  · rename_i hc
    rcases hc with h | h
    · exact absurd h (by omega)
    · have h2 := h.2
      norm_num at h2 ⊢
      omega
  · norm_num
    omega

theorem startX_initial_le (a b : List String) (d : ℕ)
    (hv : ValidK (d + 1) ((a.length : ℤ) - b.length))
    (hnd : ¬DoneAt a b d) :
    startX a b (d + 1) ((a.length : ℤ) - b.length) ≤ (a.length : ℤ) := by
  rw [startX]
  split
  · rename_i hc
    by_contra hlt
    push_neg at hlt
    have h1 := hv.1
    have h2 := hv.2
    have hkne : (a.length : ℤ) - b.length ≠ (d : ℤ) + 1 := by
      rcases hc with h | h
      · omega
      · exact h.1
    have hv1 : ValidK d ((a.length : ℤ) - b.length + 1) := ⟨by omega, by omega⟩
    exact hnd ⟨(a.length : ℤ) - b.length + 1, mem_ks.mpr ⟨hv1.1, hv1.2⟩, by omega, by omega⟩
  · rename_i hc
    by_contra hlt
    push_neg at hlt
    have h1 := hv.1
    have h2 := hv.2
    have hkne : (a.length : ℤ) - b.length ≠ -((d : ℤ) + 1) := by
      intro h
      exact hc (Or.inl (by omega))
    have hv1 : ValidK d ((a.length : ℤ) - b.length - 1) := ⟨by omega, by omega⟩
    exact hnd ⟨(a.length : ℤ) - b.length - 1, mem_ks.mpr ⟨hv1.1, hv1.2⟩, by omega, by omega⟩

theorem btNext_zero (a b : List String) (D : ℕ) (x y : ℤ) (acc : List Edit)
    (hk : x - y = 0) :
    (btNext ((List.range (D + 1)).map (snap a b)) ((a.length : ℤ) + b.length) 0 x y acc).1 =
      acc ++ eqEdits x.toNat x y := by
  simp only [btNext]
  rw [if_pos (Or.inl (show x - y = -((0 : ℕ) : ℤ) by omega))]
  rw [if_neg (show ¬((0 : ℤ) < ((0 : ℕ) : ℤ)) by omega)]
  rw [trace_getD a b D 0 (Nat.zero_le D)]
  rw [snap_zero]
  rw [eqWalk_spec x.toNat x y 0 (0 - (x - y + 1)) (by omega)]

theorem btNext_down (a b : List String) (D d : ℕ) (x y : ℤ) (acc : List Edit)
    (hdD : d + 1 ≤ D)
    (hpar : ((x - y) + ((d : ℤ) + 1)) % 2 = 0)
    (hc : x - y = -((d : ℤ) + 1) ∨
      (x - y ≠ ((d : ℤ) + 1) ∧ Fk a b d (x - y - 1) < Fk a b d (x - y + 1)))
    (hle : Fk a b d (x - y + 1) ≤ x) :
    btNext ((List.range (D + 1)).map (snap a b)) ((a.length : ℤ) + b.length) (d + 1) x y acc =
      (acc ++ eqEdits ((x - Fk a b d (x - y + 1)).toNat) x y
          ++ [⟨.insert, -1, Fk a b d (x - y + 1) - (x - y + 1)⟩],
        Fk a b d (x - y + 1), Fk a b d (x - y + 1) - (x - y + 1)) := by
  simp only [btNext]
  have hcget : x - y = -(((d + 1 : ℕ) : ℤ)) ∨ (x - y ≠ ((d + 1 : ℕ) : ℤ) ∧
      ((List.range (D + 1)).map (snap a b)).getD (d + 1) (fun _ => 0)
          (x - y + ((a.length : ℤ) + b.length) - 1) <
        ((List.range (D + 1)).map (snap a b)).getD (d + 1) (fun _ => 0)
          (x - y + ((a.length : ℤ) + b.length) + 1)) := by
    rw [trace_getD a b D (d + 1) (by omega)]
    rw [show x - y + ((a.length : ℤ) + b.length) - 1
        = (x - y - 1) + ((a.length : ℤ) + b.length) by ring]
    rw [show x - y + ((a.length : ℤ) + b.length) + 1
        = (x - y + 1) + ((a.length : ℤ) + b.length) by ring]
    rw [snap_read a b d (x - y - 1) (by omega), snap_read a b d (x - y + 1) (by omega)]
    rcases hc with h | h
    · exact Or.inl (by omega)
    · exact Or.inr ⟨by have := h.1; omega, h.2⟩
  rw [if_pos hcget]
  have hpx : ((List.range (D + 1)).map (snap a b)).getD (d + 1) (fun _ => 0)
      (x - y + 1 + ((a.length : ℤ) + b.length)) = Fk a b d (x - y + 1) := by
    rw [trace_getD a b D (d + 1) (by omega), snap_read a b d (x - y + 1) (by omega)]
  rw [hpx]
  have hweq := eqWalk_spec ((x - Fk a b d (x - y + 1)).toNat) x y (Fk a b d (x - y + 1))
    (Fk a b d (x - y + 1) - (x - y + 1)) (by omega)
  simp only [hweq]
  rw [if_pos (show (0 : ℤ) < ((d + 1 : ℕ) : ℤ) by omega)]
  rw [if_neg (show ¬(Fk a b d (x - y + 1) <
    x - ((x - Fk a b d (x - y + 1)).toNat : ℤ)) by omega)]
  rw [if_pos (show Fk a b d (x - y + 1) - (x - y + 1) <
    y - ((x - Fk a b d (x - y + 1)).toNat : ℤ) by omega)]
  refine congrArg₂ Prod.mk ?_ (congrArg₂ Prod.mk (by omega) (by omega))
  refine congrArg₂ List.append rfl ?_
  refine congrArg₂ List.cons ?_ rfl
  refine congrArg (Edit.mk .insert (-1)) ?_
  omega

theorem btNext_right (a b : List String) (D d : ℕ) (x y : ℤ) (acc : List Edit)
    (hdD : d + 1 ≤ D)
    (hpar : ((x - y) + ((d : ℤ) + 1)) % 2 = 0)
    (hc : ¬(x - y = -((d : ℤ) + 1) ∨
      (x - y ≠ ((d : ℤ) + 1) ∧ Fk a b d (x - y - 1) < Fk a b d (x - y + 1))))
    (hle : Fk a b d (x - y - 1) + 1 ≤ x) :
    btNext ((List.range (D + 1)).map (snap a b)) ((a.length : ℤ) + b.length) (d + 1) x y acc =
      (acc ++ eqEdits ((x - Fk a b d (x - y - 1) - 1).toNat) x y
          ++ [⟨.delete, Fk a b d (x - y - 1), -1⟩],
        Fk a b d (x - y - 1), Fk a b d (x - y - 1) - (x - y - 1)) := by
  simp only [btNext]
  have hcget : ¬(x - y = -(((d + 1 : ℕ) : ℤ)) ∨ (x - y ≠ ((d + 1 : ℕ) : ℤ) ∧
      ((List.range (D + 1)).map (snap a b)).getD (d + 1) (fun _ => 0)
          (x - y + ((a.length : ℤ) + b.length) - 1) <
        ((List.range (D + 1)).map (snap a b)).getD (d + 1) (fun _ => 0)
          (x - y + ((a.length : ℤ) + b.length) + 1))) := by
    rw [trace_getD a b D (d + 1) (by omega)]
    rw [show x - y + ((a.length : ℤ) + b.length) - 1
        = (x - y - 1) + ((a.length : ℤ) + b.length) by ring]
    rw [show x - y + ((a.length : ℤ) + b.length) + 1
        = (x - y + 1) + ((a.length : ℤ) + b.length) by ring]
    rw [snap_read a b d (x - y - 1) (by omega), snap_read a b d (x - y + 1) (by omega)]
    intro h
    apply hc
    rcases h with h | h
    · exact Or.inl (by omega)
    · exact Or.inr ⟨by have := h.1; omega, h.2⟩
  rw [if_neg hcget]
  have hpx : ((List.range (D + 1)).map (snap a b)).getD (d + 1) (fun _ => 0)
      (x - y - 1 + ((a.length : ℤ) + b.length)) = Fk a b d (x - y - 1) := by
    rw [trace_getD a b D (d + 1) (by omega), snap_read a b d (x - y - 1) (by omega)]
  rw [hpx]
  have hweq := eqWalk_spec ((x - Fk a b d (x - y - 1) - 1).toNat) x y (Fk a b d (x - y - 1))
    (Fk a b d (x - y - 1) - (x - y - 1)) (by omega)
  simp only [hweq]
  rw [if_pos (show (0 : ℤ) < ((d + 1 : ℕ) : ℤ) by omega)]
  rw [if_pos (show Fk a b d (x - y - 1) <
    x - ((x - Fk a b d (x - y - 1) - 1).toNat : ℤ) by omega)]
  refine congrArg₂ Prod.mk ?_ (congrArg₂ Prod.mk (by omega) (by omega))
  refine congrArg₂ List.append rfl ?_
  refine congrArg₂ List.cons ?_ rfl
  refine congrArg (fun z => Edit.mk .delete z (-1)) ?_
  omega

theorem editLefts_append (es fs : List Edit) :
    editLefts (es ++ fs) = editLefts es ++ editLefts fs := by
  simp [editLefts, List.filterMap_append]

theorem editRights_append (es fs : List Edit) :
    editRights (es ++ fs) = editRights es ++ editRights fs := by
  simp [editRights, List.filterMap_append]

theorem nonEqualCount_append (es fs : List Edit) :
    nonEqualCount (es ++ fs) = nonEqualCount es + nonEqualCount fs := by
  simp [nonEqualCount, List.countP_append]

theorem btLoop_spec (a b : List String) (D : ℕ) :
    ∀ (d : ℕ) (x y : ℤ) (acc : List Edit), d ≤ D →
    0 ≤ x → 0 ≤ y → ValidK d (x - y) → startX a b d (x - y) ≤ x →
    ∃ E : List Edit,
      btLoop ((List.range (D + 1)).map (snap a b)) ((a.length : ℤ) + b.length) d x y acc
        = acc ++ E ∧
      editLefts E = descSeq x ∧ editRights E = descSeq y ∧ nonEqualCount E = d := by
  intro d
  induction d with
  | zero =>
    intro x y acc hdD hx hy hv hsx
    have hk0 : x - y = 0 := by have := hv.1; omega
    rw [btLoop_zero_eq]
    by_cases hguard : x ≤ 0 ∧ y ≤ 0
    · rw [if_pos hguard]
      refine ⟨[], by simp, ?_, ?_, rfl⟩
      · rw [descSeq_nonpos x hguard.1]; rfl
      · rw [descSeq_nonpos y hguard.2]; rfl
    · rw [if_neg hguard]
      rw [btNext_zero a b D x y acc hk0]
      refine ⟨eqEdits x.toNat x y, rfl, ?_, ?_, eqEdits_count x.toNat x y⟩
      · have h := eqEdits_lefts x.toNat x y (by omega)
        rw [descSeq_nonpos (x - (x.toNat : ℤ)) (by omega)] at h
        simpa using h
      · have h := eqEdits_rights x.toNat x y (by omega)
        rw [descSeq_nonpos (y - (x.toNat : ℤ)) (by omega)] at h
        simpa using h
  | succ d ih =>
    intro x y acc hdD hx hy hv hsx
    have hpar : ((x - y) + ((d : ℤ) + 1)) % 2 = 0 := by
      have := hv.2
      omega
    have hguard : ¬(x ≤ 0 ∧ y ≤ 0) := by
      rintro ⟨h1, h2⟩
      have hx0 : x = 0 := by omega
      have hk0 : x - y = 0 := by omega
      rw [hk0] at hsx hv
      have := startX_pos a b d hv
      omega
    rw [btLoop_succ_eq]
    rw [if_neg hguard]
    by_cases hc : x - y = -((d : ℤ) + 1) ∨
        (x - y ≠ ((d : ℤ) + 1) ∧ Fk a b d (x - y - 1) < Fk a b d (x - y + 1))
    · have hsxv : startX a b (d + 1) (x - y) = Fk a b d (x - y + 1) := by
        rw [startX, if_pos hc]
      have hle : Fk a b d (x - y + 1) ≤ x := by omega
      have hvk1 : ValidK d (x - y + 1) := by
        have h1 := hv.1
        have h2 := hv.2
        rcases hc with h | h
        · exact ⟨by omega, by omega⟩
        · exact ⟨by have := h.1; omega, by omega⟩
      have hfknn := Fk_nonneg a b d (x - y + 1) hvk1
      simp only [btNext_down a b D d x y acc hdD hpar hc hle]
      obtain ⟨E, hE, hEl, hEr, hEc⟩ := ih (Fk a b d (x - y + 1))
        (Fk a b d (x - y + 1) - (x - y + 1))
        (acc ++ eqEdits ((x - Fk a b d (x - y + 1)).toNat) x y
          ++ [⟨.insert, -1, Fk a b d (x - y + 1) - (x - y + 1)⟩])
        (by omega) (by omega) (by omega)
        (by
          have e : Fk a b d (x - y + 1) - (Fk a b d (x - y + 1) - (x - y + 1)) = x - y + 1 := by
            ring
          rw [e]
          exact hvk1)
        (by
          have e : Fk a b d (x - y + 1) - (Fk a b d (x - y + 1) - (x - y + 1)) = x - y + 1 := by
            ring
          rw [e]
          exact Fk_ge_startX a b d (x - y + 1) hvk1)
      rw [hE]
      refine ⟨eqEdits ((x - Fk a b d (x - y + 1)).toNat) x y
        ++ [⟨.insert, -1, Fk a b d (x - y + 1) - (x - y + 1)⟩] ++ E, ?_, ?_, ?_, ?_⟩
      · simp [List.append_assoc]
      · rw [editLefts_append, editLefts_append, hEl]
        have hins : editLefts [(⟨.insert, -1, Fk a b d (x - y + 1) - (x - y + 1)⟩ : Edit)]
            = [] := rfl
        rw [hins]
        have h := eqEdits_lefts ((x - Fk a b d (x - y + 1)).toNat) x y (by omega)
        have e : x - ((x - Fk a b d (x - y + 1)).toNat : ℤ) = Fk a b d (x - y + 1) := by omega
        rw [e] at h
        simpa using h
      · rw [editRights_append, editRights_append, hEr]
        have hins : editRights [(⟨.insert, -1, Fk a b d (x - y + 1) - (x - y + 1)⟩ : Edit)]
            = [Fk a b d (x - y + 1) - (x - y + 1)] := rfl
        rw [hins]
        have h := eqEdits_rights ((x - Fk a b d (x - y + 1)).toNat) x y (by omega)
        have e : y - ((x - Fk a b d (x - y + 1)).toNat : ℤ)
            = Fk a b d (x - y + 1) - (x - y) := by omega
        rw [e] at h
        have h2 : descSeq (Fk a b d (x - y + 1) - (x - y)) =
            (Fk a b d (x - y + 1) - (x - y + 1))
              :: descSeq (Fk a b d (x - y + 1) - (x - y + 1)) := by
          have e2 : Fk a b d (x - y + 1) - (x - y) - 1
              = Fk a b d (x - y + 1) - (x - y + 1) := by ring
          rw [descSeq_cons _ (by omega), e2]
        rw [h2] at h
        rw [← h]
        simp
      · rw [nonEqualCount_append, nonEqualCount_append, eqEdits_count, hEc]
        have hone : nonEqualCount
            [(⟨.insert, -1, Fk a b d (x - y + 1) - (x - y + 1)⟩ : Edit)] = 1 := rfl
        rw [hone]
        omega
    · have hkne : x - y ≠ -((d : ℤ) + 1) := fun h => hc (Or.inl h)
      have hsxv : startX a b (d + 1) (x - y) = Fk a b d (x - y - 1) + 1 := by
        rw [startX, if_neg hc]
      have hle : Fk a b d (x - y - 1) + 1 ≤ x := by omega
      have hvk1 : ValidK d (x - y - 1) := by
        have h1 := hv.1
        have h2 := hv.2
        exact ⟨by omega, by omega⟩
      have hfknn := Fk_nonneg a b d (x - y - 1) hvk1
      simp only [btNext_right a b D d x y acc hdD hpar hc hle]
      obtain ⟨E, hE, hEl, hEr, hEc⟩ := ih (Fk a b d (x - y - 1))
        (Fk a b d (x - y - 1) - (x - y - 1))
        (acc ++ eqEdits ((x - Fk a b d (x - y - 1) - 1).toNat) x y
          ++ [⟨.delete, Fk a b d (x - y - 1), -1⟩])
        (by omega) (by omega) (by omega)
        (by
          have e : Fk a b d (x - y - 1) - (Fk a b d (x - y - 1) - (x - y - 1)) = x - y - 1 := by
            ring
          rw [e]
          exact hvk1)
        (by
          have e : Fk a b d (x - y - 1) - (Fk a b d (x - y - 1) - (x - y - 1)) = x - y - 1 := by
            ring
          rw [e]
          exact Fk_ge_startX a b d (x - y - 1) hvk1)
      rw [hE]
      refine ⟨eqEdits ((x - Fk a b d (x - y - 1) - 1).toNat) x y
        ++ [⟨.delete, Fk a b d (x - y - 1), -1⟩] ++ E, ?_, ?_, ?_, ?_⟩
      · simp [List.append_assoc]
      · rw [editLefts_append, editLefts_append, hEl]
        have hins : editLefts [(⟨.delete, Fk a b d (x - y - 1), -1⟩ : Edit)]
            = [Fk a b d (x - y - 1)] := rfl
        rw [hins]
        have h := eqEdits_lefts ((x - Fk a b d (x - y - 1) - 1).toNat) x y (by omega)
        have e : x - ((x - Fk a b d (x - y - 1) - 1).toNat : ℤ)
            = Fk a b d (x - y - 1) + 1 := by omega
        rw [e] at h
        have h2 : descSeq (Fk a b d (x - y - 1) + 1) =
            Fk a b d (x - y - 1) :: descSeq (Fk a b d (x - y - 1)) := by
          have e2 : Fk a b d (x - y - 1) + 1 - 1 = Fk a b d (x - y - 1) := by ring
          rw [descSeq_cons _ (by omega), e2]
        rw [h2] at h
        rw [← h]
        simp
      · rw [editRights_append, editRights_append, hEr]
        have hins : editRights [(⟨.delete, Fk a b d (x - y - 1), -1⟩ : Edit)] = [] := rfl
        rw [hins]
        have h := eqEdits_rights ((x - Fk a b d (x - y - 1) - 1).toNat) x y (by omega)
        have e : y - ((x - Fk a b d (x - y - 1) - 1).toNat : ℤ)
            = Fk a b d (x - y - 1) - (x - y - 1) := by omega
        rw [e] at h
        simpa using h
      · rw [nonEqualCount_append, nonEqualCount_append, eqEdits_count, hEc]
        have hone : nonEqualCount [(⟨.delete, Fk a b d (x - y - 1), -1⟩ : Edit)] = 1 := rfl
        rw [hone]
        omega

theorem descSeq_natCast (n : ℕ) :
    descSeq (n : ℤ) = ((List.range n).map (fun i : ℕ => (i : ℤ))).reverse := by
  induction n with
  | zero =>
    rw [descSeq_nonpos _ (by omega)]
    rfl
  | succ n ih =>
    rw [descSeq_cons _ (by omega)]
    have e : ((n + 1 : ℕ) : ℤ) - 1 = (n : ℤ) := by push_cast; ring
    rw [e, ih, List.range_succ, List.map_append, List.reverse_append]
    simp

theorem editLefts_reverse (es : List Edit) : editLefts es.reverse = (editLefts es).reverse := by
  simp [editLefts, List.filterMap_reverse]

theorem editRights_reverse (es : List Edit) :
    editRights es.reverse = (editRights es).reverse := by
  simp [editRights, List.filterMap_reverse]

theorem nonEqualCount_reverse (es : List Edit) : nonEqualCount es.reverse = nonEqualCount es := by
  simp [nonEqualCount, List.countP_reverse]

/-- The master characterization of the backtracked edit list: its left
indices are 0, 1, ..., a.length - 1 in order, its right indices are
0, 1, ..., b.length - 1 in order, and its number of non-equal edits is the
step at which the forward pass first reached the end corner. -/
theorem myersEditsCore_spec (a b : List String) (D : ℕ) (hD : DoneAt a b D)
    (hmin : ∀ d' < D, ¬DoneAt a b d') :
    editLefts (myersEditsCore a b) = (List.range a.length).map (fun i : ℕ => (i : ℤ)) ∧
    editRights (myersEditsCore a b) = (List.range b.length).map (fun i : ℕ => (i : ℤ)) ∧
    nonEqualCount (myersEditsCore a b) = D := by
  have hDle : D ≤ a.length + b.length := by
    by_contra hgt
    push_neg at hgt
    exact hmin (a.length + b.length) hgt (doneAt_corner a b)
  have hreach : ReachP a b a.length b.length D := by
    obtain ⟨d', hle, hp⟩ := reach_of_doneAt a b hD
    have : D ≤ d' := by
      by_contra hlt
      push_neg at hlt
      exact hmin d' hlt (doneAt_of_reach a b hp)
    have : d' = D := by omega
    exact this ▸ hp
  have hvreach := reachP_valid hreach
  have hvD : ValidK D ((a.length : ℤ) - b.length) := ⟨hvreach.1, hvreach.2⟩
  by_cases hnm : a.length + b.length = 0
  · have ha : a.length = 0 := by omega
    have hb : b.length = 0 := by omega
    have hmc : myersEditsCore a b = [] := by
      rw [myersEditsCore, if_pos hnm]
    have hD0 : D = 0 := by
      by_contra hne
      have h0 : (0 : ℕ) < D := by omega
      refine hmin 0 h0 ?_
      refine ⟨0, ?_, ?_, ?_⟩
      · simp [ks]
      · rw [ha]
        simp only [Nat.cast_zero]
        have := (Fk_nonneg a b 0 0 (by constructor <;> simp)).1
        omega
      · rw [hb]
        simp only [Nat.cast_zero]
        have := (Fk_nonneg a b 0 0 (by constructor <;> simp)).1
        omega
    rw [hmc, hD0, ha, hb]
    refine ⟨rfl, rfl, rfl⟩
  · have htr : fwdLoop a b (a.length + b.length + 1) 0 (fun _ => 0) [] =
        (List.range (D + 1)).map (snap a b) := by
      rw [snap_zero_fun a b]
      rw [fwdLoop_spec a b D hD hmin (a.length + b.length + 1) 0 [] (by omega) (by omega)]
      rw [List.nil_append]
      have e : D + 1 - 0 = D + 1 := by omega
      rw [e, ← List.range_eq_range']
    have hmc : myersEditsCore a b =
        (btLoop ((List.range (D + 1)).map (snap a b)) ((a.length : ℤ) + b.length)
          (((List.range (D + 1)).map (snap a b)).length - 1)
          (a.length : ℤ) (b.length : ℤ) []).reverse := by
      rw [myersEditsCore, if_neg hnm, htr]
    have hlen : ((List.range (D + 1)).map (snap a b)).length - 1 = D := by
      simp
    rw [hlen] at hmc
    have hsxle : startX a b D ((a.length : ℤ) - b.length) ≤ (a.length : ℤ) := by
      match D, hvD with
      | 0, _ =>
        rw [startX]
        omega
      | d + 1, hvD =>
        exact startX_initial_le a b d hvD (hmin d (by omega))
    obtain ⟨E, hE, hEl, hEr, hEc⟩ := btLoop_spec a b D D (a.length : ℤ) (b.length : ℤ) []
      (le_refl D) (by omega) (by omega) hvD hsxle
    rw [List.nil_append] at hE
    rw [hmc, hE]
    refine ⟨?_, ?_, ?_⟩
    · rw [editLefts_reverse, hEl, descSeq_natCast, List.reverse_reverse]
    · rw [editRights_reverse, hEr, descSeq_natCast, List.reverse_reverse]
    · rw [nonEqualCount_reverse, hEc]

/- ───────────────────────── C10: fuel bound for the walk ───────────────── -/

theorem wordDiffGoFuelSpec (tokA tokB lcs : List String) :
    ∀ (fuel ai bi li : ℕ) (accL accR : String),
      (tokA.length - ai) + (tokB.length - bi) ≤ fuel →
      wordDiffGoFuel tokA tokB lcs fuel ai bi li accL accR =
        some (wordDiffGo tokA tokB lcs ai bi li accL accR) := by
  intro fuel
  induction fuel with
  | zero =>
    intro ai bi li accL accR hm
    rw [wordDiffGoFuel, wordDiffGo, if_neg (by omega), if_neg (by omega)]
  | succ fuel ih =>
    intro ai bi li accL accR hm
    by_cases hw : ai < tokA.length ∨ bi < tokB.length
    · rw [wordDiffGoFuel, wordDiffGo, if_pos hw, if_pos hw]
      by_cases h1 : ai < tokA.length ∧ bi < tokB.length ∧ li < lcs.length ∧
          tokA.getD ai "" = lcs.getD li "" ∧ tokB.getD bi "" = lcs.getD li ""
      · rw [if_pos h1, if_pos h1, ih _ _ _ _ _ (by omega)]
      · rw [if_neg h1, if_neg h1]
        by_cases h2 : bi < tokB.length ∧ (tokA.length ≤ ai ∨ lcsMemFrom tokA ai lcs li = false)
        · rw [if_pos h2, if_pos h2, ih _ _ _ _ _ (by omega)]
        · rw [if_neg h2, if_neg h2]
          have hai : ai < tokA.length := by
            by_contra hn
            exact h2 ⟨hw.resolve_left hn, Or.inl (Nat.le_of_not_lt hn)⟩
          rw [ih _ _ _ _ _ (by omega)]
    · rw [wordDiffGoFuel, wordDiffGo, if_neg hw, if_neg hw]

/- ───────────────── consolidation lemmas ──────────────────────────────── -/

theorem takeWhile_append_all {α : Type} (p : α → Bool) :
    ∀ (xs ys : List α), (∀ x ∈ xs, p x = true) →
      (xs ++ ys).takeWhile p = xs ++ ys.takeWhile p := by
  intro xs
  induction xs with
  | nil => intro ys _; simp
  | cons a xs ih =>
    intro ys hall
    rw [List.cons_append, List.takeWhile_cons_of_pos (hall a (List.mem_cons_self a xs)),
      ih ys (fun x hx => hall x (List.mem_cons_of_mem a hx)), List.cons_append]

theorem dropWhile_append_all {α : Type} (p : α → Bool) :
    ∀ (xs ys : List α), (∀ x ∈ xs, p x = true) →
      (xs ++ ys).dropWhile p = ys.dropWhile p := by
  intro xs
  induction xs with
  | nil => intro ys _; simp
  | cons a xs ih =>
    intro ys hall
    rw [List.cons_append, List.dropWhile_cons_of_pos (hall a (List.mem_cons_self a xs)),
      ih ys (fun x hx => hall x (List.mem_cons_of_mem a hx))]

theorem takeWhile_nil_of_head {α : Type} (p : α → Bool) (l : List α)
    (h : ∀ x ∈ l.take 1, p x = false) : l.takeWhile p = [] := by
  cases l with
  | nil => rfl
  | cons a l =>
    refine List.takeWhile_cons_of_neg ?_
    have := h a (by simp)
    simp [this]

theorem dropWhile_all_of_head {α : Type} (p : α → Bool) (l : List α)
    (h : ∀ x ∈ l.take 1, p x = false) : l.dropWhile p = l := by
  cases l with
  | nil => rfl
  | cons a l =>
    refine List.dropWhile_cons_of_neg ?_
    have := h a (by simp)
    simp [this]

theorem take_drop_min {α : Type} (l : List α) (n : ℕ) :
    l.take n ++ l.drop (min l.length n) = l := by
  rcases le_or_lt n l.length with h | h
  · rw [Nat.min_eq_right h, List.take_append_drop]
  · rw [List.take_of_length_le (by omega), Nat.min_eq_left (by omega), List.drop_length,
      List.append_nil]

theorem consolidateGo_fuel (left right : List String) :
    ∀ (fuel1 fuel2 : ℕ) (es : List Edit), es.length ≤ fuel1 → es.length ≤ fuel2 →
      consolidateGo left right fuel1 es = consolidateGo left right fuel2 es := by
  intro fuel1
  induction fuel1 with
  | zero =>
    intro fuel2 es h1 _
    have : es = [] := by
      cases es with
      | nil => rfl
      | cons e es => simp at h1
    subst this
    cases fuel2 <;> rfl
  | succ fuel1 ih =>
    intro fuel2 es h1 h2
    cases es with
    | nil => cases fuel2 <;> rfl
    | cons e rest =>
      match fuel2, h2 with
      | fuel2 + 1, h2 =>
        have hlen1 : (rest.dropWhile isDeleteE).length ≤ rest.length :=
          lengthDropWhileLe isDeleteE rest
        have hlen2 : ((rest.dropWhile isDeleteE).dropWhile isInsertE).length ≤
            (rest.dropWhile isDeleteE).length :=
          lengthDropWhileLe isInsertE (rest.dropWhile isDeleteE)
        have hlen3 : (rest.dropWhile isInsertE).length ≤ rest.length :=
          lengthDropWhileLe isInsertE rest
        cases he : e.type with
        | equal =>
          simp only [consolidateGo, he]
          rw [ih fuel2 rest (by simp at h1; omega) (by simp at h2; omega)]
        | delete =>
          simp only [consolidateGo, he]
          rw [ih fuel2 ((rest.dropWhile isDeleteE).dropWhile isInsertE)
            (by simp at h1; omega) (by simp at h2; omega)]
        | insert =>
          simp only [consolidateGo, he]
          rw [ih fuel2 (rest.dropWhile isInsertE)
            (by simp at h1; omega) (by simp at h2; omega)]

theorem consolidate_cons_equal (left right : List String) (e : Edit) (rest : List Edit)
    (he : e.type = .equal) :
    consolidate left right (e :: rest) =
      ⟨.equal, [jsGet left e.li], [jsGet right e.ri], e.li, e.ri⟩ ::
        consolidate left right rest := by
  show consolidateGo left right ((e :: rest).length) (e :: rest) = _
  have hlen : (e :: rest).length = rest.length + 1 := rfl
  rw [hlen]
  simp only [consolidateGo, he]
  rfl

/- ───────────────── C3 core: the changed-block equation ────────────────── -/

theorem consolidate_changed_block (left right : List String)
    (dels ins rest : List Edit)
    (hd : 0 < dels.length) (hi : 0 < ins.length)
    (hdel : ∀ e ∈ dels, e.type = .delete)
    (hins : ∀ e ∈ ins, e.type = .insert)
    (hmax : ∀ e ∈ rest.take 1, e.type ≠ .delete ∧ e.type ≠ .insert) :
    consolidate left right (dels ++ ins ++ rest) =
      (List.zipWith (fun de ie =>
          (⟨.changed, [jsGet left de.li], [jsGet right ie.ri], de.li, ie.ri⟩ : Hunk)) dels ins
        ++ (dels.drop (min dels.length ins.length)).map
            (fun de => ⟨.removed, [jsGet left de.li], [""], de.li, -1⟩)
        ++ (ins.drop (min dels.length ins.length)).map
            (fun ie => ⟨.added, [""], [jsGet right ie.ri], -1, ie.ri⟩))
        ++ consolidate left right rest := by
  match dels, hd with
  | d0 :: dels', _ =>
    have hdall : ∀ x ∈ dels', isDeleteE x = true := by
      intro x hx
      have := hdel x (List.mem_cons_of_mem d0 hx)
      simp [isDeleteE, this]
    have hiall : ∀ x ∈ ins, isInsertE x = true := by
      intro x hx
      have := hins x hx
      simp [isInsertE, this]
    have hino : ∀ x ∈ (ins ++ rest).take 1, isDeleteE x = false := by
      match ins, hi with
      | i0 :: ins'', _ =>
        intro x hx
        have hx0 : x = i0 := by simpa using hx
        have hti := hins i0 (List.mem_cons_self i0 ins'')
        rw [hx0]
        simp [isDeleteE, hti]
    have hresto : ∀ x ∈ rest.take 1, isInsertE x = false := by
      intro x hx
      have := (hmax x hx).2
      simp [isInsertE, this]
    have htw : (dels' ++ (ins ++ rest)).takeWhile isDeleteE = dels' := by
      rw [takeWhile_append_all isDeleteE dels' (ins ++ rest) hdall,
        takeWhile_nil_of_head isDeleteE (ins ++ rest) hino, List.append_nil]
    have hdw : (dels' ++ (ins ++ rest)).dropWhile isDeleteE = ins ++ rest := by
      rw [dropWhile_append_all isDeleteE dels' (ins ++ rest) hdall,
        dropWhile_all_of_head isDeleteE (ins ++ rest) hino]
    have htw2 : (ins ++ rest).takeWhile isInsertE = ins := by
      rw [takeWhile_append_all isInsertE ins rest hiall,
        takeWhile_nil_of_head isInsertE rest hresto, List.append_nil]
    have hdw2 : (ins ++ rest).dropWhile isInsertE = rest := by
      rw [dropWhile_append_all isInsertE ins rest hiall,
        dropWhile_all_of_head isInsertE rest hresto]
    have hd0 := hdel d0 (List.mem_cons_self d0 dels')
    show consolidateGo left right (((d0 :: dels') ++ ins ++ rest).length)
      ((d0 :: dels') ++ ins ++ rest) = _
    simp only [List.cons_append, List.append_assoc, List.length_cons]
    simp only [consolidateGo, hd0]
    rw [htw, hdw, htw2, hdw2]
    rw [if_pos ⟨by simp, hi⟩]
    rw [consolidateGo_fuel left right (dels' ++ (ins ++ rest)).length rest.length rest
      (by simp; omega) (le_refl _)]
    rw [show consolidateGo left right rest.length rest = consolidate left right rest from rfl]
    simp only [List.append_assoc, List.length_cons]

/- ───────────────── C9 core: hunk shapes of the consolidator ───────────── -/

theorem mem_zipWith_sh {α β γ : Type} {f : α → β → γ} :
    ∀ {l1 : List α} {l2 : List β} {c : γ},
      c ∈ List.zipWith f l1 l2 → ∃ a ∈ l1, ∃ b ∈ l2, c = f a b := by
  intro l1
  induction l1 with
  | nil =>
    intro l2 c h
    simp at h
  | cons a l1 ih =>
    intro l2 c h
    cases l2 with
    | nil => simp at h
    | cons b l2 =>
      rw [List.zipWith_cons_cons] at h
      rcases List.mem_cons.mp h with h | h
      · exact ⟨a, List.mem_cons_self _ _, b, List.mem_cons_self _ _, h⟩
      · obtain ⟨a', ha, b', hb, he⟩ := ih h
        exact ⟨a', List.mem_cons_of_mem _ ha, b', List.mem_cons_of_mem _ hb, he⟩

/-- The four shapes a consolidator hunk can take, each traced back to an
edit (or a delete/insert pair) of the consolidated list. -/
def HunkFromEdits (left right : List String) (es : List Edit) (h : Hunk) : Prop :=
  (∃ e ∈ es, e.type = .equal ∧
    h = ⟨.equal, [jsGet left e.li], [jsGet right e.ri], e.li, e.ri⟩) ∨
  (∃ e ∈ es, ∃ f ∈ es, e.type = .delete ∧ f.type = .insert ∧
    h = ⟨.changed, [jsGet left e.li], [jsGet right f.ri], e.li, f.ri⟩) ∨
  (∃ e ∈ es, e.type = .delete ∧ h = ⟨.removed, [jsGet left e.li], [""], e.li, -1⟩) ∨
  (∃ e ∈ es, e.type = .insert ∧ h = ⟨.added, [""], [jsGet right e.ri], -1, e.ri⟩)

theorem hunkFromEdits_mono {left right : List String} {es es' : List Edit} {h : Hunk}
    (hsub : ∀ x ∈ es, x ∈ es') (hsh : HunkFromEdits left right es h) :
    HunkFromEdits left right es' h := by
  rcases hsh with ⟨e, hm, ht, hh⟩ | ⟨e, hm, f, hmf, ht, hft, hh⟩ |
    ⟨e, hm, ht, hh⟩ | ⟨e, hm, ht, hh⟩
  · exact Or.inl ⟨e, hsub e hm, ht, hh⟩
  · exact Or.inr (Or.inl ⟨e, hsub e hm, f, hsub f hmf, ht, hft, hh⟩)
  · exact Or.inr (Or.inr (Or.inl ⟨e, hsub e hm, ht, hh⟩))
  · exact Or.inr (Or.inr (Or.inr ⟨e, hsub e hm, ht, hh⟩))

theorem consolidateGo_mem (left right : List String) :
    ∀ (fuel : ℕ) (es : List Edit), ∀ h ∈ consolidateGo left right fuel es,
      HunkFromEdits left right es h := by
  intro fuel
  induction fuel with
  | zero =>
    intro es h hmem
    cases es with
    | nil => simp [consolidateGo] at hmem
    | cons e rest => simp [consolidateGo] at hmem
  | succ fuel ih =>
    intro es h hmem
    cases es with
    | nil => simp [consolidateGo] at hmem
    | cons e rest =>
      cases he : e.type with
      | equal =>
        simp only [consolidateGo, he] at hmem
        rcases List.mem_cons.mp hmem with h1 | h1
        · exact Or.inl ⟨e, List.mem_cons_self _ _, he, h1⟩
        · exact hunkFromEdits_mono (fun x hx => List.mem_cons_of_mem _ hx) (ih rest h h1)
      | delete =>
        simp only [consolidateGo, he] at hmem
        have hdels : ∀ de ∈ (e :: rest.takeWhile isDeleteE),
            de ∈ e :: rest ∧ de.type = .delete := by
          intro de hde
          rcases List.mem_cons.mp hde with h2 | h2
          · exact ⟨h2 ▸ List.mem_cons_self _ _, h2 ▸ he⟩
          · refine ⟨List.mem_cons_of_mem _ ((List.takeWhile_sublist _).subset h2), ?_⟩
            have := List.mem_takeWhile_imp h2
            simpa [isDeleteE] using this
        have hinsm : ∀ ie ∈ (rest.dropWhile isDeleteE).takeWhile isInsertE,
            ie ∈ e :: rest ∧ ie.type = .insert := by
          intro ie hie
          refine ⟨List.mem_cons_of_mem _ ((List.dropWhile_sublist _).subset
            ((List.takeWhile_sublist _).subset hie)), ?_⟩
          have := List.mem_takeWhile_imp hie
          simpa [isInsertE] using this
        rcases List.mem_append.mp hmem with h1 | h1
        · by_cases hc : 0 < (e :: rest.takeWhile isDeleteE).length ∧
              0 < ((rest.dropWhile isDeleteE).takeWhile isInsertE).length
          · rw [if_pos hc] at h1
            rcases List.mem_append.mp h1 with h2 | h2
            · rcases List.mem_append.mp h2 with h3 | h3
              · obtain ⟨de, hde, ie, hie, hh⟩ := mem_zipWith_sh h3
                exact Or.inr (Or.inl ⟨de, (hdels de hde).1, ie, (hinsm ie hie).1,
                  (hdels de hde).2, (hinsm ie hie).2, hh⟩)
              · obtain ⟨de, hde, hh⟩ := List.mem_map.mp h3
                have hde' := hdels de ((List.drop_subset _ _) hde)
                exact Or.inr (Or.inr (Or.inl ⟨de, hde'.1, hde'.2, hh.symm⟩))
            · obtain ⟨ie, hie, hh⟩ := List.mem_map.mp h2
              have hie' := hinsm ie ((List.drop_subset _ _) hie)
              exact Or.inr (Or.inr (Or.inr ⟨ie, hie'.1, hie'.2, hh.symm⟩))
          · rw [if_neg hc] at h1
            rcases List.mem_append.mp h1 with h2 | h2
            · obtain ⟨de, hde, hh⟩ := List.mem_map.mp h2
              have hde' := hdels de hde
              exact Or.inr (Or.inr (Or.inl ⟨de, hde'.1, hde'.2, hh.symm⟩))
            · obtain ⟨ie, hie, hh⟩ := List.mem_map.mp h2
              have hie' := hinsm ie hie
              exact Or.inr (Or.inr (Or.inr ⟨ie, hie'.1, hie'.2, hh.symm⟩))
        · refine hunkFromEdits_mono ?_
            (ih ((rest.dropWhile isDeleteE).dropWhile isInsertE) h h1)
          intro x hx
          exact List.mem_cons_of_mem _ ((List.dropWhile_sublist _).subset
            ((List.dropWhile_sublist _).subset hx))
      | insert =>
        simp only [consolidateGo, he] at hmem
        have hinsm : ∀ ie ∈ (e :: rest.takeWhile isInsertE),
            ie ∈ e :: rest ∧ ie.type = .insert := by
          intro ie hie
          rcases List.mem_cons.mp hie with h2 | h2
          · exact ⟨h2 ▸ List.mem_cons_self _ _, h2 ▸ he⟩
          · refine ⟨List.mem_cons_of_mem _ ((List.takeWhile_sublist _).subset h2), ?_⟩
            have := List.mem_takeWhile_imp h2
            simpa [isInsertE] using this
        rcases List.mem_append.mp hmem with h1 | h1
        · obtain ⟨ie, hie, hh⟩ := List.mem_map.mp h1
          have hie' := hinsm ie hie
          exact Or.inr (Or.inr (Or.inr ⟨ie, hie'.1, hie'.2, hh.symm⟩))
        · refine hunkFromEdits_mono ?_ (ih (rest.dropWhile isInsertE) h h1)
          intro x hx
          exact List.mem_cons_of_mem _ ((List.dropWhile_sublist _).subset hx)

/-- The edit list the backtracker produces touches left index 0, 1, ...,
a.length - 1 in order through its equal and delete edits, and right index
0, 1, ..., b.length - 1 in order through its equal and insert edits. -/
theorem myersEditsCore_indices (a b : List String) :
    editLefts (myersEditsCore a b) = (List.range a.length).map (fun i : ℕ => (i : ℤ)) ∧
    editRights (myersEditsCore a b) = (List.range b.length).map (fun i : ℕ => (i : ℤ)) := by
  have hex : ∃ d, DoneAt a b d := ⟨a.length + b.length, doneAt_corner a b⟩
  obtain ⟨h1, h2, _⟩ := myersEditsCore_spec a b (Nat.find hex) (Nat.find_spec hex)
    (fun d' hd' => Nat.find_min hex hd')
  exact ⟨h1, h2⟩

theorem li_mem_editLefts {es : List Edit} {e : Edit} (hm : e ∈ es)
    (ht : e.type = .equal ∨ e.type = .delete) : e.li ∈ editLefts es := by
  refine List.mem_filterMap.mpr ⟨e, hm, ?_⟩
  rcases ht with h | h <;> rw [h]

theorem ri_mem_editRights {es : List Edit} {e : Edit} (hm : e ∈ es)
    (ht : e.type = .equal ∨ e.type = .insert) : e.ri ∈ editRights es := by
  refine List.mem_filterMap.mpr ⟨e, hm, ?_⟩
  rcases ht with h | h <;> rw [h]

theorem mem_range_cast {n : ℕ} {v : ℤ}
    (h : v ∈ (List.range n).map (fun i : ℕ => (i : ℤ))) : 0 ≤ v ∧ v < n := by
  obtain ⟨i, hi, hv⟩ := List.mem_map.mp h
  rw [List.mem_range] at hi
  omega

/- ───────────────── C2 core: the hunks cover both inputs ───────────────── -/

/-- The hunks whose left side is present (equal, changed, removed). -/
def leftHunks (hs : List Hunk) : List Hunk :=
  hs.filter fun h => h.type != HunkType.added

/-- The hunks whose right side is present (equal, changed, added). -/
def rightHunks (hs : List Hunk) : List Hunk :=
  hs.filter fun h => h.type != HunkType.removed

theorem editLefts_all_del : ∀ (es : List Edit), (∀ e ∈ es, isDeleteE e = true) →
    editLefts es = es.map Edit.li := by
  intro es
  induction es with
  | nil => intro _; rfl
  | cons e rest ih =>
    intro h
    have he : e.type = .delete := by
      have := h e (List.mem_cons_self _ _)
      simpa [isDeleteE] using this
    have ht := ih fun x hx => h x (List.mem_cons_of_mem _ hx)
    simp only [editLefts, List.filterMap_cons, he, List.map_cons] at ht ⊢
    rw [ht]

theorem editLefts_all_ins : ∀ (es : List Edit), (∀ e ∈ es, isInsertE e = true) →
    editLefts es = [] := by
  intro es
  induction es with
  | nil => intro _; rfl
  | cons e rest ih =>
    intro h
    have he : e.type = .insert := by
      have := h e (List.mem_cons_self _ _)
      simpa [isInsertE] using this
    have ht := ih fun x hx => h x (List.mem_cons_of_mem _ hx)
    simp only [editLefts, List.filterMap_cons, he] at ht ⊢
    exact ht

theorem editRights_all_ins : ∀ (es : List Edit), (∀ e ∈ es, isInsertE e = true) →
    editRights es = es.map Edit.ri := by
  intro es
  induction es with
  | nil => intro _; rfl
  | cons e rest ih =>
    intro h
    have he : e.type = .insert := by
      have := h e (List.mem_cons_self _ _)
      simpa [isInsertE] using this
    have ht := ih fun x hx => h x (List.mem_cons_of_mem _ hx)
    simp only [editRights, List.filterMap_cons, he, List.map_cons] at ht ⊢
    rw [ht]

theorem editRights_all_del : ∀ (es : List Edit), (∀ e ∈ es, isDeleteE e = true) →
    editRights es = [] := by
  intro es
  induction es with
  | nil => intro _; rfl
  | cons e rest ih =>
    intro h
    have he : e.type = .delete := by
      have := h e (List.mem_cons_self _ _)
      simpa [isDeleteE] using this
    have ht := ih fun x hx => h x (List.mem_cons_of_mem _ hx)
    simp only [editRights, List.filterMap_cons, he] at ht ⊢
    exact ht

theorem zipChanged_leftHunks (left right : List String) (l1 l2 : List Edit) :
    leftHunks (List.zipWith (fun de ie =>
      (⟨.changed, [jsGet left de.li], [jsGet right ie.ri], de.li, ie.ri⟩ : Hunk)) l1 l2)
      = List.zipWith (fun de ie =>
        (⟨.changed, [jsGet left de.li], [jsGet right ie.ri], de.li, ie.ri⟩ : Hunk)) l1 l2 := by
  refine List.filter_eq_self.mpr ?_
  intro x hx
  obtain ⟨a, _, b, _, hxe⟩ := mem_zipWith_sh hx
  subst hxe
  rfl

theorem zipChanged_rightHunks (left right : List String) (l1 l2 : List Edit) :
    rightHunks (List.zipWith (fun de ie =>
      (⟨.changed, [jsGet left de.li], [jsGet right ie.ri], de.li, ie.ri⟩ : Hunk)) l1 l2)
      = List.zipWith (fun de ie =>
        (⟨.changed, [jsGet left de.li], [jsGet right ie.ri], de.li, ie.ri⟩ : Hunk)) l1 l2 := by
  refine List.filter_eq_self.mpr ?_
  intro x hx
  obtain ⟨a, _, b, _, hxe⟩ := mem_zipWith_sh hx
  subst hxe
  rfl

theorem zipChanged_lStart (left right : List String) :
    ∀ (l1 l2 : List Edit),
      (List.zipWith (fun de ie =>
        (⟨.changed, [jsGet left de.li], [jsGet right ie.ri], de.li, ie.ri⟩ : Hunk)) l1 l2).map
          Hunk.lStart = (l1.take l2.length).map Edit.li := by
  intro l1
  induction l1 with
  | nil => intro l2; simp
  | cons a l1 ih =>
    intro l2
    cases l2 with
    | nil => simp
    | cons b l2 => simp [ih l2]

theorem zipChanged_rStart (left right : List String) :
    ∀ (l1 l2 : List Edit),
      (List.zipWith (fun de ie =>
        (⟨.changed, [jsGet left de.li], [jsGet right ie.ri], de.li, ie.ri⟩ : Hunk)) l1 l2).map
          Hunk.rStart = (l2.take l1.length).map Edit.ri := by
  intro l1
  induction l1 with
  | nil => intro l2; simp
  | cons a l1 ih =>
    intro l2
    cases l2 with
    | nil => simp
    | cons b l2 => simp [ih l2]

theorem rmMap_leftHunks (left : List String) (l : List Edit) :
    leftHunks (l.map (fun de => (⟨.removed, [jsGet left de.li], [""], de.li, -1⟩ : Hunk)))
      = l.map (fun de => (⟨.removed, [jsGet left de.li], [""], de.li, -1⟩ : Hunk)) := by
  refine List.filter_eq_self.mpr ?_
  intro x hx
  obtain ⟨a, _, hxe⟩ := List.mem_map.mp hx
  subst hxe
  rfl

theorem rmMap_rightHunks (left : List String) (l : List Edit) :
    rightHunks (l.map (fun de => (⟨.removed, [jsGet left de.li], [""], de.li, -1⟩ : Hunk)))
      = [] := by
  rw [rightHunks, List.filter_eq_nil_iff]
  intro x hx
  obtain ⟨a, _, hxe⟩ := List.mem_map.mp hx
  subst hxe
  simp

theorem rmMap_lStart (left : List String) (l : List Edit) :
    (l.map (fun de => (⟨.removed, [jsGet left de.li], [""], de.li, -1⟩ : Hunk))).map
      Hunk.lStart = l.map Edit.li := by
  rw [List.map_map]
  exact List.map_congr_left fun x _ => rfl

theorem adMap_leftHunks (right : List String) (l : List Edit) :
    leftHunks (l.map (fun ie => (⟨.added, [""], [jsGet right ie.ri], -1, ie.ri⟩ : Hunk)))
      = [] := by
  rw [leftHunks, List.filter_eq_nil_iff]
  intro x hx
  obtain ⟨a, _, hxe⟩ := List.mem_map.mp hx
  subst hxe
  simp

theorem adMap_rightHunks (right : List String) (l : List Edit) :
    rightHunks (l.map (fun ie => (⟨.added, [""], [jsGet right ie.ri], -1, ie.ri⟩ : Hunk)))
      = l.map (fun ie => (⟨.added, [""], [jsGet right ie.ri], -1, ie.ri⟩ : Hunk)) := by
  refine List.filter_eq_self.mpr ?_
  intro x hx
  obtain ⟨a, _, hxe⟩ := List.mem_map.mp hx
  subst hxe
  rfl

theorem adMap_rStart (right : List String) (l : List Edit) :
    (l.map (fun ie => (⟨.added, [""], [jsGet right ie.ri], -1, ie.ri⟩ : Hunk))).map
      Hunk.rStart = l.map Edit.ri := by
  rw [List.map_map]
  exact List.map_congr_left fun x _ => rfl

theorem consolidateGo_starts (left right : List String) :
    ∀ (fuel : ℕ) (es : List Edit), es.length ≤ fuel →
      (leftHunks (consolidateGo left right fuel es)).map Hunk.lStart = editLefts es ∧
      (rightHunks (consolidateGo left right fuel es)).map Hunk.rStart = editRights es := by
  intro fuel
  induction fuel with
  | zero =>
    intro es hlen
    have : es = [] := by
      cases es with
      | nil => rfl
      | cons e rest => simp at hlen
    subst this
    exact ⟨rfl, rfl⟩
  | succ fuel ih =>
    intro es hlen
    cases es with
    | nil => exact ⟨rfl, rfl⟩
    | cons e rest =>
      have hrlen : rest.length ≤ fuel := by simp at hlen; omega
      cases he : e.type with
      | equal =>
        obtain ⟨ih1, ih2⟩ := ih rest hrlen
        simp only [consolidateGo, he]
        constructor
        · rw [leftHunks, List.filter_cons_of_pos (by rfl)]
          rw [← leftHunks, List.map_cons, ih1]
          simp only [editLefts, List.filterMap_cons, he]
        · rw [rightHunks, List.filter_cons_of_pos (by rfl)]
          rw [← rightHunks, List.map_cons, ih2]
          simp only [editRights, List.filterMap_cons, he]
      | delete =>
        have h1 : (rest.dropWhile isDeleteE).length ≤ rest.length :=
          lengthDropWhileLe isDeleteE rest
        have h2 : ((rest.dropWhile isDeleteE).dropWhile isInsertE).length ≤
            (rest.dropWhile isDeleteE).length :=
          lengthDropWhileLe isInsertE (rest.dropWhile isDeleteE)
        obtain ⟨ih1, ih2⟩ := ih ((rest.dropWhile isDeleteE).dropWhile isInsertE) (by omega)
        have hdall : ∀ x ∈ (e :: rest.takeWhile isDeleteE), isDeleteE x = true := by
          intro x hx
          rcases List.mem_cons.mp hx with h | h
          · subst h; simp [isDeleteE, he]
          · exact List.mem_takeWhile_imp h
        have hiall : ∀ x ∈ (rest.dropWhile isDeleteE).takeWhile isInsertE,
            isInsertE x = true := by
          intro x hx
          exact List.mem_takeWhile_imp hx
        have heL : editLefts (e :: rest) =
            (e :: rest.takeWhile isDeleteE).map Edit.li ++
              editLefts ((rest.dropWhile isDeleteE).dropWhile isInsertE) := by
          have hs1 : rest = rest.takeWhile isDeleteE ++ rest.dropWhile isDeleteE :=
            (List.takeWhile_append_dropWhile isDeleteE rest).symm
          have hs2 : rest.dropWhile isDeleteE =
              (rest.dropWhile isDeleteE).takeWhile isInsertE ++
                (rest.dropWhile isDeleteE).dropWhile isInsertE :=
            (List.takeWhile_append_dropWhile isInsertE (rest.dropWhile isDeleteE)).symm
          conv => lhs; rw [hs1, hs2]
          rw [← List.cons_append]
          rw [editLefts_append, editLefts_append]
          rw [editLefts_all_del (e :: rest.takeWhile isDeleteE) hdall]
          rw [editLefts_all_ins ((rest.dropWhile isDeleteE).takeWhile isInsertE) hiall]
          rw [List.nil_append]
        have heR : editRights (e :: rest) =
            ((rest.dropWhile isDeleteE).takeWhile isInsertE).map Edit.ri ++
              editRights ((rest.dropWhile isDeleteE).dropWhile isInsertE) := by
          have hs1 : rest = rest.takeWhile isDeleteE ++ rest.dropWhile isDeleteE :=
            (List.takeWhile_append_dropWhile isDeleteE rest).symm
          have hs2 : rest.dropWhile isDeleteE =
              (rest.dropWhile isDeleteE).takeWhile isInsertE ++
                (rest.dropWhile isDeleteE).dropWhile isInsertE :=
            (List.takeWhile_append_dropWhile isInsertE (rest.dropWhile isDeleteE)).symm
          conv => lhs; rw [hs1, hs2]
          rw [← List.cons_append]
          rw [editRights_append, editRights_append]
          rw [editRights_all_del (e :: rest.takeWhile isDeleteE) hdall]
          rw [editRights_all_ins ((rest.dropWhile isDeleteE).takeWhile isInsertE) hiall]
          rw [List.nil_append]
        simp only [consolidateGo, he]
        by_cases hc : 0 < (e :: rest.takeWhile isDeleteE).length ∧
            0 < ((rest.dropWhile isDeleteE).takeWhile isInsertE).length
        · rw [if_pos hc]
          constructor
          · rw [leftHunks, List.filter_append, List.filter_append, List.filter_append]
            rw [← leftHunks, ← leftHunks, ← leftHunks, ← leftHunks]
            rw [zipChanged_leftHunks, rmMap_leftHunks, adMap_leftHunks]
            rw [List.append_nil, List.map_append, List.map_append]
            rw [zipChanged_lStart, rmMap_lStart, ih1]
            rw [heL]
            rw [← List.map_append]
            rw [take_drop_min]
          · rw [rightHunks, List.filter_append, List.filter_append, List.filter_append]
            rw [← rightHunks, ← rightHunks, ← rightHunks, ← rightHunks]
            rw [zipChanged_rightHunks, rmMap_rightHunks, adMap_rightHunks]
            rw [List.append_nil, List.map_append, List.map_append]
            rw [zipChanged_rStart, adMap_rStart, ih2]
            rw [heR]
            rw [← List.map_append]
            rw [Nat.min_comm]
            rw [take_drop_min]
        · rw [if_neg hc]
          constructor
          · rw [leftHunks, List.filter_append, List.filter_append]
            rw [← leftHunks, ← leftHunks, ← leftHunks]
            rw [rmMap_leftHunks, adMap_leftHunks]
            rw [List.append_nil, List.map_append]
            rw [rmMap_lStart, ih1]
            rw [heL]
          · rw [rightHunks, List.filter_append, List.filter_append]
            rw [← rightHunks, ← rightHunks, ← rightHunks]
            rw [rmMap_rightHunks, adMap_rightHunks]
            rw [List.nil_append, List.map_append]
            rw [adMap_rStart, ih2]
            rw [heR]
      | insert =>
        have h1 : (rest.dropWhile isInsertE).length ≤ rest.length :=
          lengthDropWhileLe isInsertE rest
        obtain ⟨ih1, ih2⟩ := ih (rest.dropWhile isInsertE) (by omega)
        have hiall : ∀ x ∈ (e :: rest.takeWhile isInsertE), isInsertE x = true := by
          intro x hx
          rcases List.mem_cons.mp hx with h | h
          · subst h; simp [isInsertE, he]
          · exact List.mem_takeWhile_imp h
        have heL : editLefts (e :: rest) = editLefts (rest.dropWhile isInsertE) := by
          have hs1 : rest = rest.takeWhile isInsertE ++ rest.dropWhile isInsertE :=
            (List.takeWhile_append_dropWhile isInsertE rest).symm
          conv => lhs; rw [hs1]
          rw [← List.cons_append]
          rw [editLefts_append]
          rw [editLefts_all_ins (e :: rest.takeWhile isInsertE) hiall]
          rw [List.nil_append]
        have heR : editRights (e :: rest) =
            (e :: rest.takeWhile isInsertE).map Edit.ri ++
              editRights (rest.dropWhile isInsertE) := by
          have hs1 : rest = rest.takeWhile isInsertE ++ rest.dropWhile isInsertE :=
            (List.takeWhile_append_dropWhile isInsertE rest).symm
          conv => lhs; rw [hs1]
          rw [← List.cons_append]
          rw [editRights_append]
          rw [editRights_all_ins (e :: rest.takeWhile isInsertE) hiall]
        simp only [consolidateGo, he]
        constructor
        · rw [leftHunks, List.filter_append]
          rw [← leftHunks, ← leftHunks]
          rw [adMap_leftHunks]
          rw [List.nil_append, ih1]
          rw [heL]
        · rw [rightHunks, List.filter_append]
          rw [← rightHunks, ← rightHunks]
          rw [adMap_rightHunks]
          rw [List.map_append]
          rw [adMap_rStart, ih2]
          rw [heR]

theorem hunkLines_of_shapes {left right : List String} {es : List Edit} {h : Hunk}
    (hsh : HunkFromEdits left right es h) :
    (h.type ≠ .added → h.lLines = [jsGet left h.lStart]) ∧
    (h.type ≠ .removed → h.rLines = [jsGet right h.rStart]) := by
  rcases hsh with ⟨e, _, _, hh⟩ | ⟨e, _, f, _, _, _, hh⟩ | ⟨e, _, _, hh⟩ | ⟨e, _, _, hh⟩ <;>
    subst hh
  · exact ⟨fun _ => rfl, fun _ => rfl⟩
  · exact ⟨fun _ => rfl, fun _ => rfl⟩
  · exact ⟨fun _ => rfl, fun hc => absurd rfl hc⟩
  · exact ⟨fun hc => absurd rfl hc, fun _ => rfl⟩

theorem flatten_singletons {α β : Type} (f : α → β) :
    ∀ l : List α, (l.map fun x => [f x]).flatten = l.map f := by
  intro l
  induction l with
  | nil => rfl
  | cons a l ih => simp [ih]

theorem rangeMapGetD (l : List String) :
    (List.range l.length).map (fun i : ℕ => l.getD i "") = l := by
  refine List.ext_getElem (by simp) fun i h1 h2 => ?_
  simp only [List.getElem_map, List.getElem_range]
  exact List.getD_eq_getElem l "" h2

theorem jsGetCover (l : List String) :
    ((List.range l.length).map (fun i : ℕ => (i : ℤ))).map (jsGet l) = l := by
  rw [List.map_map]
  have he : (jsGet l ∘ fun i : ℕ => (i : ℤ)) = fun i : ℕ => l.getD i "" := by
    funext i
    simp [jsGet]
  rw [he]
  exact rangeMapGetD l

/- ───────────────── C1 core: edit scripts and the edit graph ───────────── -/

theorem alignsSnocKeep {xs ys : List String} {es : List Step} (v : String)
    (h : Aligns xs ys es) : Aligns (xs ++ [v]) (ys ++ [v]) (es ++ [Step.keep]) := by
  induction h with
  | nil => exact Aligns.keep Aligns.nil
  | keep _ ih => exact Aligns.keep ih
  | del _ ih => exact Aligns.del ih
  | ins _ ih => exact Aligns.ins ih

theorem alignsSnocDel {xs ys : List String} {es : List Step} (v : String)
    (h : Aligns xs ys es) : Aligns (xs ++ [v]) ys (es ++ [Step.del]) := by
  induction h with
  | nil => exact Aligns.del Aligns.nil
  | keep _ ih => exact Aligns.keep ih
  | del _ ih => exact Aligns.del ih
  | ins _ ih => exact Aligns.ins ih

theorem alignsSnocIns {xs ys : List String} {es : List Step} (v : String)
    (h : Aligns xs ys es) : Aligns xs (ys ++ [v]) (es ++ [Step.ins]) := by
  induction h with
  | nil => exact Aligns.ins Aligns.nil
  | keep _ ih => exact Aligns.keep ih
  | del _ ih => exact Aligns.del ih
  | ins _ ih => exact Aligns.ins ih

theorem take_succ_getD (l : List String) (x : ℕ) (h : x < l.length) :
    l.take (x + 1) = l.take x ++ [l.getD x ""] := by
  rw [List.take_succ]
  congr 1
  rw [List.getElem?_eq_getElem h, List.getD_eq_getElem l "" h]
  rfl

/-- Every reachable point of the edit graph is realized by an edit script
between the prefixes, of cost the path's number of non-diagonal moves. -/
theorem reachToAligns (a b : List String) : ∀ {x y d : ℕ}, ReachP a b x y d →
    ∃ es : List Step, Aligns (a.take x) (b.take y) es ∧ scriptCost es = d := by
  intro x y d h
  induction h with
  | init => exact ⟨[], Aligns.nil, rfl⟩
  | diag hrec h1 h2 heq ih =>
    obtain ⟨es, hal, hc⟩ := ih
    refine ⟨es ++ [Step.keep], ?_, ?_⟩
    · rw [take_succ_getD a _ h1, take_succ_getD b _ h2, heq]
      exact alignsSnocKeep _ hal
    · simp [scriptCost, List.countP_append]
      simpa [scriptCost] using hc
  | del hrec h1 ih =>
    obtain ⟨es, hal, hc⟩ := ih
    refine ⟨es ++ [Step.del], ?_, ?_⟩
    · rw [take_succ_getD a _ h1]
      exact alignsSnocDel _ hal
    · simp [scriptCost, List.countP_append]
      simpa [scriptCost] using hc
  | ins hrec h1 ih =>
    obtain ⟨es, hal, hc⟩ := ih
    refine ⟨es ++ [Step.ins], ?_, ?_⟩
    · rw [take_succ_getD b _ h1]
      exact alignsSnocIns _ hal
    · simp [scriptCost, List.countP_append]
      simpa [scriptCost] using hc

/-- Every edit script between drop-suffixes extends a path to (x, y) into a
path to the corner whose cost grows by the script's cost. -/
theorem alignsSuffixReach {L R : List String} {es : List Step} (h : Aligns L R es) :
    ∀ (a b : List String) (x y d : ℕ), L = a.drop x → R = b.drop y →
      ReachP a b x y d → ReachP a b a.length b.length (d + scriptCost es) := by
  induction h with
  | nil =>
    intro a b x y d hL hR hr
    have hxle := reachP_le hr
    have hx : a.length ≤ x := by
      have := congrArg List.length hL
      simp at this
      omega
    have hy : b.length ≤ y := by
      have := congrArg List.length hR
      simp at this
      omega
    have hxx : x = a.length := by omega
    have hyy : y = b.length := by omega
    subst hxx
    subst hyy
    simpa [scriptCost] using hr
  | keep hrec ih =>
    rename_i v xs ys es2
    intro a b x y d hL hR hr
    have hxlt : x < a.length := by
      have := congrArg List.length hL
      simp at this
      omega
    have hylt : y < b.length := by
      have := congrArg List.length hR
      simp at this
      omega
    have htA : xs = a.drop (x + 1) := by
      have := congrArg List.tail hL
      simpa [List.tail_drop] using this
    have htB : ys = b.drop (y + 1) := by
      have := congrArg List.tail hR
      simpa [List.tail_drop] using this
    have hgA : a.getD x "" = v := by
      have h0 : (a.drop x).getD 0 "" = v := by
        rw [← hL]
        rfl
      rw [List.getD_eq_getElem _ _ (by simp; omega)] at h0
      rw [List.getD_eq_getElem a "" hxlt]
      rw [← h0]
      rw [List.getElem_drop]
      simp
    have hgB : b.getD y "" = v := by
      have h0 : (b.drop y).getD 0 "" = v := by
        rw [← hR]
        rfl
      rw [List.getD_eq_getElem _ _ (by simp; omega)] at h0
      rw [List.getD_eq_getElem b "" hylt]
      rw [← h0]
      rw [List.getElem_drop]
      simp
    have hr2 : ReachP a b (x + 1) (y + 1) d :=
      ReachP.diag hr hxlt hylt (hgA.trans hgB.symm)
    have hrec2 := ih a b (x + 1) (y + 1) d htA htB hr2
    have hc : scriptCost (Step.keep :: es2) = scriptCost es2 := by
      simp [scriptCost, List.countP_cons]
    rw [hc]
    exact hrec2
  | del hrec ih =>
    rename_i v xs ys es2
    intro a b x y d hL hR hr
    have hxlt : x < a.length := by
      have := congrArg List.length hL
      simp at this
      omega
    have htA : xs = a.drop (x + 1) := by
      have := congrArg List.tail hL
      simpa [List.tail_drop] using this
    have hr2 : ReachP a b (x + 1) y (d + 1) := ReachP.del hr hxlt
    have hrec2 := ih a b (x + 1) y (d + 1) htA hR hr2
    have hc : d + scriptCost (Step.del :: es2) = (d + 1) + scriptCost es2 := by
      simp [scriptCost, List.countP_cons]
      omega
    rw [hc]
    exact hrec2
  | ins hrec ih =>
    rename_i v xs ys es2
    intro a b x y d hL hR hr
    have hylt : y < b.length := by
      have := congrArg List.length hR
      simp at this
      omega
    have htB : ys = b.drop (y + 1) := by
      have := congrArg List.tail hR
      simpa [List.tail_drop] using this
    have hr2 : ReachP a b x (y + 1) (d + 1) := ReachP.ins hr hylt
    have hrec2 := ih a b x (y + 1) (d + 1) hL htB hr2
    have hc : d + scriptCost (Step.ins :: es2) = (d + 1) + scriptCost es2 := by
      simp [scriptCost, List.countP_cons]
      omega
    rw [hc]
    exact hrec2

/- ───────────────── C6 core: the rendered view model ───────────────────── -/

/-- The fixed markup fragments of the two renderers: table and row
scaffolding, separator text, row classes and the word markers.  None of
them carries input text. -/
def markupLits : List String :=
  ["",
   "s",
   " unchanged line",
   " ⋯</td></tr>",
   "\n<tr class=\"diff-row ",
   "\" role=\"row\">\n  <td class=\"gutter-cell\" role=\"cell\">",
   "</td>\n  <td class=\"diff-cell\" role=\"cell\">",
   "</td>\n  <td class=\"diff-divider\" role=\"presentation\"></td>\n  <td class=\"gutter-cell\" role=\"cell\">",
   "</td>\n</tr>",
   "<tr class=\"diff-separator\"><td colspan=\"6\">⋯ ",
   "<tr class=\"diff-separator\"><td colspan=\"3\">⋯ ",
   "<table class=\"diff-table\" role=\"table\"><colgroup><col/><col/><col/><col/><col/><col/></colgroup><tbody>",
   "<table class=\"inline-table\" role=\"table\"><colgroup><col/><col/><col/></colgroup><tbody>",
   "</tbody></table>",
   "<tr class=\"inline-equal\">\n  <td class=\"inline-gutter\">",
   "<tr class=\"inline-removed\">\n  <td class=\"inline-gutter\">",
   "<tr class=\"inline-added\">\n  <td class=\"inline-gutter\">  </td>\n  <td class=\"inline-gutter\">",
   "</td>\n  <td class=\"inline-gutter\">  </td>\n  <td class=\"inline-code\">",
   "</td>\n  <td class=\"inline-gutter\">−</td>\n  <td class=\"inline-code\">",
   "</td>\n  <td class=\"inline-code\">",
   "</td>\n</tr>\n<tr class=\"inline-added\">\n  <td class=\"inline-gutter\">  </td>\n  <td class=\"inline-gutter\">",
   "line-equal", "line-removed", "line-added", "line-changed",
   "<span class=\"word-added\">", "<span class=\"word-removed\">", "</span>",
   noDifferencesHtml]

/-- Strings every input-derived part of which passed through escape: the
closure of the fixed markup fragments, decimal numbers (line and skip
counts) and images of escape under concatenation.  A renderer whose whole
output satisfies this can only have included raw input text through
escape. -/
inductive SafeHtml : String → Prop
  | esc (s : String) : SafeHtml (escape s)
  | num (n : ℕ) : SafeHtml (toString n)
  | lit (s : String) : s ∈ markupLits → SafeHtml s
  | append {s t : String} : SafeHtml s → SafeHtml t → SafeHtml (s ++ t)

theorem safeJoin : ∀ L : List String, (∀ s ∈ L, SafeHtml s) → SafeHtml (String.join L) := by
  intro L
  induction L with
  | nil =>
    intro _
    rw [stringJoinNil]
    exact SafeHtml.lit "" (by decide)
  | cons s L ih =>
    intro hall
    rw [stringJoinCons]
    exact SafeHtml.append (hall s (List.mem_cons_self _ _))
      (ih fun t ht => hall t (List.mem_cons_of_mem _ ht))

theorem safeWdBlockL (p : Bool × String) : SafeHtml (wdBlockL p) := by
  rw [wdBlockL]
  by_cases hp : p.1
  · rw [if_pos hp]
    exact SafeHtml.esc p.2
  · rw [if_neg hp]
    rw [spanRemoved]
    exact SafeHtml.append (SafeHtml.append (SafeHtml.lit _ (by decide))
      (SafeHtml.esc p.2)) (SafeHtml.lit _ (by decide))

theorem safeWdBlockR (p : Bool × String) : SafeHtml (wdBlockR p) := by
  rw [wdBlockR]
  by_cases hp : p.1
  · rw [if_pos hp]
    exact SafeHtml.esc p.2
  · rw [if_neg hp]
    rw [spanAdded]
    exact SafeHtml.append (SafeHtml.append (SafeHtml.lit _ (by decide))
      (SafeHtml.esc p.2)) (SafeHtml.lit _ (by decide))

theorem safeWordDiff (lineA lineB : String) :
    SafeHtml (wordDiff lineA lineB).leftHtml ∧ SafeHtml (wordDiff lineA lineB).rightHtml := by
  obtain ⟨evsL, evsR, heq, _, _⟩ := wordDiffGoBlocksAux (tokenizeWords lineA)
    (tokenizeWords lineB) (computeLCS (tokenizeWords lineA) (tokenizeWords lineB))
    ((tokenizeWords lineA).length + (tokenizeWords lineB).length) 0 0 0 "" "" (by omega)
  have hw : wordDiff lineA lineB =
      ⟨"" ++ String.join (evsL.map wdBlockL), "" ++ String.join (evsR.map wdBlockR)⟩ := heq
  rw [hw]
  constructor
  · show SafeHtml ("" ++ String.join (evsL.map wdBlockL))
    rw [String.empty_append]
    refine safeJoin _ ?_
    intro s hs
    obtain ⟨p, _, hp⟩ := List.mem_map.mp hs
    exact hp ▸ safeWdBlockL p
  · show SafeHtml ("" ++ String.join (evsR.map wdBlockR))
    rw [String.empty_append]
    refine safeJoin _ ?_
    intro s hs
    obtain ⟨p, _, hp⟩ := List.mem_map.mp hs
    exact hp ▸ safeWdBlockR p

theorem safeTypeToRowClass (t : HunkType) : SafeHtml (typeToRowClass t) := by
  cases t <;> exact SafeHtml.lit _ (by decide)

theorem safeSepRow6 (skipped : ℕ) : SafeHtml (sepRow6 skipped) := by
  rw [sepRow6]
  refine SafeHtml.append (SafeHtml.append (SafeHtml.append (SafeHtml.append
    (SafeHtml.lit _ (by decide)) (SafeHtml.num skipped)) (SafeHtml.lit _ (by decide)))
    ?_) (SafeHtml.lit _ (by decide))
  by_cases hs : skipped ≠ 1
  · rw [if_pos hs]
    exact SafeHtml.lit _ (by decide)
  · rw [if_neg hs]
    exact SafeHtml.lit _ (by decide)

theorem safeSepRow3 (skipped : ℕ) : SafeHtml (sepRow3 skipped) := by
  rw [sepRow3]
  refine SafeHtml.append (SafeHtml.append (SafeHtml.append (SafeHtml.append
    (SafeHtml.lit _ (by decide)) (SafeHtml.num skipped)) (SafeHtml.lit _ (by decide)))
    ?_) (SafeHtml.lit _ (by decide))
  by_cases hs : skipped ≠ 1
  · rw [if_pos hs]
    exact SafeHtml.lit _ (by decide)
  · rw [if_neg hs]
    exact SafeHtml.lit _ (by decide)

theorem safeSbsRow (h : Hunk) (nums : Option ℕ × Option ℕ) : SafeHtml (sbsRow h nums) := by
  have hlNum : SafeHtml (match nums.1 with | some v => toString v | none => "") := by
    cases hn : nums.1
    · exact SafeHtml.lit "" (by decide)
    · exact SafeHtml.num _
  have hrNum : SafeHtml (match nums.2 with | some v => toString v | none => "") := by
    cases hn : nums.2
    · exact SafeHtml.lit "" (by decide)
    · exact SafeHtml.num _
  have hlCode : SafeHtml (if h.lLines.getD 0 "" ≠ "" then
      (if h.type = .changed then
        ((wordDiff (h.lLines.getD 0 "") (h.rLines.getD 0 "")).leftHtml,
         (wordDiff (h.lLines.getD 0 "") (h.rLines.getD 0 "")).rightHtml)
      else (escape (h.lLines.getD 0 ""), escape (h.rLines.getD 0 ""))).1
    else "") := by
    by_cases hne : h.lLines.getD 0 "" ≠ ""
    · rw [if_pos hne]
      by_cases hch : h.type = .changed
      · rw [if_pos hch]
        exact (safeWordDiff _ _).1
      · rw [if_neg hch]
        exact SafeHtml.esc _
    · rw [if_neg hne]
      exact SafeHtml.lit "" (by decide)
  have hrCode : SafeHtml (if h.rLines.getD 0 "" ≠ "" then
      (if h.type = .changed then
        ((wordDiff (h.lLines.getD 0 "") (h.rLines.getD 0 "")).leftHtml,
         (wordDiff (h.lLines.getD 0 "") (h.rLines.getD 0 "")).rightHtml)
      else (escape (h.lLines.getD 0 ""), escape (h.rLines.getD 0 ""))).2
    else "") := by
    by_cases hne : h.rLines.getD 0 "" ≠ ""
    · rw [if_pos hne]
      by_cases hch : h.type = .changed
      · rw [if_pos hch]
        exact (safeWordDiff _ _).2
      · rw [if_neg hch]
        exact SafeHtml.esc _
    · rw [if_neg hne]
      exact SafeHtml.lit "" (by decide)
  exact SafeHtml.append (SafeHtml.append (SafeHtml.append (SafeHtml.append
    (SafeHtml.append (SafeHtml.append (SafeHtml.append (SafeHtml.append
      (SafeHtml.append (SafeHtml.append (SafeHtml.lit _ (by decide))
        (safeTypeToRowClass h.type)) (SafeHtml.lit _ (by decide))) hlNum)
      (SafeHtml.lit _ (by decide))) hlCode) (SafeHtml.lit _ (by decide))) hrNum)
    (SafeHtml.lit _ (by decide))) hrCode) (SafeHtml.lit _ (by decide))

theorem safeInlEqualRow (ln : ℕ) (h : Hunk) : SafeHtml (inlEqualRow ln h) :=
  SafeHtml.append (SafeHtml.append (SafeHtml.append (SafeHtml.append
    (SafeHtml.lit _ (by decide)) (SafeHtml.num ln)) (SafeHtml.lit _ (by decide)))
    (SafeHtml.esc _)) (SafeHtml.lit _ (by decide))

theorem safeInlRemovedRow (ln : ℕ) (h : Hunk) : SafeHtml (inlRemovedRow ln h) :=
  SafeHtml.append (SafeHtml.append (SafeHtml.append (SafeHtml.append
    (SafeHtml.lit _ (by decide)) (SafeHtml.num ln)) (SafeHtml.lit _ (by decide)))
    (SafeHtml.esc _)) (SafeHtml.lit _ (by decide))

theorem safeInlAddedRow (rn : ℕ) (h : Hunk) : SafeHtml (inlAddedRow rn h) :=
  SafeHtml.append (SafeHtml.append (SafeHtml.append (SafeHtml.append
    (SafeHtml.lit _ (by decide)) (SafeHtml.num rn)) (SafeHtml.lit _ (by decide)))
    (SafeHtml.esc _)) (SafeHtml.lit _ (by decide))

theorem safeInlChangedRows (ln rn : ℕ) (h : Hunk) : SafeHtml (inlChangedRows ln rn h) :=
  SafeHtml.append (SafeHtml.append (SafeHtml.append (SafeHtml.append
    (SafeHtml.append (SafeHtml.append (SafeHtml.append (SafeHtml.append
      (SafeHtml.lit _ (by decide)) (SafeHtml.num ln)) (SafeHtml.lit _ (by decide)))
      (safeWordDiff _ _).1) (SafeHtml.lit _ (by decide))) (SafeHtml.num rn))
    (SafeHtml.lit _ (by decide))) (safeWordDiff _ _).2) (SafeHtml.lit _ (by decide))

theorem sbsRowsGo_eq (hunks : List Hunk) (vis : List Bool)
    (nums : List (Option ℕ × Option ℕ)) (i : ℕ) (sk : Option ℕ) (html : String) :
    sbsRowsGo hunks vis nums i sk html =
      dite (i < hunks.length)
        (fun _ =>
          if vis.getD i false = false then
            sbsRowsGo hunks vis nums (i + 1)
              (match sk with | none => some i | some s => some s) html
          else
            sbsRowsGo hunks vis nums (i + 1) none
              ((match sk with | some s => html ++ sepRow6 (i - s) | none => html)
                ++ sbsRow (hunks.getD i defaultHunk) (nums.getD i (none, none))))
        (fun _ =>
          match sk with
          | some s => html ++ sepRow6 (hunks.length - s)
          | none => html) := by
  rw [sbsRowsGo.eq_def]

theorem inlRowsGo_eq (hunks : List Hunk) (vis : List Bool)
    (i lNum rNum : ℕ) (sk : Option ℕ) (html : String) :
    inlRowsGo hunks vis i lNum rNum sk html =
      dite (i < hunks.length)
        (fun _ =>
          if vis.getD i false = false then
            inlRowsGo hunks vis (i + 1)
              (if 0 ≤ (hunks.getD i defaultHunk).lStart then lNum + 1 else lNum)
              (if 0 ≤ (hunks.getD i defaultHunk).rStart then rNum + 1 else rNum)
              (match sk with | none => some i | some s => some s) html
          else
            match (hunks.getD i defaultHunk).type with
            | .equal => inlRowsGo hunks vis (i + 1) (lNum + 1) (rNum + 1) none
                ((match sk with | some s => html ++ sepRow3 (i - s) | none => html)
                  ++ inlEqualRow lNum (hunks.getD i defaultHunk))
            | .removed => inlRowsGo hunks vis (i + 1) (lNum + 1) rNum none
                ((match sk with | some s => html ++ sepRow3 (i - s) | none => html)
                  ++ inlRemovedRow lNum (hunks.getD i defaultHunk))
            | .added => inlRowsGo hunks vis (i + 1) lNum (rNum + 1) none
                ((match sk with | some s => html ++ sepRow3 (i - s) | none => html)
                  ++ inlAddedRow rNum (hunks.getD i defaultHunk))
            | .changed => inlRowsGo hunks vis (i + 1) (lNum + 1) (rNum + 1) none
                ((match sk with | some s => html ++ sepRow3 (i - s) | none => html)
                  ++ inlChangedRows lNum rNum (hunks.getD i defaultHunk)))
        (fun _ =>
          match sk with
          | some s => html ++ sepRow3 (hunks.length - s)
          | none => html) := by
  rw [inlRowsGo.eq_def]

theorem safeSbsRowsGo (hunks : List Hunk) (vis : List Bool)
    (nums : List (Option ℕ × Option ℕ)) :
    ∀ (meas i : ℕ) (sk : Option ℕ) (html : String), hunks.length - i ≤ meas →
      SafeHtml html → SafeHtml (sbsRowsGo hunks vis nums i sk html) := by
  intro meas
  induction meas with
  | zero =>
    intro i sk html hm hs
    rw [sbsRowsGo_eq]
    rw [dif_neg (by omega)]
    cases sk with
    | none => exact hs
    | some s => exact SafeHtml.append hs (safeSepRow6 _)
  | succ meas ih =>
    intro i sk html hm hs
    rw [sbsRowsGo_eq]
    by_cases hi : i < hunks.length
    · rw [dif_pos hi]
      by_cases hv : vis.getD i false = false
      · rw [if_pos hv]
        exact ih (i + 1) _ html (by omega) hs
      · rw [if_neg hv]
        cases sk with
        | none =>
          exact ih (i + 1) none _ (by omega) (SafeHtml.append hs (safeSbsRow _ _))
        | some s =>
          exact ih (i + 1) none _ (by omega)
            (SafeHtml.append (SafeHtml.append hs (safeSepRow6 _)) (safeSbsRow _ _))
    · rw [dif_neg hi]
      cases sk with
      | none => exact hs
      | some s => exact SafeHtml.append hs (safeSepRow6 _)

set_option maxRecDepth 40000 in
theorem safeRenderSideBySide (hunks : List Hunk) : SafeHtml (renderSideBySide hunks) := by
  rw [renderSideBySide]
  by_cases hall : (hunks.all fun h => h.type == .equal) = true
  · rw [if_pos hall]
    exact SafeHtml.lit _ (by decide)
  · rw [if_neg hall]
    exact SafeHtml.append (SafeHtml.append (SafeHtml.lit _ (by decide))
      (safeSbsRowsGo hunks (visibleFlags hunks) (lineNumsGo hunks 1 1) hunks.length 0 none ""
        (by omega) (SafeHtml.lit "" (by decide)))) (SafeHtml.lit _ (by decide))

theorem safeInlRowsGo (hunks : List Hunk) (vis : List Bool) :
    ∀ (meas i lNum rNum : ℕ) (sk : Option ℕ) (html : String), hunks.length - i ≤ meas →
      SafeHtml html → SafeHtml (inlRowsGo hunks vis i lNum rNum sk html) := by
  intro meas
  induction meas with
  | zero =>
    intro i lNum rNum sk html hm hs
    rw [inlRowsGo_eq]
    rw [dif_neg (by omega)]
    cases sk with
    | none => exact hs
    | some s => exact SafeHtml.append hs (safeSepRow3 _)
  | succ meas ih =>
    intro i lNum rNum sk html hm hs
    rw [inlRowsGo_eq]
    by_cases hi : i < hunks.length
    · rw [dif_pos hi]
      by_cases hv : vis.getD i false = false
      · rw [if_pos hv]
        exact ih (i + 1) _ _ _ html (by omega) hs
      · rw [if_neg hv]
        have hh1 : SafeHtml (match sk with
            | some s => html ++ sepRow3 (i - s)
            | none => html) := by
          cases sk with
          | none => exact hs
          | some s => exact SafeHtml.append hs (safeSepRow3 _)
        cases he : (hunks.getD i defaultHunk).type with
        | equal =>
          exact ih (i + 1) _ _ none _ (by omega)
            (SafeHtml.append hh1 (safeInlEqualRow _ _))
        | removed =>
          exact ih (i + 1) _ _ none _ (by omega)
            (SafeHtml.append hh1 (safeInlRemovedRow _ _))
        | added =>
          exact ih (i + 1) _ _ none _ (by omega)
            (SafeHtml.append hh1 (safeInlAddedRow _ _))
        | changed =>
          exact ih (i + 1) _ _ none _ (by omega)
            (SafeHtml.append hh1 (safeInlChangedRows _ _ _))
    · rw [dif_neg hi]
      cases sk with
      | none => exact hs
      | some s => exact SafeHtml.append hs (safeSepRow3 _)

set_option maxRecDepth 40000 in
theorem safeRenderInline (hunks : List Hunk) : SafeHtml (renderInline hunks) := by
  rw [renderInline]
  by_cases hall : (hunks.all fun h => h.type == .equal) = true
  · rw [if_pos hall]
    exact SafeHtml.lit _ (by decide)
  · rw [if_neg hall]
    exact SafeHtml.append (SafeHtml.append (SafeHtml.lit _ (by decide))
      (safeInlRowsGo hunks (visibleFlags hunks) hunks.length 0 1 1 none ""
        (by omega) (SafeHtml.lit "" (by decide)))) (SafeHtml.lit _ (by decide))

/- ═══════════════════════ claim theorems ════════════════════════════════ -/

/-- C10: wordDiff is a total function: its lock-step walk terminates within
tokA.length + tokB.length iterations (each iteration advances ai or bi), so
the fuel-indexed walk with that fuel returns the walk's result rather than
running out. -/
theorem C10_wordDiff_total (lineA lineB : String) :
    wordDiffGoFuel (tokenizeWords lineA) (tokenizeWords lineB)
      (computeLCS (tokenizeWords lineA) (tokenizeWords lineB))
      ((tokenizeWords lineA).length + (tokenizeWords lineB).length) 0 0 0 "" "" =
      some (wordDiff lineA lineB) :=
  wordDiffGoFuelSpec (tokenizeWords lineA) (tokenizeWords lineB)
    (computeLCS (tokenizeWords lineA) (tokenizeWords lineB))
    ((tokenizeWords lineA).length + (tokenizeWords lineB).length) 0 0 0 "" "" (by omega)

/-- C5: when the token counts of the two lines satisfy
tokensLeft.length * tokensRight.length > 100000, computeLCS skips the LCS
computation and returns the empty common subsequence, and wordDiff then marks
every token of both lines as changed: every left token is wrapped as removed
and every right token as added. -/
theorem C5_lcs_size_cap (lineA lineB : String)
    (h : (tokenizeWords lineA).length * (tokenizeWords lineB).length > 100000) :
    computeLCS (tokenizeWords lineA) (tokenizeWords lineB) = [] ∧
    wordDiff lineA lineB =
      ⟨String.join ((tokenizeWords lineA).map fun t => spanRemoved (escape t)),
       String.join ((tokenizeWords lineB).map fun t => spanAdded (escape t))⟩ := by
  refine ⟨computeLCSCap _ _ h, ?_⟩
  show wordDiffGo (tokenizeWords lineA) (tokenizeWords lineB)
    (computeLCS (tokenizeWords lineA) (tokenizeWords lineB)) 0 0 0 "" "" = _
  rw [computeLCSCap _ _ h]
  have hx := wordDiffGoNilLcsAux (tokenizeWords lineA) (tokenizeWords lineB)
    ((tokenizeWords lineA).length + (tokenizeWords lineB).length) 0 0 0 "" "" (by omega)
  simpa [String.empty_append] using hx

/-- A 317-character line of dots: 317 one-character tokens, and
317 * 317 = 100489 > 100000, so it drives computeLCS into the size cap. -/
def dots317 : String := String.mk (List.replicate 317 '.')

set_option maxRecDepth 1000000 in
theorem C5_lcs_size_cap_witness :
    (tokenizeWords dots317).length * (tokenizeWords dots317).length > 100000 ∧
    computeLCS (tokenizeWords dots317) (tokenizeWords dots317) = [] := by
  have h : (tokenizeWords dots317).length * (tokenizeWords dots317).length > 100000 := by
    decide
  exact ⟨h, (C5_lcs_size_cap dots317 dots317 h).1⟩

/-- C6: every piece of raw input text included in the rendered view model
passes through escape first: the full output of renderSideBySide and
renderInline lies (for every hunk list) in the closure SafeHtml of the
fixed markup fragments, decimal line and skip counts, and images of escape
under concatenation, and so do both sides of every wordDiff result; escape
itself removes every <, >, double quote and apostrophe from its output and
leaves every ampersand only as the head of a whole emitted entity; and
wordDiff builds each side exclusively from blocks that are either an
escaped kept token or an added/removed span marker wrapping an escaped
token of the corresponding input line. -/
theorem C6_escape_safety :
    (∀ s : String, ∀ d ∈ (escape s).data, d ≠ '<' ∧ d ≠ '>' ∧ d ≠ '"' ∧ d ≠ aposChar) ∧
    (∀ s : String, AmpOk (escape s).data) ∧
    (∀ lineA lineB : String, ∃ evsL evsR : List (Bool × String),
      wordDiff lineA lineB =
        ⟨String.join (evsL.map wdBlockL), String.join (evsR.map wdBlockR)⟩ ∧
      (∀ p ∈ evsL, p.2 ∈ tokenizeWords lineA) ∧
      (∀ p ∈ evsR, p.2 ∈ tokenizeWords lineB)) ∧
    (∀ lineA lineB : String, SafeHtml (wordDiff lineA lineB).leftHtml ∧
      SafeHtml (wordDiff lineA lineB).rightHtml) ∧
    (∀ hunks : List Hunk, SafeHtml (renderSideBySide hunks) ∧
      SafeHtml (renderInline hunks)) := by
  refine ⟨escapeForbidden, escapeAmpOk, ?_, safeWordDiff,
    fun hunks => ⟨safeRenderSideBySide hunks, safeRenderInline hunks⟩⟩
  intro lineA lineB
  obtain ⟨evsL, evsR, heq, hL, hR⟩ := wordDiffGoBlocksAux (tokenizeWords lineA)
    (tokenizeWords lineB) (computeLCS (tokenizeWords lineA) (tokenizeWords lineB))
    ((tokenizeWords lineA).length + (tokenizeWords lineB).length) 0 0 0 "" "" (by omega)
  refine ⟨evsL, evsR, ?_, hL, hR⟩
  show wordDiffGo (tokenizeWords lineA) (tokenizeWords lineB)
    (computeLCS (tokenizeWords lineA) (tokenizeWords lineB)) 0 0 0 "" "" = _
  rw [heq]
  rw [String.empty_append, String.empty_append]

/-- C4 counterexample: with both input texts empty, run does not return an
empty-hunks result: splitLines turns the empty text into the one-line
sequence [""], the aligner matches the two empty lines, and the result is a
success carrying exactly one Equal hunk. -/
theorem C4_empty_run_counterexample :
    (runWith (fun s => Except.ok s) "" "" ⟨false, false, "inline"⟩).hunksOf
        = [⟨.equal, [""], [""], 0, 0⟩] ∧
    (runWith (fun s => Except.ok s) "" "" ⟨false, false, "inline"⟩).hunksOf ≠ [] := by
  constructor
  · decide
  · decide

/-- C4 amended: the short-circuit to an empty edit list happens at the level
of the aligner's sequences, not of run's texts: myersDiff on two empty line
sequences yields no hunks (and the core search yields no edits), while
run("", "") reaches the aligner with the one-line sequences [""] and returns
a success result with one Equal hunk, not an empty-hunks result. -/
theorem C4_degenerate_alignment :
    myersEditsCore [] [] = [] ∧
    myersDiff [] [] false = [] ∧ myersDiff [] [] true = [] ∧
    (runWith (fun s => Except.ok s) "" "" ⟨false, false, "inline"⟩).hunksOf
      = [⟨.equal, [""], [""], 0, 0⟩] := by
  refine ⟨rfl, rfl, rfl, by decide⟩

/-- C8: in structured (JSON) mode a parse failure aborts the whole
comparison: run returns the error shape naming the failing side with the
parser's message appended, and no hunks are produced (the error result
carries none). -/
theorem C8_structured_parse_error (nj : String → Except String String)
    (lt rt : String) (opts : Options) (hjson : opts.jsonMode = true) :
    (∀ msg, nj lt = .error msg →
      runWith nj lt rt opts = .error ("Left pane: Invalid JSON — " ++ msg) ∧
      (runWith nj lt rt opts).hunksOf = []) ∧
    (∀ l msg, nj lt = .ok l → nj rt = .error msg →
      runWith nj lt rt opts = .error ("Right pane: Invalid JSON — " ++ msg) ∧
      (runWith nj lt rt opts).hunksOf = []) := by
  constructor
  · intro msg herr
    rw [runWith, if_pos hjson, herr]
    exact ⟨rfl, rfl⟩
  · intro l msg hok herr
    rw [runWith, if_pos hjson, hok, herr]
    exact ⟨rfl, rfl⟩

theorem C8_structured_parse_error_witness :
    runWith (fun _ => Except.error "boom") "notjson" "1" ⟨false, true, "inline"⟩
        = .error ("Left pane: Invalid JSON — " ++ "boom") ∧
    (runWith (fun _ => Except.error "boom") "notjson" "1" ⟨false, true, "inline"⟩).hunksOf = [] :=
  (C8_structured_parse_error (fun _ => Except.error "boom") "notjson" "1"
    ⟨false, true, "inline"⟩ rfl).1 "boom" rfl

/-- C3: a maximal run of delete edits immediately followed by a maximal run
of insert edits is consolidated as one changed block: deletes and inserts
are paired positionally index-for-index into exactly
min(deleteRunLength, insertRunLength) changed hunks, surplus deletes become
removed hunks, surplus inserts become added hunks, and the block precedes
the consolidation of the remaining edits (document order is preserved). -/
theorem C3_changed_block (left right : List String) (dels ins rest : List Edit)
    (hd : 0 < dels.length) (hi : 0 < ins.length)
    (hdel : ∀ e ∈ dels, e.type = .delete)
    (hins : ∀ e ∈ ins, e.type = .insert)
    (hmax : ∀ e ∈ rest.take 1, e.type ≠ .delete ∧ e.type ≠ .insert) :
    consolidate left right (dels ++ ins ++ rest) =
      (List.zipWith (fun de ie =>
          (⟨.changed, [jsGet left de.li], [jsGet right ie.ri], de.li, ie.ri⟩ : Hunk)) dels ins
        ++ (dels.drop (min dels.length ins.length)).map
            (fun de => ⟨.removed, [jsGet left de.li], [""], de.li, -1⟩)
        ++ (ins.drop (min dels.length ins.length)).map
            (fun ie => ⟨.added, [""], [jsGet right ie.ri], -1, ie.ri⟩))
        ++ consolidate left right rest ∧
    (List.zipWith (fun de ie =>
        (⟨.changed, [jsGet left de.li], [jsGet right ie.ri], de.li, ie.ri⟩ : Hunk))
      dels ins).length = min dels.length ins.length := by
  refine ⟨consolidate_changed_block left right dels ins rest hd hi hdel hins hmax, ?_⟩
  exact List.length_zipWith _ dels ins

theorem C3_changed_block_witness :
    consolidate ["a", "b"] ["x"]
        [⟨.delete, 0, -1⟩, ⟨.delete, 1, -1⟩, ⟨.insert, -1, 0⟩] =
      [⟨.changed, ["a"], ["x"], 0, 0⟩, ⟨.removed, ["b"], [""], 1, -1⟩] :=
  ((C3_changed_block ["a", "b"] ["x"] [⟨.delete, 0, -1⟩, ⟨.delete, 1, -1⟩]
    [⟨.insert, -1, 0⟩] [] (by decide) (by decide) (by decide) (by decide)
    (by decide)).1).trans (by decide)

/-- C9: every hunk myersDiff produces satisfies the side-presence invariant:
equal and changed hunks carry a line on both sides at valid in-range
indices, added hunks carry only the right side (left start is the absent
marker -1), and removed hunks carry only the left side (right start is -1). -/
theorem C9_side_presence (left right : List String) (iw : Bool) :
    ∀ h ∈ myersDiff left right iw,
      (h.type = .equal ∨ h.type = .changed →
        0 ≤ h.lStart ∧ h.lStart < left.length ∧ h.lLines = [jsGet left h.lStart] ∧
        0 ≤ h.rStart ∧ h.rStart < right.length ∧ h.rLines = [jsGet right h.rStart]) ∧
      (h.type = .added → h.lStart = -1 ∧ h.lLines = [""] ∧
        0 ≤ h.rStart ∧ h.rStart < right.length ∧ h.rLines = [jsGet right h.rStart]) ∧
      (h.type = .removed → h.rStart = -1 ∧ h.rLines = [""] ∧
        0 ≤ h.lStart ∧ h.lStart < left.length ∧ h.lLines = [jsGet left h.lStart]) := by
  intro h hmem
  simp only [myersDiff] at hmem
  by_cases hnm : (left.map fun l => normalizeForCompare l iw).length +
      (right.map fun l => normalizeForCompare l iw).length = 0
  · rw [if_pos hnm] at hmem
    simp at hmem
  · rw [if_neg hnm] at hmem
    have hsh := consolidateGo_mem left right _ _ h hmem
    obtain ⟨hL, hR⟩ := myersEditsCore_indices (left.map fun l => normalizeForCompare l iw)
      (right.map fun l => normalizeForCompare l iw)
    rcases hsh with ⟨e, hm, ht, hh⟩ | ⟨e, hm, f, hmf, ht, hft, hh⟩ |
      ⟨e, hm, ht, hh⟩ | ⟨e, hm, ht, hh⟩
    · subst hh
      have hbL := mem_range_cast (hL ▸ li_mem_editLefts hm (Or.inl ht))
      have hbR := mem_range_cast (hR ▸ ri_mem_editRights hm (Or.inl ht))
      rw [List.length_map] at hbL hbR
      exact ⟨fun _ => ⟨hbL.1, hbL.2, rfl, hbR.1, hbR.2, rfl⟩,
        fun hc => HunkType.noConfusion hc, fun hc => HunkType.noConfusion hc⟩
    · subst hh
      have hbL := mem_range_cast (hL ▸ li_mem_editLefts hm (Or.inr ht))
      have hbR := mem_range_cast (hR ▸ ri_mem_editRights hmf (Or.inr hft))
      rw [List.length_map] at hbL hbR
      refine ⟨fun _ => ⟨hbL.1, hbL.2, rfl, hbR.1, hbR.2, rfl⟩,
        fun hc => HunkType.noConfusion hc, fun hc => HunkType.noConfusion hc⟩
    · subst hh
      have hbL := mem_range_cast (hL ▸ li_mem_editLefts hm (Or.inr ht))
      rw [List.length_map] at hbL
      refine ⟨fun hc => ?_, fun hc => HunkType.noConfusion hc,
        fun _ => ⟨rfl, rfl, hbL.1, hbL.2, rfl⟩⟩
      rcases hc with hc | hc <;> exact HunkType.noConfusion hc
    · subst hh
      have hbR := mem_range_cast (hR ▸ ri_mem_editRights hm (Or.inr ht))
      rw [List.length_map] at hbR
      refine ⟨fun hc => ?_, fun _ => ⟨rfl, rfl, hbR.1, hbR.2, rfl⟩,
        fun hc => HunkType.noConfusion hc⟩
      rcases hc with hc | hc <;> exact HunkType.noConfusion hc

/-- C1: the number of non-Equal edits the line-level aligner produces for two
line sequences is the true minimal edit distance between them: it is the cost
of some line-level edit script from the left sequence to the right one, and
no such script costs less. -/
theorem C1_minimal_edit_distance (a b : List String) :
    IsLeast {d : ℕ | ∃ es : List Step, Aligns a b es ∧ scriptCost es = d}
      (nonEqualCount (myersEditsCore a b)) := by
  have hex : ∃ d, DoneAt a b d := ⟨a.length + b.length, doneAt_corner a b⟩
  have hDdone := Nat.find_spec hex
  have hmin : ∀ d' < Nat.find hex, ¬DoneAt a b d' := fun d' hd' => Nat.find_min hex hd'
  have hcount : nonEqualCount (myersEditsCore a b) = Nat.find hex :=
    (myersEditsCore_spec a b (Nat.find hex) hDdone hmin).2.2
  have hreach : ReachP a b a.length b.length (Nat.find hex) := by
    obtain ⟨d', hle, hp⟩ := reach_of_doneAt a b hDdone
    have h1 : Nat.find hex ≤ d' := by
      by_contra hlt
      push_neg at hlt
      exact hmin d' hlt (doneAt_of_reach a b hp)
    have h2 : d' = Nat.find hex := by omega
    exact h2 ▸ hp
  rw [hcount]
  constructor
  · obtain ⟨es, hal, hc⟩ := reachToAligns a b hreach
    rw [List.take_length, List.take_length] at hal
    exact ⟨es, hal, hc⟩
  · rintro d ⟨es, hal, hc⟩
    have hr := alignsSuffixReach hal a b 0 0 0 (List.drop_zero a).symm
      (List.drop_zero b).symm ReachP.init
    rw [Nat.zero_add, hc] at hr
    exact Nat.find_min' hex (doneAt_of_reach a b hr)

/-- C2: the hunk sequence of myersDiff covers both inputs exactly: the left
starts of the hunks whose left side is present are 0, 1, ...,
left.length - 1 in order (each left index in exactly one hunk) and their
lLines concatenate to the left input; symmetrically for the right side. -/
theorem C2_hunks_cover (left right : List String) (iw : Bool) :
    ((leftHunks (myersDiff left right iw)).map Hunk.lLines).flatten = left ∧
    ((rightHunks (myersDiff left right iw)).map Hunk.rLines).flatten = right ∧
    (leftHunks (myersDiff left right iw)).map Hunk.lStart
      = (List.range left.length).map (fun i : ℕ => (i : ℤ)) ∧
    (rightHunks (myersDiff left right iw)).map Hunk.rStart
      = (List.range right.length).map (fun i : ℕ => (i : ℤ)) := by
  by_cases hnm : (left.map fun l => normalizeForCompare l iw).length +
      (right.map fun l => normalizeForCompare l iw).length = 0
  · have hlr : left.length = 0 ∧ right.length = 0 := by simpa using hnm
    have hl : left = [] := List.length_eq_zero.mp hlr.1
    have hr : right = [] := List.length_eq_zero.mp hlr.2
    subst hl
    subst hr
    exact ⟨rfl, rfl, rfl, rfl⟩
  · have hmd : myersDiff left right iw =
        consolidate left right (myersEditsCore (left.map fun l => normalizeForCompare l iw)
          (right.map fun l => normalizeForCompare l iw)) := by
      simp only [myersDiff]
      rw [if_neg hnm]
    obtain ⟨hS1, hS2⟩ := consolidateGo_starts left right
      (myersEditsCore (left.map fun l => normalizeForCompare l iw)
        (right.map fun l => normalizeForCompare l iw)).length
      (myersEditsCore (left.map fun l => normalizeForCompare l iw)
        (right.map fun l => normalizeForCompare l iw)) (le_refl _)
    have hS1' : (leftHunks (consolidate left right
        (myersEditsCore (left.map fun l => normalizeForCompare l iw)
          (right.map fun l => normalizeForCompare l iw)))).map Hunk.lStart =
        editLefts (myersEditsCore (left.map fun l => normalizeForCompare l iw)
          (right.map fun l => normalizeForCompare l iw)) := hS1
    have hS2' : (rightHunks (consolidate left right
        (myersEditsCore (left.map fun l => normalizeForCompare l iw)
          (right.map fun l => normalizeForCompare l iw)))).map Hunk.rStart =
        editRights (myersEditsCore (left.map fun l => normalizeForCompare l iw)
          (right.map fun l => normalizeForCompare l iw)) := hS2
    obtain ⟨hL, hR⟩ := myersEditsCore_indices (left.map fun l => normalizeForCompare l iw)
      (right.map fun l => normalizeForCompare l iw)
    rw [List.length_map] at hL
    rw [List.length_map] at hR
    rw [hL] at hS1'
    rw [hR] at hS2'
    have hptL : ∀ h ∈ leftHunks (consolidate left right
        (myersEditsCore (left.map fun l => normalizeForCompare l iw)
          (right.map fun l => normalizeForCompare l iw))),
        Hunk.lLines h = [jsGet left h.lStart] := by
      intro h hm
      obtain ⟨hm', hp⟩ := List.mem_filter.mp hm
      have hsh := consolidateGo_mem left right _ _ h hm'
      refine (hunkLines_of_shapes hsh).1 ?_
      intro hadd
      simp [hadd] at hp
    have hptR : ∀ h ∈ rightHunks (consolidate left right
        (myersEditsCore (left.map fun l => normalizeForCompare l iw)
          (right.map fun l => normalizeForCompare l iw))),
        Hunk.rLines h = [jsGet right h.rStart] := by
      intro h hm
      obtain ⟨hm', hp⟩ := List.mem_filter.mp hm
      have hsh := consolidateGo_mem left right _ _ h hm'
      refine (hunkLines_of_shapes hsh).2 ?_
      intro hrem
      simp [hrem] at hp
    rw [hmd]
    refine ⟨?_, ?_, hS1', hS2'⟩
    · have hmapL : (leftHunks (consolidate left right
          (myersEditsCore (left.map fun l => normalizeForCompare l iw)
            (right.map fun l => normalizeForCompare l iw)))).map Hunk.lLines
          = ((leftHunks (consolidate left right
              (myersEditsCore (left.map fun l => normalizeForCompare l iw)
                (right.map fun l => normalizeForCompare l iw)))).map Hunk.lStart).map
              (fun i => [jsGet left i]) := by
        rw [List.map_map]
        exact List.map_congr_left hptL
      rw [hmapL, hS1', flatten_singletons (jsGet left), jsGetCover]
    · have hmapR : (rightHunks (consolidate left right
          (myersEditsCore (left.map fun l => normalizeForCompare l iw)
            (right.map fun l => normalizeForCompare l iw)))).map Hunk.rLines
          = ((rightHunks (consolidate left right
              (myersEditsCore (left.map fun l => normalizeForCompare l iw)
                (right.map fun l => normalizeForCompare l iw)))).map Hunk.rStart).map
              (fun i => [jsGet right i]) := by
        rw [List.map_map]
        exact List.map_congr_left hptR
      rw [hmapR, hS2', flatten_singletons (jsGet right), jsGetCover]

theorem C9_side_presence_witness :
    (⟨.removed, ["x"], [""], 0, -1⟩ : Hunk) ∈ myersDiff ["x"] [] false ∧
    ((-1 : ℤ) = -1 ∧ ([""] : List String) = [""] ∧ (0 : ℤ) ≤ 0 ∧
      (0 : ℤ) < ((["x"] : List String).length : ℤ) ∧
      (["x"] : List String) = [jsGet ["x"] 0]) := by
  have hmem : (⟨.removed, ["x"], [""], 0, -1⟩ : Hunk) ∈ myersDiff ["x"] [] false := by
    decide
  exact ⟨hmem, (C9_side_presence ["x"] [] false _ hmem).2.2 rfl⟩

end Codediff
